import Mathlib

/-!
# Verification of the fossil-algorithm dispatch engines

Shallow embedding of the C sources `src/code/logic/sort.c`,
`src/code/logic/search.c` and `src/code/logic/shuffle.c` of the
fossillogic/fossil-algorithm library, together with proofs about the
embedded definitions.

Modelling conventions, fixed once for the whole file:

* The target platform is the 64-bit one the library is routinely built for:
  `sizeof(char *) = sizeof(size_t) = 8`, `sizeof(bool) = 1`.
* A C pointer argument that may be `NULL` is modelled as an `Option`;
  a buffer of `count` homogeneous elements is modelled as a Lean list whose
  length is the count.  Machine values of the integer-like element types are
  modelled as `Int` (the value stored in the element's bytes); the theorems
  that depend on value representation carry explicit range hypotheses.
* `size_t` loop indices are modelled as `Nat`.  Where the C code would wrap
  a `size_t` below zero the surrounding theorems prove the state unreachable;
  this is remarked at each such place.
* Loops without a structurally obvious bound are modelled with an explicit
  fuel parameter; a fuel-sufficiency theorem (claim C6) shows the in-range
  fuel used by the dispatch model is never exhausted for the interpolation
  loop, the one loop whose termination a claim is about.
-/

namespace FossilAlg

/-! ## Three-way comparators (sort.c / search.c, `compare_*` helpers)

All integer-valued comparators in both files have the literal form
`desc ? (vb > va) - (vb < va) : (va > vb) - (va < vb)` where `va`, `vb` are
the element values read at the given width.  `compare_bool` and
`compare_char` in sort.c additionally test `va == vb` first, which is
redundant (proved below as `compare_bool_eq_num` / `compare_char_eq_num`),
so the dispatch model uses the common form uniformly. -/

/-- `(x > y) - (x < y)` on machine values, the C idiom for a three-way
comparison result. -/
def threeWay (x y : Int) : Int :=
  (if x > y then (1 : Int) else 0) - (if x < y then (1 : Int) else 0)

/-- The shared shape of `compare_i8` … `compare_u64`, `compare_hex`,
`compare_oct`, `compare_bin`, `compare_size`, `compare_datetime`,
`compare_duration` (and the sign behaviour of `compare_char`,
`compare_bool`): swap the operands when `desc` is requested. -/
def compareNum (a b : Int) (desc : Bool) : Int :=
  if desc then threeWay b a else threeWay a b

/-- `compare_bool` from sort.c, on the `Int` value stored in the byte
(`0` = false, nonzero = true): `if (va == vb) return 0;` then
`desc ? (vb ? 1 : -1) : (va ? 1 : -1)`. -/
def compareBoolSort (a b : Int) (desc : Bool) : Int :=
  if a = b then 0
  else if desc then (if b ≠ 0 then 1 else -1) else (if a ≠ 0 then 1 else -1)

/-- `compare_char` from sort.c: the early `va == vb` test followed by the
common sign form. -/
def compareCharSort (a b : Int) (desc : Bool) : Int :=
  if a = b then 0 else compareNum a b desc

/-- On boolean byte values (`0` or `1`) the sort-side `compare_bool`
computes exactly the common numeric three-way form. -/
theorem compare_bool_eq_num (a b : Int) (desc : Bool)
    (ha : a = 0 ∨ a = 1) (hb : b = 0 ∨ b = 1) :
    compareBoolSort a b desc = compareNum a b desc := by
  rcases ha with rfl | rfl <;> rcases hb with rfl | rfl <;> cases desc <;> decide

/-- The sort-side `compare_char` equals the common numeric three-way form:
the early equality test is redundant. -/
theorem compare_char_eq_num (a b : Int) (desc : Bool) :
    compareCharSort a b desc = compareNum a b desc := by
  unfold compareCharSort compareNum threeWay
  by_cases h : a = b
  · subst h; simp
  · simp [h]

/-- `strcmp` on byte strings (C strings without interior NUL bytes are
modelled as lists of byte values; a null pointer is replaced by the empty
string by `compare_cstr` before the call, so only the list model is
needed).  Only the sign of the C result is significant; the model returns
`-1`/`0`/`1`. -/
def strcmpBytes : List Nat → List Nat → Int
  | [], [] => 0
  | [], _ :: _ => -1
  | _ :: _, [] => 1
  | a :: as, b :: bs =>
    if a < b then -1 else if b < a then 1 else strcmpBytes as bs

/-- `compare_cstr` from sort.c / search.c: `desc ? -cmp : cmp` on the
`strcmp` of the two pointed-to strings. -/
def compareCstr (a b : List Nat) (desc : Bool) : Int :=
  if desc then -(strcmpBytes a b) else strcmpBytes a b

/-! ### Order-theoretic facts about the comparators

The generic sorting proofs need antisymmetry (`c a b = -(c b a)`),
reflexivity on the induced `≤`, totality and transitivity. -/

theorem threeWay_neg (x y : Int) : threeWay x y = -threeWay y x := by
  unfold threeWay; split_ifs <;> omega

theorem threeWay_nonpos_iff (x y : Int) : threeWay x y ≤ 0 ↔ x ≤ y := by
  unfold threeWay; split_ifs <;> omega

theorem threeWay_eq_zero_iff (x y : Int) : threeWay x y = 0 ↔ x = y := by
  unfold threeWay; split_ifs <;> omega

theorem compareNum_nonpos_iff (a b : Int) (desc : Bool) :
    compareNum a b desc ≤ 0 ↔ (if desc then b ≤ a else a ≤ b) := by
  cases desc <;> simp [compareNum, threeWay_nonpos_iff]

theorem strcmpBytes_neg (a b : List Nat) : strcmpBytes a b = -(strcmpBytes b a) := by
  induction a generalizing b with
  | nil => cases b <;> simp [strcmpBytes]
  | cons x as ih =>
    cases b with
    | nil => simp [strcmpBytes]
    | cons y bs =>
      simp only [strcmpBytes]
      split_ifs <;> first | omega | exact ih bs

theorem strcmpBytes_self (a : List Nat) : strcmpBytes a a = 0 := by
  induction a with
  | nil => rfl
  | cons x as ih => simp [strcmpBytes, ih]

theorem strcmpBytes_trans {a b c : List Nat}
    (h₁ : strcmpBytes a b ≤ 0) (h₂ : strcmpBytes b c ≤ 0) :
    strcmpBytes a c ≤ 0 := by
  induction a generalizing b c with
  | nil => cases c <;> norm_num [strcmpBytes]
  | cons x as ih =>
    cases b with
    | nil => norm_num [strcmpBytes] at h₁
    | cons y bs =>
      cases c with
      | nil => norm_num [strcmpBytes] at h₂
      | cons z cs =>
        simp only [strcmpBytes] at h₁ h₂ ⊢
        split_ifs at h₁ h₂ ⊢ <;> first | omega | exact ih h₁ h₂

/-! ## Type registries

One width function per engine, mirroring `fossil_algorithm_sort_type_sizeof`
(sort.c), `fossil_algorithm_search_type_sizeof` (search.c) and
`fossil_algorithm_shuffle_type_sizeof` (shuffle.c).  A `NULL` `type_id` is
the `none` case.  64-bit platform: `sizeof(char *) = sizeof(size_t) =
sizeof(void *) = 8`, `sizeof(bool) = 1`. -/

/-- `fossil_algorithm_sort_type_sizeof` from sort.c. -/
def sort_type_sizeof : Option String → Nat
  | none => 0
  | some ty =>
    if ty = "i8" then 1 else if ty = "i16" then 2
    else if ty = "i32" then 4 else if ty = "i64" then 8
    else if ty = "u8" then 1 else if ty = "u16" then 2
    else if ty = "u32" then 4 else if ty = "u64" then 8
    else if ty = "f32" then 4 else if ty = "f64" then 8
    else if ty = "bool" then 1 else if ty = "char" then 1
    else if ty = "cstr" then 8
    else if ty = "size" then 8
    else if ty = "hex" then 8 else if ty = "oct" then 8
    else if ty = "bin" then 8
    else if ty = "datetime" then 8 else if ty = "duration" then 8
    else 0

/-- `fossil_algorithm_sort_type_supported` from sort.c. -/
def sort_type_supported (ty : Option String) : Bool :=
  sort_type_sizeof ty ≠ 0

/-- Whether `fossil_sort_select_comparator` (sort.c) returns a non-null
function pointer for the identifier. -/
def sort_has_comparator (ty : String) : Bool :=
  ty = "i8" ∨ ty = "i16" ∨ ty = "i32" ∨ ty = "i64" ∨
  ty = "u8" ∨ ty = "u16" ∨ ty = "u32" ∨ ty = "u64" ∨
  ty = "hex" ∨ ty = "oct" ∨ ty = "bin" ∨
  ty = "f32" ∨ ty = "f64" ∨
  ty = "bool" ∨ ty = "char" ∨ ty = "cstr" ∨
  ty = "size" ∨ ty = "datetime" ∨ ty = "duration"

/-- `fossil_algorithm_search_type_sizeof` from search.c: identical to the
sort registry except that `datetime`, `duration`, `any`, `null` all
resolve to width `0` (explicitly listed as unsupported in the source). -/
def search_type_sizeof : Option String → Nat
  | none => 0
  | some ty =>
    if ty = "i8" then 1 else if ty = "i16" then 2
    else if ty = "i32" then 4 else if ty = "i64" then 8
    else if ty = "u8" then 1 else if ty = "u16" then 2
    else if ty = "u32" then 4 else if ty = "u64" then 8
    else if ty = "f32" then 4 else if ty = "f64" then 8
    else if ty = "bool" then 1 else if ty = "char" then 1
    else if ty = "cstr" then 8
    else if ty = "hex" then 8 else if ty = "oct" then 8
    else if ty = "bin" then 8
    else if ty = "size" then 8
    else 0

/-- `fossil_algorithm_search_type_supported` from search.c. -/
def search_type_supported (ty : Option String) : Bool :=
  search_type_sizeof ty ≠ 0

/-- Whether `fossil_search_select_comparator` (search.c) returns a non-null
function pointer: the search selector has no entries for `hex`, `oct`,
`bin`, `datetime`, `duration`. -/
def search_has_comparator (ty : String) : Bool :=
  ty = "i8" ∨ ty = "i16" ∨ ty = "i32" ∨ ty = "i64" ∨
  ty = "u8" ∨ ty = "u16" ∨ ty = "u32" ∨ ty = "u64" ∨
  ty = "f32" ∨ ty = "f64" ∨
  ty = "char" ∨ ty = "cstr" ∨
  ty = "bool" ∨ ty = "size"

/-- `fossil_algorithm_shuffle_type_sizeof` from shuffle.c.  Unlike the sort
and search registries, `"any"` and `"null"` resolve to `sizeof(void *) = 8`
here, and `datetime`/`duration` are supported with width 8. -/
def shuffle_type_sizeof : Option String → Nat
  | none => 0
  | some ty =>
    if ty = "i8" ∨ ty = "u8" ∨ ty = "char" ∨ ty = "bool" then 1
    else if ty = "i16" ∨ ty = "u16" then 2
    else if ty = "i32" ∨ ty = "u32" ∨ ty = "f32" then 4
    else if ty = "i64" ∨ ty = "u64" ∨ ty = "f64" ∨ ty = "size" then 8
    else if ty = "cstr" then 8
    else if ty = "hex" ∨ ty = "oct" ∨ ty = "bin" ∨ ty = "datetime" ∨ ty = "duration" then 8
    else if ty = "any" ∨ ty = "null" then 8
    else 0

/-- `fossil_algorithm_shuffle_type_supported` from shuffle.c. -/
def shuffle_type_supported (ty : Option String) : Bool :=
  shuffle_type_sizeof ty > 0

/-- The signedness of the machine representation behind each sort type id
(which C element type `fossil_algorithm_sort_type_sizeof` names): used by
the model of the byte reinterpretations performed by the counting/radix
stubs.  `char` is signed on the reference x86-64 target. -/
def sort_type_signed (ty : String) : Bool :=
  ty = "i8" ∨ ty = "i16" ∨ ty = "i32" ∨ ty = "i64" ∨
  ty = "char" ∨ ty = "datetime" ∨ ty = "duration"

/-- The bytes of value `v` stored in a `w`-byte element, read back as an
unsigned integer (two's-complement wrap). -/
def toUnsigned (w : Nat) (v : Int) : Nat :=
  (v % (2 ^ (8 * w) : Nat)).toNat

/-- Read a `w`-byte unsigned value back through the lens of the named
type's representation: signed types see two's complement. -/
def ofUnsigned (w : Nat) (signed : Bool) (u : Nat) : Int :=
  if signed ∧ (2 ^ (8 * w - 1) : Nat) ≤ u then (u : Int) - (2 ^ (8 * w) : Nat) else u

/-! ## Sort algorithm stubs (second half of sort.c)

The stubs used by `fossil_algorithm_sort_exec` are the `fossil_sort_*_stub`
functions.  Each checks `!base || count < 2 || !cmp || type_size == 0` and
returns its own negative code; `base`/`cmp`/`type_size` are already
validated by the dispatcher, so only the `count < 2` component is live and
is the one modelled.  All comparator-driven stubs move whole `type_size`
blocks, so a buffer is a list of opaque elements `α` and the comparator a
parameter, exactly as in C. -/

section SortStubs

variable {α : Type} [Inhabited α]

/-- The merge step of `fossil_merge` (stub version): copy out the two
halves, then repeatedly take the left element when `cmp(...) <= 0`;
leftovers are appended. -/
def fossilMerge (cmp : α → α → Bool → Int) (desc : Bool) : List α → List α → List α
  | [], r => r
  | l, [] => l
  | a :: l, b :: r =>
    if cmp a b desc ≤ 0 then a :: fossilMerge cmp desc l (b :: r)
    else b :: fossilMerge cmp desc (a :: l) r

/-- `fossil_merge_sort_rec`: on `left..right` (inclusive) it recurses on
`left..mid` and `mid+1..right` with `mid = left + (right-left)/2`, i.e. a
first half of `⌈n/2⌉` elements. -/
def fossilMergeSortRec (cmp : α → α → Bool → Int) (desc : Bool) (l : List α) : List α :=
  if h : l.length < 2 then l
  else
    fossilMerge cmp desc
      (fossilMergeSortRec cmp desc (l.take ((l.length + 1) / 2)))
      (fossilMergeSortRec cmp desc (l.drop ((l.length + 1) / 2)))
termination_by l.length
decreasing_by
  · simp only [List.length_take]
    omega
  · simp only [List.length_drop]
    omega

/-- `fossil_sort_merge_stub`. -/
def fossil_sort_merge_stub (cmp : α → α → Bool → Int) (desc : Bool) (l : List α) :
    Int × List α :=
  if l.length < 2 then (-10, l) else (0, fossilMergeSortRec cmp desc l)

/-- The inner `while` of `fossil_sort_insertion_stub`, acting on the
reversed sorted part: keep stepping over elements `e` with
`cmp(e, tmp, desc) > 0`, then drop `tmp` in. -/
def insRev (cmp : α → α → Bool → Int) (desc : Bool) (x : α) : List α → List α
  | [] => [x]
  | e :: rest => if 0 < cmp e x desc then e :: insRev cmp desc x rest else x :: e :: rest

/-- One step of the insertion stub's outer loop: insert `arr[i]` into the
already-processed part (scanning from the right, as the C loop does). -/
def insertStep (cmp : α → α → Bool → Int) (desc : Bool) (x : α) (l : List α) : List α :=
  (insRev cmp desc x l.reverse).reverse

/-- The outer loop of `fossil_sort_insertion_stub` (i from 1 to count-1;
the singleton starting state is the i = 0 element). -/
def insertionLoop (cmp : α → α → Bool → Int) (desc : Bool) (l : List α) : List α :=
  l.foldl (fun acc x => insertStep cmp desc x acc) []

/-- `fossil_sort_insertion_stub`. -/
def fossil_sort_insertion_stub (cmp : α → α → Bool → Int) (desc : Bool) (l : List α) :
    Int × List α :=
  if l.length < 2 then (-12, l) else (0, insertionLoop cmp desc l)

/-- The inner loop of `fossil_sort_bubble_stub`: `m` adjacent
compare-and-swap steps starting at the head (`j = 0 .. m-1`). -/
def bubblePassN (cmp : α → α → Bool → Int) (desc : Bool) : Nat → List α → List α
  | 0, l => l
  | _ + 1, [] => []
  | _ + 1, [a] => [a]
  | m + 1, a :: b :: t =>
    if 0 < cmp a b desc then b :: bubblePassN cmp desc m (a :: t)
    else a :: bubblePassN cmp desc m (b :: t)

/-- The outer loop of `fossil_sort_bubble_stub`: passes of lengths
`count-1, count-2, …, 1` (the stub has no early-exit flag). -/
def bubbleRuns (cmp : α → α → Bool → Int) (desc : Bool) : Nat → List α → List α
  | 0, l => l
  | m + 1, l => bubbleRuns cmp desc m (bubblePassN cmp desc (m + 1) l)

/-- `fossil_sort_bubble_stub`. -/
def fossil_sort_bubble_stub (cmp : α → α → Bool → Int) (desc : Bool) (l : List α) :
    Int × List α :=
  if l.length < 2 then (-14, l) else (0, bubbleRuns cmp desc (l.length - 1) l)

/-- The whole-element exchange performed by `fossil_swap_bytes`-style
byte loops and the heap stub's three `memcpy`s through `tmp`: positions
`i` and `j` exchange their contents. -/
def listSwap (l : List α) (i j : Nat) : List α :=
  (l.set i (l.getD j default)).set j (l.getD i default)

/-- The `largest` selection of `fossil_heapify`: the larger of root, left
child and right child, children considered only within `count`. -/
def heapLargest (cmp : α → α → Bool → Int) (desc : Bool)
    (l : List α) (count root : Nat) : Nat :=
  let lc := 2 * root + 1
  let rc := 2 * root + 2
  let largest1 :=
    if lc < count ∧ 0 < cmp (l.getD lc default) (l.getD root default) desc then lc else root
  if rc < count ∧ 0 < cmp (l.getD rc default) (l.getD largest1 default) desc then rc
  else largest1

theorem heapLargest_cases (cmp : α → α → Bool → Int) (desc : Bool)
    (l : List α) (count root : Nat) :
    heapLargest cmp desc l count root = root ∨
      (root < heapLargest cmp desc l count root ∧
        heapLargest cmp desc l count root < count ∧
        (heapLargest cmp desc l count root = 2 * root + 1 ∨
          heapLargest cmp desc l count root = 2 * root + 2)) := by
  unfold heapLargest
  dsimp only
  split_ifs <;> omega

/-- `fossil_heapify` (stub version): pick the largest of root and its two
children within `count`, and if it is not the root, swap and recurse.
(The C function also allocates a one-element `tmp` buffer for the swap;
allocation is modelled as succeeding.) -/
def fossilHeapify (cmp : α → α → Bool → Int) (desc : Bool)
    (l : List α) (count root : Nat) : List α :=
  if _h : heapLargest cmp desc l count root = root then l
  else
    fossilHeapify cmp desc (listSwap l root (heapLargest cmp desc l count root)) count
      (heapLargest cmp desc l count root)
termination_by count - root
decreasing_by
  rcases heapLargest_cases cmp desc l count root with h | h
  · exact absurd h _h
  · omega

/-- The build phase of `fossil_sort_heap_stub`: heapify roots
`i, i-1, …, 0` (the C loop runs `i = count/2 - 1` down to `0`). -/
def heapBuildGo (cmp : α → α → Bool → Int) (desc : Bool) (count : Nat) :
    Nat → List α → List α
  | 0, l => fossilHeapify cmp desc l count 0
  | i + 1, l => heapBuildGo cmp desc count i (fossilHeapify cmp desc l count (i + 1))

/-- The extraction phase of `fossil_sort_heap_stub`: for `i` from
`count-1` down to `1`, swap the root with position `i` and re-heapify the
prefix of length `i`. -/
def heapExtractGo (cmp : α → α → Bool → Int) (desc : Bool) :
    Nat → List α → List α
  | 0, l => l
  | i + 1, l =>
    heapExtractGo cmp desc i
      (fossilHeapify cmp desc (listSwap l 0 (i + 1)) (i + 1) 0)

/-- `fossil_sort_heap_stub`. -/
def fossil_sort_heap_stub (cmp : α → α → Bool → Int) (desc : Bool) (l : List α) :
    Int × List α :=
  if l.length < 2 then (-11, l)
  else
    (0, heapExtractGo cmp desc (l.length - 1)
          (heapBuildGo cmp desc l.length (l.length / 2 - 1) l))

/-- The inner `while (j >= gap && cmp(arr[j-gap], tmp, desc) > 0)` loop of
`fossil_sort_shell_stub`: shift the strided predecessor up and continue,
or place `tmp` at `j`.  The conjunct `0 < gap` records that the
surrounding gap loop only runs for positive gaps (the loop condition is
`gap > 0`), making the recursion structurally decreasing. -/
def gapInsertLoop (cmp : α → α → Bool → Int) (desc : Bool) (gap : Nat) (tmp : α)
    (l : List α) (j : Nat) : List α :=
  if _h : gap ≤ j ∧ 0 < gap ∧ 0 < cmp (l.getD (j - gap) default) tmp desc then
    gapInsertLoop cmp desc gap tmp (l.set j (l.getD (j - gap) default)) (j - gap)
  else l.set j tmp
termination_by j
decreasing_by omega

theorem gapInsertLoop_length (cmp : α → α → Bool → Int) (desc : Bool) (gap : Nat)
    (tmp : α) : ∀ j l, (gapInsertLoop cmp desc gap tmp l j).length = l.length := by
  intro j
  induction j using Nat.strong_induction_on with
  | _ j ih =>
    intro l
    rw [gapInsertLoop]
    split_ifs with h
    · rw [ih (j - gap) (by omega)]
      simp
    · simp

/-- The middle `for (i = gap; i < count; ++i)` loop of
`fossil_sort_shell_stub`. -/
def gapPassGo (cmp : α → α → Bool → Int) (desc : Bool) (gap : Nat)
    (l : List α) (i : Nat) : List α :=
  if _h : i < l.length then
    gapPassGo cmp desc gap (gapInsertLoop cmp desc gap (l.getD i default) l i) (i + 1)
  else l
termination_by l.length - i
decreasing_by
  rw [gapInsertLoop_length]
  omega

/-- The outer gap loop of `fossil_sort_shell_stub`: gaps
`count/2, count/4, …, 1`. -/
def shellGapsGo (cmp : α → α → Bool → Int) (desc : Bool) (l : List α) (gap : Nat) :
    List α :=
  if gap = 0 then l
  else shellGapsGo cmp desc (gapPassGo cmp desc gap l gap) (gap / 2)
termination_by gap
decreasing_by omega

/-- `fossil_sort_shell_stub`. -/
def fossil_sort_shell_stub (cmp : α → α → Bool → Int) (desc : Bool) (l : List α) :
    Int × List α :=
  if l.length < 2 then (-13, l) else (0, shellGapsGo cmp desc l (l.length / 2))

/-- Modelled from the spec: `fossil_sort_qsort_stub` delegates to the C
library's `qsort_r`/`qsort`, which is **not part of this repository**; the
C standard specifies only that the array is sorted in ascending order of
the comparator (tie order unspecified).  The call is modelled by the
comparator-driven merge sort defined above; every property proved about
this path depends only on the sorted-permutation contract, which any
conforming `qsort` satisfies. -/
def fossil_sort_qsort_stub (cmp : α → α → Bool → Int) (desc : Bool) (l : List α) :
    Int × List α :=
  if l.length < 2 then (-17, l) else (0, fossilMergeSortRec cmp desc l)

end SortStubs

/-! ### Counting and radix stubs (value-level, unsigned)

`fossil_sort_counting_stub` and `fossil_sort_radix_stub` ignore the
comparator and reinterpret the element bytes as `uint8_t` resp. `uint32_t`.
They are modelled on the unsigned values (`Nat`); the dispatcher model
converts through `toUnsigned`/`ofUnsigned`. -/

/-- The `min` scan of the counting stub (`min = arr[0]`, then the loop from
`i = 1`). -/
def foldMin : List Nat → Nat
  | [] => 0
  | a :: t => t.foldl Nat.min a

/-- The `max` scan of the counting and radix stubs. -/
def foldMax : List Nat → Nat
  | [] => 0
  | a :: t => t.foldl Nat.max a

/-- The occurrence-counting loop `count_arr[arr[i] - min]++` as a function
from offsets to counters. -/
def buildCounts (minv : Nat) (l : List Nat) : Nat → Nat :=
  l.foldl (fun f x => fun d => if d = x - minv then f d + 1 else f d) (fun _ => 0)

/-- The ascending write-back loop of the counting stub: for each offset in
order, emit the value `min + d` `count_arr[d]` times. -/
def fillAsc (minv : Nat) (counts : Nat → Nat) (range : Nat) : List Nat :=
  (List.range range).flatMap (fun d => List.replicate (counts d) (minv + d))

/-- The descending write-back loop (`for (i = range; i-- > 0;)`). -/
def fillDesc (minv : Nat) (counts : Nat → Nat) (range : Nat) : List Nat :=
  (List.range range).reverse.flatMap (fun d => List.replicate (counts d) (minv + d))

/-- `fossil_sort_counting_stub` on the unsigned byte values (only
`type_size == sizeof(uint8_t)` is accepted; `calloc` is modelled as
succeeding). -/
def fossil_sort_counting_stub (type_size : Nat) (desc : Bool) (l : List Nat) :
    Int × List Nat :=
  if l.length < 2 ∨ type_size ≠ 1 then (-15, l)
  else
    let minv := foldMin l
    let maxv := foldMax l
    let counts := buildCounts minv l
    (0, if desc then fillDesc minv counts (maxv - minv + 1)
        else fillAsc minv counts (maxv - minv + 1))

/-- The decimal digit key `(arr[i] / exp) % 10` of the radix stub. -/
def radixDigit (exp v : Nat) : Nat := (v / exp) % 10

/-- The radix stub's per-pass `bucket[...]++` counting loop. -/
def buildBuckets (exp : Nat) (l : List Nat) : Nat → Nat :=
  l.foldl (fun f x => fun d => if d = radixDigit exp x then f d + 1 else f d) (fun _ => 0)

/-- The in-place inclusive prefix accumulation
`bucket[i] += bucket[i-1]`: afterwards `bucket[d]` is the number of
elements with digit `≤ d`. -/
def cumBuckets (c : Nat → Nat) (d : Nat) : Nat :=
  (List.range (d + 1)).foldl (fun s k => s + c k) 0

/-- The radix stub's downward fill loop
`for (i = count; i-- > 0;) output[--bucket[digit]] = arr[i];`, given the
array in processing order (i.e. reversed).  The state is the bucket
cursor function and the output array as a position-to-value function
(positions never written keep the placeholder `0`; the proofs show every
position `< count` is written exactly once). -/
def radixFillGo (exp : Nat) : List Nat → (Nat → Nat) → (Nat → Nat) → ((Nat → Nat) × (Nat → Nat))
  | [], b, out => (b, out)
  | v :: rest, b, out =>
    radixFillGo exp rest
      (fun k => if k = radixDigit exp v then b (radixDigit exp v) - 1 else b k)
      (fun k => if k = b (radixDigit exp v) - 1 then v else out k)

/-- One full pass of the radix stub for digit weight `exp`: count, build
the inclusive prefix sums, fill downward, copy back. -/
def radixPass (exp : Nat) (l : List Nat) : List Nat :=
  (List.range l.length).map
    (radixFillGo exp l.reverse (cumBuckets (buildBuckets exp l)) (fun _ => 0)).2

/-- The pass loop `for (uint32_t exp = 1; max / exp > 0; exp *= 10)`.
`exp` is a 32-bit unsigned counter, so `exp *= 10` wraps modulo `2^32`:
for `max ≥ 10^9` the loop keeps running with wrapped weights, and once
`exp` reaches `10^32 mod 2^32 = 0` the loop test evaluates `max / 0` —
undefined behaviour, modelled as `none`.  The fuel only bounds the
modelled recursion, never the C loop: the wrapped `exp` revisits `0`
after at most 32 multiplications, so the stub's `max + 1` fuel covers
every run (33 steps at most once `max ≥ 32`, fewer for small maxima);
fuel exhaustion is also `none` and is proved unreachable. -/
def radixLoopGo (maxv : Nat) : Nat → List Nat → Nat → Option (List Nat)
  | 0, _, _ => none
  | fuel + 1, l, exp =>
    if exp = 0 then none
    else if 0 < maxv / exp then
      radixLoopGo maxv fuel (radixPass exp l) (exp * 10 % 4294967296)
    else some l

/-- `fossil_sort_radix_stub` on the unsigned 32-bit values (only
`type_size == sizeof(uint32_t)` is accepted; descending order reverses the
ascending result in place; `malloc` is modelled as succeeding).  `none`
is the pass loop's division by zero, reached exactly when the wrapped
`exp` never exceeds `max` (e.g. for a buffer containing `4294967295`). -/
def fossil_sort_radix_stub (type_size : Nat) (desc : Bool) (l : List Nat) :
    Option (Int × List Nat) :=
  if l.length < 2 ∨ type_size ≠ 4 then some (-16, l)
  else
    match radixLoopGo (foldMax l) (foldMax l + 1) l 1 with
    | none => none
    | some sorted => some (0, if desc then sorted.reverse else sorted)

/-! ## Search algorithm implementations (search.c) -/

section SearchAlgos

variable {α : Type} [Inhabited α]

/-- The scan loop of `search_linear`: first index whose element compares
equal to the key. -/
def searchLinearGo (cmp : α → α → Bool → Int) (desc : Bool) (key : α) :
    List α → Nat → Int
  | [], _ => -1
  | a :: rest, i =>
    if cmp a key desc = 0 then (i : Int) else searchLinearGo cmp desc key rest (i + 1)

/-- `search_linear`. -/
def search_linear (cmp : α → α → Bool → Int) (desc : Bool) (l : List α) (key : α) : Int :=
  searchLinearGo cmp desc key l 0

/-- The `while (low < high)` loop of `search_binary` (also reused by the
second phase of `search_exponential`, whose loop body is identical). -/
def searchBinaryGo (cmp : α → α → Bool → Int) (desc : Bool) (l : List α) (key : α)
    (low high : Nat) : Int :=
  if _h : low < high then
    let mid := low + (high - low) / 2
    if cmp (l.getD mid default) key desc = 0 then (mid : Int)
    else if cmp (l.getD mid default) key desc < 0 then
      searchBinaryGo cmp desc l key (mid + 1) high
    else searchBinaryGo cmp desc l key low mid
  else -1
termination_by high - low
decreasing_by all_goals omega

/-- `search_binary`. -/
def search_binary (cmp : α → α → Bool → Int) (desc : Bool) (l : List α) (key : α) : Int :=
  searchBinaryGo cmp desc l key 0 l.length

/-- The final linear scan of `search_jump`
(`for (i = prev; i < count && i < step; ++i)`). -/
def searchJumpScan (cmp : α → α → Bool → Int) (desc : Bool) (l : List α) (key : α)
    (i limit : Nat) : Int :=
  if _h : i < l.length ∧ i < limit then
    if cmp (l.getD i default) key desc = 0 then (i : Int)
    else searchJumpScan cmp desc l key (i + 1) limit
  else -1
termination_by limit - i
decreasing_by omega

/-- The stepping loop of `search_jump`.  The C `sqrt((double)count)` step
size is modelled by `Nat.sqrt` (exact at the magnitudes any theorem in
this file touches).  The loop advances `prev` by at least one each
iteration, so the fuel passed by `search_jump` is never exhausted; no
claim depends on this algorithm's result. -/
def searchJumpGo (cmp : α → α → Bool → Int) (desc : Bool) (l : List α) (key : α)
    (prev step : Nat) : Nat → Int
  | 0 => -1
  | fuel + 1 =>
    if prev < l.length ∧
        cmp (l.getD (if step < l.length then step - 1 else l.length - 1) default) key desc < 0 then
      if l.length ≤ step then -1
      else searchJumpGo cmp desc l key step (step + Nat.sqrt l.length) fuel
    else searchJumpScan cmp desc l key prev step

/-- `search_jump`. -/
def search_jump (cmp : α → α → Bool → Int) (desc : Bool) (l : List α) (key : α) : Int :=
  searchJumpGo cmp desc l key 0 (Nat.sqrt l.length) (l.length + 2)

/-- The doubling loop of `search_exponential`
(`while (bound < count && cmp(ptr + bound*size, key, desc) < 0) bound *= 2;`);
fuel as for `search_jump`. -/
def searchExpoGo (cmp : α → α → Bool → Int) (desc : Bool) (l : List α) (key : α)
    (bound : Nat) : Nat → Nat
  | 0 => bound
  | fuel + 1 =>
    if bound < l.length ∧ cmp (l.getD bound default) key desc < 0 then
      searchExpoGo cmp desc l key (bound * 2) fuel
    else bound

/-- `search_exponential`: doubling phase, then the binary loop on
`[bound/2, min bound count)`. -/
def search_exponential (cmp : α → α → Bool → Int) (desc : Bool) (l : List α) (key : α) :
    Int :=
  if l.length = 0 then -1
  else
    let bound := searchExpoGo cmp desc l key 1 (l.length + 2)
    searchBinaryGo cmp desc l key (bound / 2) (min bound l.length)

/-- The initial Fibonacci ramp-up of `search_fibonacci`
(`while (fibM < count)`); the triple is `(fibM, fibMMm1, fibMMm2)`. -/
def searchFibUp (count : Nat) : Nat × Nat × Nat → Nat → Nat × Nat × Nat
  | t, 0 => t
  | (fibM, fibM1, fibM2), fuel + 1 =>
    if fibM < count then searchFibUp count (fibM1 + fibM, fibM, fibM1) fuel
    else (fibM, fibM1, fibM2)

/-- The main loop of `search_fibonacci`.  The C `offset` is a `size_t`
initialised to `-1` (i.e. `SIZE_MAX`) and exploited through wraparound in
`offset + fibMMm2` and `offset + 1`; it is modelled as an `Int` carrying
the intended value `-1`, which yields the same indices in every state the
loop reaches.  Fibonacci subtractions are exact in reachable states; `Nat`
subtraction is truncated.  No claim depends on this algorithm's result. -/
def searchFibGo (cmp : α → α → Bool → Int) (desc : Bool) (l : List α) (key : α) :
    Nat → Nat → Nat → Int → Nat → Int
  | _, fibM1, _, offset, 0 =>
    if fibM1 ≠ 0 ∧ offset + 1 < (l.length : Int) ∧
        cmp (l.getD (offset + 1).toNat default) key desc = 0 then offset + 1 else -1
  | fibM, fibM1, fibM2, offset, fuel + 1 =>
    if 1 < fibM then
      let i : Nat :=
        if offset + (fibM2 : Int) < (l.length : Int) - 1 then (offset + (fibM2 : Int)).toNat
        else l.length - 1
      if cmp (l.getD i default) key desc < 0 then
        searchFibGo cmp desc l key fibM1 fibM2 (fibM1 - fibM2) (i : Int) fuel
      else if 0 < cmp (l.getD i default) key desc then
        searchFibGo cmp desc l key fibM2 (fibM1 - fibM2) (fibM2 - (fibM1 - fibM2)) offset fuel
      else (i : Int)
    else
      if fibM1 ≠ 0 ∧ offset + 1 < (l.length : Int) ∧
          cmp (l.getD (offset + 1).toNat default) key desc = 0 then offset + 1 else -1

/-- `search_fibonacci`. -/
def search_fibonacci (cmp : α → α → Bool → Int) (desc : Bool) (l : List α) (key : α) :
    Int :=
  let t := searchFibUp l.length (1, 1, 0) (l.length + 2)
  searchFibGo cmp desc l key t.1 t.2.1 t.2.2 (-1) (l.length + 2)

/-- Exact-rational model of the interpolation position estimate
`pos = low + (size_t)(((double)(high - low) * (k - arr[low])) / (arr[high] - arr[low]))`.
The double-precision computation is exact below `2^53`, i.e. at every
magnitude the concrete theorems in this file exercise; the cast truncates
the (nonnegative, in reachable states) quotient toward zero, which is
`Int.div`.  The termination theorem for the loop (claim C6) holds for
**every** estimate function, covering the floating-point one as well. -/
def interpEstC (low high : Nat) (kv alow ahigh : Int) : Nat :=
  low + (Int.tdiv (((high : Int) - (low : Int)) * (kv - alow)) (ahigh - alow)).toNat

/-- The `while (low <= high && …)` loop of `search_interpolation`,
parameterised over the comparator, the integer view of an element's bytes
(`int32_t`/`int64_t` reinterpretation chosen by the dispatcher) and the
position estimate.  `high := pos - 1` is the C `size_t` decrement; the
`pos = 0` case that would wrap is proved unreachable in claim C6's
development.  Fuel exhaustion returns `none`; `search_interpolation`
passes `count + 1`, proved sufficient (claim C6). -/
def interpLoop (cmp : α → α → Bool → Int) (view : α → Int)
    (est : Nat → Nat → Int → Int → Int → Nat)
    (l : List α) (key : α) (kv : Int) (desc : Bool) :
    Nat → Nat → Nat → Option Int
  | _, _, 0 => none
  | low, high, fuel + 1 =>
    if low ≤ high ∧
        (if desc then kv ≤ view (l.getD low default) ∧ view (l.getD high default) ≤ kv
         else view (l.getD low default) ≤ kv ∧ kv ≤ view (l.getD high default)) then
      if view (l.getD high default) = view (l.getD low default) then
        if cmp (l.getD low default) key desc = 0 then some (low : Int) else some (-1)
      else
        let pos := est low high kv (view (l.getD low default)) (view (l.getD high default))
        if pos < low ∨ high < pos then some (-1)
        else if cmp (l.getD pos default) key desc = 0 then some (pos : Int)
        else if (if desc then view (l.getD pos default) < kv else kv < view (l.getD pos default)) then
          interpLoop cmp view est l key kv desc low (pos - 1) fuel
        else interpLoop cmp view est l key kv desc (pos + 1) high fuel
    else some (-1)

/-- `search_interpolation` for one width branch (the dispatcher chooses the
`int32_t` or `int64_t` view; the `-4` fallthrough for other widths is
taken at the dispatcher's own gate first, see
`fossil_algorithm_search_exec`). -/
def search_interpolation (cmp : α → α → Bool → Int) (view : α → Int)
    (est : Nat → Nat → Int → Int → Int → Nat)
    (l : List α) (key : α) (kv : Int) (desc : Bool) : Int :=
  if l.length = 0 then -2
  else (interpLoop cmp view est l key kv desc 0 (l.length - 1) (l.length + 1)).getD (-1)

end SearchAlgos

/-! ## Dispatchers -/

/-- The order-id decoding shared by sort.c and search.c:
`desc = order_id && strcmp(order_id, "desc") == 0`; everything else —
`NULL`, `"asc"`, or any unrecognized string — means ascending. -/
def descOf (order_id : Option String) : Bool :=
  order_id = some "desc"

/-- The signed reinterpretation of a stored value's `w` bytes, as performed
by `search_interpolation` when it reads the buffer through an
`int32_t*`/`int64_t*`. -/
def viewSigned (w : Nat) (v : Int) : Int :=
  ofUnsigned w true (toUnsigned w v)

/-- `fossil_algorithm_search_exec` (search.c) on buffers of the
integer-like element types, with the order id already decoded.  Every
comparator the search selector returns for these types is the plain sign
form `compareNum` (see the comparator section).  Buffers of `f32`/`f64`
elements are outside the integer-valued model; `cstr` buffers are handled
by `cstr_search_exec_core`. -/
def search_exec_core (base : Option (List Int)) (key : Option Int)
    (type_id algorithm_id : Option String) (desc : Bool) : Int :=
  match base, key with
  | none, _ => -2
  | _, none => -2
  | some l, some k =>
    if l.length = 0 then -2
    else
      match type_id with
      | none => -2
      | some ty =>
        let ts := search_type_sizeof (some ty)
        if ts = 0 then -3
        else if ¬ search_has_comparator ty then -3
        else if algorithm_id = none ∨ algorithm_id = some "auto" ∨
            algorithm_id = some "linear" then
          search_linear compareNum desc l k
        else if algorithm_id = some "binary" then search_binary compareNum desc l k
        else if algorithm_id = some "jump" then search_jump compareNum desc l k
        else if algorithm_id = some "interpolation" then
          if ¬ (ts = 4 ∨ ts = 8) then -4
          else if ts = 4 then
            search_interpolation compareNum (viewSigned 4) interpEstC l k (viewSigned 4 k) desc
          else
            search_interpolation compareNum (viewSigned 8) interpEstC l k (viewSigned 8 k) desc
        else if algorithm_id = some "exponential" then search_exponential compareNum desc l k
        else if algorithm_id = some "fibonacci" then search_fibonacci compareNum desc l k
        else -4

/-- `fossil_algorithm_search_exec`, decoding the order id. -/
def fossil_algorithm_search_exec (base : Option (List Int)) (key : Option Int)
    (type_id algorithm_id order_id : Option String) : Int :=
  search_exec_core base key type_id algorithm_id (descOf order_id)

/-- `fossil_algorithm_search_exec` on `cstr` buffers (elements are the
pointed-to byte strings).  `addrOf` is the numeric value of the stored
pointer, which the interpolation branch would reinterpret as `int64_t`;
pointer values are opaque to the model, so they are a parameter. -/
def cstr_search_exec_core (addrOf : List Nat → Int)
    (base : Option (List (List Nat))) (key : Option (List Nat))
    (algorithm_id : Option String) (desc : Bool) : Int :=
  match base, key with
  | none, _ => -2
  | _, none => -2
  | some l, some k =>
    if l.length = 0 then -2
    else if algorithm_id = none ∨ algorithm_id = some "auto" ∨
        algorithm_id = some "linear" then
      search_linear compareCstr desc l k
    else if algorithm_id = some "binary" then search_binary compareCstr desc l k
    else if algorithm_id = some "jump" then search_jump compareCstr desc l k
    else if algorithm_id = some "interpolation" then
      search_interpolation compareCstr addrOf interpEstC l k (addrOf k) desc
    else if algorithm_id = some "exponential" then search_exponential compareCstr desc l k
    else if algorithm_id = some "fibonacci" then search_fibonacci compareCstr desc l k
    else -4

/-- `fossil_algorithm_search_exec` on `cstr` buffers, decoding the order
id (`type_id = "cstr"`: width 8, comparator `compare_cstr`). -/
def cstr_search_exec (addrOf : List Nat → Int) (base : Option (List (List Nat)))
    (key : Option (List Nat)) (algorithm_id order_id : Option String) : Int :=
  cstr_search_exec_core addrOf base key algorithm_id (descOf order_id)

/-- `fossil_algorithm_sort_exec` (sort.c) on buffers of the integer-like
element types, with the order id already decoded; returns the status and
the final buffer contents.  Every comparator the sort selector returns for
these types computes the plain sign form `compareNum` on the stored values
(`compare_bool`/`compare_char` carry a redundant early-equality test, see
`compare_bool_eq_num` and `compare_char_eq_num`; a C `bool` object stores
`0` or `1`).  `f32`/`f64` buffers are outside the integer-valued model;
`cstr` buffers are handled by `cstr_sort_exec_core`.  The result is an
`Option`: `none` is the radix stub's division-by-zero undefined
behaviour (the only crash a call can reach); every other path returns
`some` status and buffer. -/
def sort_exec_core (base : Option (List Int)) (type_id algorithm_id : Option String)
    (desc : Bool) : Option (Int × List Int) :=
  match base with
  | none => some (-1, [])
  | some l =>
    if l.length = 0 then some (-1, l)
    else
      match type_id with
      | none => some (-1, l)
      | some ty =>
        let ts := sort_type_sizeof (some ty)
        if ts = 0 then some (-2, l)
        else if ¬ sort_has_comparator ty then some (-2, l)
        else if algorithm_id = none ∨ algorithm_id = some "auto" ∨
            algorithm_id = some "quick" then
          some (fossil_sort_qsort_stub compareNum desc l)
        else if algorithm_id = some "merge" then
          some (fossil_sort_merge_stub compareNum desc l)
        else if algorithm_id = some "heap" then
          some (fossil_sort_heap_stub compareNum desc l)
        else if algorithm_id = some "insertion" then
          some (fossil_sort_insertion_stub compareNum desc l)
        else if algorithm_id = some "shell" then
          some (fossil_sort_shell_stub compareNum desc l)
        else if algorithm_id = some "bubble" then
          some (fossil_sort_bubble_stub compareNum desc l)
        else if algorithm_id = some "counting" then
          let r := fossil_sort_counting_stub ts desc (l.map (toUnsigned ts))
          some (if r.1 = 0 then (0, r.2.map (ofUnsigned ts (sort_type_signed ty)))
            else (r.1, l))
        else if algorithm_id = some "radix" then
          match fossil_sort_radix_stub ts desc (l.map (toUnsigned ts)) with
          | none => none
          | some r =>
            some (if r.1 = 0 then (0, r.2.map (ofUnsigned ts (sort_type_signed ty)))
              else (r.1, l))
        else some (-3, l)

/-- `fossil_algorithm_sort_exec`, decoding the order id. -/
def fossil_algorithm_sort_exec (base : Option (List Int))
    (type_id algorithm_id order_id : Option String) : Option (Int × List Int) :=
  sort_exec_core base type_id algorithm_id (descOf order_id)

/-- `fossil_algorithm_sort_exec` on `cstr` buffers (elements are the
pointed-to byte strings, compared with `compare_cstr`; width 8, so the
counting and radix stubs reject the type with their own codes). -/
def cstr_sort_exec_core (base : Option (List (List Nat))) (algorithm_id : Option String)
    (desc : Bool) : Int × List (List Nat) :=
  match base with
  | none => (-1, [])
  | some l =>
    if l.length = 0 then (-1, l)
    else if algorithm_id = none ∨ algorithm_id = some "auto" ∨
        algorithm_id = some "quick" then
      fossil_sort_qsort_stub compareCstr desc l
    else if algorithm_id = some "merge" then fossil_sort_merge_stub compareCstr desc l
    else if algorithm_id = some "heap" then fossil_sort_heap_stub compareCstr desc l
    else if algorithm_id = some "insertion" then
      fossil_sort_insertion_stub compareCstr desc l
    else if algorithm_id = some "shell" then fossil_sort_shell_stub compareCstr desc l
    else if algorithm_id = some "bubble" then fossil_sort_bubble_stub compareCstr desc l
    else if algorithm_id = some "counting" then (-15, l)
    else if algorithm_id = some "radix" then (-16, l)
    else (-3, l)

/-- `fossil_algorithm_sort_exec` on `cstr` buffers, decoding the order id. -/
def cstr_sort_exec (base : Option (List (List Nat))) (algorithm_id order_id : Option String) :
    Int × List (List Nat) :=
  cstr_sort_exec_core base algorithm_id (descOf order_id)

/-! ## `fossil_algorithm_sort_auto` (first translation unit of sort.c)

The adaptive selection policy.  The function delegates to one of the
`fossil_algorithm_sort_*` implementations of the same translation unit; the
claims about it concern only which algorithm is chosen, so the selection
structure is modelled. -/

/-- The `fossil_sort_options_t` pair: `order` (`true` =
`FOSSIL_SORT_DESCENDING`) and `stable` (`true` = `FOSSIL_SORT_STABLE`).
`FOSSIL_SORT_DEFAULT_OPTIONS` is ascending, unstable. -/
structure SortOptions where
  descending : Bool
  stable : Bool

/-- Which sort `fossil_algorithm_sort_auto` delegates to. -/
inductive AutoChoice
  | trivialReturn
  | insertionSmall
  | mergeStable
  | quickDefault
deriving DecidableEq

/-- The selection structure of `fossil_algorithm_sort_auto`: `count <= 1`
returns 0 immediately; a null options pointer is replaced by the default
options; then `count < 32` picks insertion sort, else a stability request
picks merge sort, else quicksort. -/
def fossil_algorithm_sort_auto_choice (count : Nat) (options : Option SortOptions) :
    AutoChoice :=
  if count ≤ 1 then .trivialReturn
  else
    let opts := options.getD ⟨false, false⟩
    if count < 32 then .insertionSmall
    else if opts.stable then .mergeStable
    else .quickDefault

/-! ## Shuffle engine (shuffle.c) -/

/-- `fossil_algorithm_shuffle_rand_seed`.  The time source `time(NULL)` and
the stack-address entropy `(uintptr_t)&seed` are the call-environment
parameters `time`/`addr`; `"seeded"` uses the caller seed verbatim unless
it is exactly zero. -/
def shuffle_rand_seed (time addr seed : Nat) (mode_id : Option String) : Nat :=
  match mode_id with
  | none => time ^^^ addr
  | some m =>
    if m = "auto" then time ^^^ addr
    else if m = "seeded" then (if seed ≠ 0 then seed else time)
    else if m = "secure" then time ^^^ addr
    else time

section ShuffleAlgos

variable {α : Type} [Inhabited α]

/-- The loop of `fossil_algorithm_shuffle_fisher_yates`
(`for (i = count-1; i > 0; --i)`): swap position `i` with
`rand() % (i+1)`.  `rnd t` is the value of the `t`-th `rand()` call after
`srand`. -/
def fisherYatesGo (rnd : Nat → Nat) : Nat → Nat → List α → List α
  | 0, _, l => l
  | i + 1, t, l => fisherYatesGo rnd i (t + 1) (listSwap l (i + 1) (rnd t % (i + 2)))

/-- The loop of `fossil_algorithm_shuffle_inside_out`
(`for (i = 1; i < count; ++i)`): swap `i` with `rand() % (i+1)` unless the
chosen index is `i` itself. -/
def insideOutGo (rnd : Nat → Nat) (count : Nat) : Nat → Nat → List α → List α :=
  fun i t l =>
    if _h : i < count then
      insideOutGo rnd count (i + 1) (t + 1)
        (if rnd t % (i + 1) ≠ i then listSwap l i (rnd t % (i + 1)) else l)
    else l
termination_by i _t _l => count - i
decreasing_by omega

/-- `fossil_algorithm_shuffle_exec`.  `rng s` is the deterministic
`rand()` sequence of the C library after `srand(s)` (the C standard makes
the sequence a function of the seed); the `&
0xFFFFFFFF` truncation of the final seed is the `% 2^32`. -/
def fossil_algorithm_shuffle_exec (time addr : Nat) (rng : Nat → Nat → Nat)
    (base : Option (List α)) (type_id algorithm_id mode_id : Option String)
    (seed : Nat) : Int × List α :=
  match base with
  | none => (-1, [])
  | some l =>
    if l.length = 0 then (-1, l)
    else
      match type_id with
      | none => (-1, l)
      | some ty =>
        if shuffle_type_sizeof (some ty) = 0 then (-2, l)
        else
          let algo := algorithm_id.getD "auto"
          let final_seed := shuffle_rand_seed time addr seed mode_id
          let rnd := rng (final_seed % 2 ^ 32)
          if algo = "auto" ∨ algo = "fisher-yates" then
            (0, fisherYatesGo rnd (l.length - 1) 0 l)
          else if algo = "inside-out" then (0, insideOutGo rnd l.length 1 0 l)
          else (-3, l)

end ShuffleAlgos

/-! ## Basic list facts used throughout the proofs -/

section ListFacts

variable {α : Type} [Inhabited α]

theorem getD_eq_getElem (l : List α) (i : Nat) (h : i < l.length) :
    l.getD i default = l[i] := by
  simp [List.getD_eq_getElem?_getD, List.getElem?_eq_getElem h]

theorem set_getD_self (l : List α) (i : Nat) :
    l.set i (l.getD i default) = l := by
  by_cases h : i < l.length
  · rw [getD_eq_getElem l i h]
    apply List.ext_getElem?
    intro j
    by_cases hij : i = j
    · subst hij
      rw [List.getElem?_set_self h, List.getElem?_eq_getElem h]
    · rw [List.getElem?_set_ne hij]
  · exact List.set_eq_of_length_le (by omega)

theorem listSwap_length (l : List α) (i j : Nat) :
    (listSwap l i j).length = l.length := by
  simp [listSwap]

theorem listSwap_perm (l : List α) (i j : Nat) (hi : i < l.length) (hj : j < l.length) :
    List.Perm (listSwap l i j) l := by
  classical
  by_cases hij : i = j
  · subst hij
    unfold listSwap
    rw [set_getD_self, set_getD_self]
  · rw [List.perm_iff_count]
    intro x
    unfold listSwap
    rw [getD_eq_getElem l i hi, getD_eq_getElem l j hj]
    have hj' : j < (l.set i l[j]).length := by simp [hj]
    rw [List.count_set _ _ _ _ hj', List.count_set _ _ _ _ hi]
    have hme : (l.set i l[j])[j] = l[j] := by
      have := List.getElem?_set_ne (l := l) (a := l[j]) hij (j := j)
      rw [List.getElem?_eq_getElem hj'] at this
      rw [List.getElem?_eq_getElem hj] at this
      exact Option.some_injective _ this
    rw [hme]
    have h1 : (if (l[i] == x) = true then 1 else 0) ≤ List.count x l := by
      split_ifs with h
      · exact List.one_le_count_iff.2 (by rw [← beq_iff_eq.1 h]; exact List.getElem_mem hi)
      · omega
    have h2 : (if (l[j] == x) = true then 1 else 0) ≤ List.count x l := by
      split_ifs with h
      · exact List.one_le_count_iff.2 (by rw [← beq_iff_eq.1 h]; exact List.getElem_mem hj)
      · omega
    omega

theorem fisherYatesGo_perm (rnd : Nat → Nat) :
    ∀ (i t : Nat) (l : List α), i < l.length → List.Perm (fisherYatesGo rnd i t l) l := by
  intro i
  induction i with
  | zero => intro t l _; exact List.Perm.refl l
  | succ i ih =>
    intro t l hi
    have hswap : List.Perm (listSwap l (i + 1) (rnd t % (i + 2))) l :=
      listSwap_perm l _ _ hi
        (lt_of_le_of_lt (Nat.lt_succ_iff.1 (Nat.mod_lt _ (by omega))) hi)
    have hlen : i < (listSwap l (i + 1) (rnd t % (i + 2))).length := by
      rw [listSwap_length]; omega
    exact (ih (t + 1) _ hlen).trans hswap

theorem insideOutGo_perm (rnd : Nat → Nat) (count : Nat) :
    ∀ (k i t : Nat) (l : List α), count - i ≤ k → count ≤ l.length →
      List.Perm (insideOutGo rnd count i t l) l := by
  intro k
  induction k with
  | zero =>
    intro i t l hk hc
    rw [insideOutGo]
    have : ¬ i < count := by omega
    simp [this]
  | succ k ih =>
    intro i t l hk hc
    rw [insideOutGo]
    by_cases h : i < count
    · rw [dif_pos h]
      set j := rnd t % (i + 1) with hj
      have hjlt : j < l.length := by
        have hji : j ≤ i := Nat.lt_succ_iff.1 (Nat.mod_lt _ (by omega))
        omega
      have hswap : List.Perm (if j ≠ i then listSwap l i j else l) l := by
        split_ifs
        · exact listSwap_perm l i j (by omega) hjlt
        · exact List.Perm.refl l
      have hlen : count ≤ (if j ≠ i then listSwap l i j else l).length := by
        split_ifs
        · rw [listSwap_length]; exact hc
        · exact hc
      exact (ih (i + 1) (t + 1) _ (by omega) hlen).trans hswap
    · rw [dif_neg h]

end ListFacts

/-! ## Claim C1 -/

/-- C1 (code bug evidence): `fossil_algorithm_sort_exec` does **not**
treat `count == 0` or `count == 1` as trivial successes.  A non-null
buffer with `count = 0` hits the `!base || count == 0 || !type_id` guard
and returns `-1` ("invalid input"), and with `count = 1` every stub's
`count < 2` guard returns the stub's own negative code (`-17` for
`auto`/`quick`, `-11` for `heap`, `-10` for `merge`), with the buffer
unchanged — while the spec and the repository's own tests
(`cpp_test_sort_exec_empty_array`, `cpp_test_sort_exec_single_element`)
require status `0`. -/
theorem c1_sort_exec_rejects_trivial_counts :
    fossil_algorithm_sort_exec (some []) (some "i32") (some "quick") (some "asc") =
      some (-1, []) ∧
    fossil_algorithm_sort_exec (some [5]) (some "i32") (some "quick") (some "asc") =
      some (-17, [5]) ∧
    fossil_algorithm_sort_exec (some [5]) (some "i32") (some "heap") (some "asc") =
      some (-11, [5]) ∧
    fossil_algorithm_sort_exec (some [5]) (some "i32") (some "merge") (some "asc") =
      some (-10, [5]) := by
  refine ⟨rfl, rfl, rfl, rfl⟩

/-! ## Claim C2 -/

/-- C2 (counterexample): the claim asserts that a stability request
overrides the small-count rule in `fossil_algorithm_sort_auto`.  It does
not: with `count = 16 < 32` and stable sorting requested, the function
picks insertion sort, not merge sort — the `count < 32` test is performed
first. -/
theorem c2_counterexample :
    fossil_algorithm_sort_auto_choice 16 (some ⟨false, true⟩) = AutoChoice.insertionSmall ∧
    AutoChoice.insertionSmall ≠ AutoChoice.mergeStable := by
  exact ⟨rfl, by decide⟩

/-- C2 (amended): `fossil_algorithm_sort_auto` selects insertion sort for
`2 ≤ count < 32` — the small-count rule takes priority over a stability
request — merge sort for `count ≥ 32` with stability requested, and
quicksort for `count ≥ 32` otherwise (also with a null options pointer,
whose default is unstable).  The policy lives only in
`fossil_algorithm_sort_auto`; `fossil_algorithm_sort_exec` routes the
`"auto"` (or null) algorithm id to the same qsort stub as `"quick"`. -/
theorem c2_auto_policy_amended :
    (∀ (count : Nat) (d s : Bool), 2 ≤ count → count < 32 →
      fossil_algorithm_sort_auto_choice count (some ⟨d, s⟩) = AutoChoice.insertionSmall) ∧
    (∀ (count : Nat) (d : Bool), 32 ≤ count →
      fossil_algorithm_sort_auto_choice count (some ⟨d, true⟩) = AutoChoice.mergeStable) ∧
    (∀ (count : Nat) (d : Bool), 32 ≤ count →
      fossil_algorithm_sort_auto_choice count (some ⟨d, false⟩) = AutoChoice.quickDefault) ∧
    (∀ count : Nat, 32 ≤ count →
      fossil_algorithm_sort_auto_choice count none = AutoChoice.quickDefault) ∧
    (∀ (base : Option (List Int)) (ty order : Option String),
      fossil_algorithm_sort_exec base ty (some "auto") order =
        fossil_algorithm_sort_exec base ty (some "quick") order ∧
      fossil_algorithm_sort_exec base ty none order =
        fossil_algorithm_sort_exec base ty (some "quick") order) := by
  refine ⟨?_, ?_, ?_, ?_, ?_⟩
  · intro count d s h2 h32
    simp only [fossil_algorithm_sort_auto_choice]
    rw [if_neg (by omega), if_pos h32]
  · intro count d h32
    simp only [fossil_algorithm_sort_auto_choice]
    rw [if_neg (by omega), if_neg (by omega)]
    simp
  · intro count d h32
    simp only [fossil_algorithm_sort_auto_choice]
    rw [if_neg (by omega), if_neg (by omega)]
    simp
  · intro count h32
    simp only [fossil_algorithm_sort_auto_choice]
    rw [if_neg (by omega), if_neg (by omega)]
    simp
  · intro base ty order
    cases base with
    | none => exact ⟨rfl, rfl⟩
    | some l =>
      cases ty with
      | none => exact ⟨rfl, rfl⟩
      | some t =>
        constructor <;>
          simp [fossil_algorithm_sort_exec, sort_exec_core]

/-- C2 witness. -/
theorem c2_auto_policy_amended_witness :
    fossil_algorithm_sort_auto_choice 5 (some ⟨false, true⟩) = AutoChoice.insertionSmall ∧
    fossil_algorithm_sort_auto_choice 40 (some ⟨false, true⟩) = AutoChoice.mergeStable ∧
    fossil_algorithm_sort_auto_choice 40 (some ⟨false, false⟩) = AutoChoice.quickDefault ∧
    fossil_algorithm_sort_auto_choice 40 none = AutoChoice.quickDefault ∧
    fossil_algorithm_sort_exec (some [3, 1, 2]) (some "i32") (some "auto") (some "asc") =
      fossil_algorithm_sort_exec (some [3, 1, 2]) (some "i32") (some "quick") (some "asc") :=
  ⟨c2_auto_policy_amended.1 5 false true (by decide) (by decide),
    c2_auto_policy_amended.2.1 40 false (by decide),
    c2_auto_policy_amended.2.2.1 40 false (by decide),
    c2_auto_policy_amended.2.2.2.1 40 (by decide),
    (c2_auto_policy_amended.2.2.2.2 (some [3, 1, 2]) (some "i32") (some "asc")).1⟩

/-! ## Claim C3 -/

/-- C3 (code bug evidence): the dispatcher's interpolation gate tests the
resolved *width* (`type_size == sizeof(int32_t) || type_size ==
sizeof(int64_t)`), not the type identifier, so any supported 4- or 8-byte
type gets through: a `"u32"` interpolation search is executed and returns
index `1` on `[10, 20, 30]` with key `20`, instead of the `-4`
("unsupported algorithm for this type") the claim — and the repository's
own test `cpp_test_search_exec_interpolation_i32_unsupported_type`
(expecting `-4` for `"f32"`, also width 4) — demand. -/
theorem c3_interpolation_gate_is_width_based :
    fossil_algorithm_search_exec (some [10, 20, 30]) (some 20) (some "u32")
      (some "interpolation") (some "asc") = 1 ∧
    fossil_algorithm_search_exec (some [3, 1, 2]) (some 1) (some "i16")
      (some "interpolation") (some "asc") = -4 := by
  constructor <;> rfl

/-! ## Dispatcher-level helper lemmas (shared by several claims) -/

theorem search_exec_unknown_type (ty : String) (hty : search_type_sizeof (some ty) = 0)
    (l : List Int) (k : Int) (algo order : Option String) (hl : l ≠ []) :
    fossil_algorithm_search_exec (some l) (some k) (some ty) algo order = -3 := by
  have hlen : ¬ l.length = 0 := by simpa [List.length_eq_zero] using hl
  simp [fossil_algorithm_search_exec, search_exec_core, hlen, hty]

theorem sort_exec_unknown_type (ty : String) (hty : sort_type_sizeof (some ty) = 0)
    (l : List Int) (algo order : Option String) (hl : l ≠ []) :
    fossil_algorithm_sort_exec (some l) (some ty) algo order = some (-2, l) := by
  have hlen : ¬ l.length = 0 := by simpa [List.length_eq_zero] using hl
  simp [fossil_algorithm_sort_exec, sort_exec_core, hlen, hty]

theorem shuffle_exec_success_perm {α : Type} [Inhabited α] (time addr : Nat)
    (rng : Nat → Nat → Nat) (l : List α) (ty : String) (algo mode : Option String)
    (seed : Nat) (hty : shuffle_type_sizeof (some ty) ≠ 0) (hl : l ≠ [])
    (halgo : algo = none ∨ algo = some "auto" ∨ algo = some "fisher-yates" ∨
      algo = some "inside-out") :
    (fossil_algorithm_shuffle_exec time addr rng (some l) (some ty) algo mode seed).1 = 0 ∧
    List.Perm
      (fossil_algorithm_shuffle_exec time addr rng (some l) (some ty) algo mode seed).2 l := by
  have hlen : ¬ l.length = 0 := by simpa [List.length_eq_zero] using hl
  have hfy : ∀ rnd : Nat → Nat, List.Perm (fisherYatesGo rnd (l.length - 1) 0 l) l := by
    intro rnd
    exact fisherYatesGo_perm rnd (l.length - 1) 0 l (by omega)
  have hio : ∀ rnd : Nat → Nat, List.Perm (insideOutGo rnd l.length 1 0 l) l := by
    intro rnd
    exact insideOutGo_perm rnd l.length (l.length - 1) 1 0 l (by omega) (le_refl _)
  rcases halgo with rfl | rfl | rfl | rfl <;>
    simp [fossil_algorithm_shuffle_exec, hlen, hty, hfy _, hio _]

/-! ## Claim C4 -/

/-- C4: in both entry points the type resolution precedes the algorithm
dispatch, so when both identifiers are invalid the "unknown type" status
is returned: for any type id of width 0 a search call returns `-3` and a
sort call returns `-2` (buffer untouched) no matter which algorithm id is
passed. -/
theorem c4_type_check_precedes_algorithm_check :
    (∀ (ty : String), search_type_sizeof (some ty) = 0 →
      ∀ (l : List Int) (k : Int) (algo order : Option String), l ≠ [] →
        fossil_algorithm_search_exec (some l) (some k) (some ty) algo order = -3) ∧
    (∀ (ty : String), sort_type_sizeof (some ty) = 0 →
      ∀ (l : List Int) (algo order : Option String), l ≠ [] →
        fossil_algorithm_sort_exec (some l) (some ty) algo order = some (-2, l)) := by
  exact ⟨search_exec_unknown_type, sort_exec_unknown_type⟩

/-- C4 witness: the spec's concrete scenario 5 (`"notatype"`), paired with
an invalid algorithm id in the same call. -/
theorem c4_type_check_precedes_algorithm_check_witness :
    search_type_sizeof (some "notatype") = 0 ∧
    sort_type_sizeof (some "notatype") = 0 ∧
    fossil_algorithm_search_exec (some [1, 2, 3]) (some 2) (some "notatype")
      (some "notalgo") (some "asc") = -3 ∧
    fossil_algorithm_sort_exec (some [1, 2, 3]) (some "notatype") (some "notalgo")
      (some "asc") = some (-2, [1, 2, 3]) :=
  ⟨rfl, rfl,
    c4_type_check_precedes_algorithm_check.1 "notatype" rfl [1, 2, 3] 2
      (some "notalgo") (some "asc") (by decide),
    c4_type_check_precedes_algorithm_check.2 "notatype" rfl [1, 2, 3]
      (some "notalgo") (some "asc") (by decide)⟩

/-! ## Claim C7 -/

/-- C7: for every element type, every shuffle algorithm (`"auto"`/null =
fisher-yates, `"fisher-yates"`, `"inside-out"`), every mode and seed, and
every supported type id, a call on a non-empty buffer succeeds (status
`0`) and leaves a permutation of the input in the buffer: both algorithms
only exchange elements in place; `rng` is the C library's `rand()`
sequence as a function of the `srand` seed, and `time`/`addr` the
environment entropy. -/
theorem c7_shuffle_exec_is_permutation :
    ∀ (α : Type) (_inst : Inhabited α) (time addr : Nat) (rng : Nat → Nat → Nat)
      (l : List α) (ty : String) (algo mode : Option String) (seed : Nat),
      shuffle_type_sizeof (some ty) ≠ 0 → l ≠ [] →
      (algo = none ∨ algo = some "auto" ∨ algo = some "fisher-yates" ∨
        algo = some "inside-out") →
      (fossil_algorithm_shuffle_exec time addr rng (some l) (some ty) algo mode seed).1 = 0 ∧
      List.Perm
        (fossil_algorithm_shuffle_exec time addr rng (some l) (some ty) algo mode seed).2
        l := by
  intro α inst time addr rng l ty algo mode seed hty hl halgo
  exact shuffle_exec_success_perm time addr rng l ty algo mode seed hty hl halgo

/-- C7 witness. -/
theorem c7_shuffle_exec_is_permutation_witness :
    shuffle_type_sizeof (some "i32") ≠ 0 ∧ ([1, 2, 3] : List Int) ≠ [] ∧
    (fossil_algorithm_shuffle_exec 9 7 (fun s t => s + t) (some ([1, 2, 3] : List Int))
      (some "i32") (some "fisher-yates") (some "auto") 0).1 = 0 ∧
    List.Perm
      (fossil_algorithm_shuffle_exec 9 7 (fun s t => s + t) (some ([1, 2, 3] : List Int))
        (some "i32") (some "fisher-yates") (some "auto") 0).2 [1, 2, 3] :=
  ⟨by decide, by decide,
    (c7_shuffle_exec_is_permutation Int ⟨0⟩ 9 7 (fun s t => s + t) [1, 2, 3] "i32"
      (some "fisher-yates") (some "auto") 0 (by decide) (by decide) (by simp)).1,
    (c7_shuffle_exec_is_permutation Int ⟨0⟩ 9 7 (fun s t => s + t) [1, 2, 3] "i32"
      (some "fisher-yates") (some "auto") 0 (by decide) (by decide) (by simp)).2⟩

/-! ## Claim C8 -/

/-- C8: with mode `"seeded"` and a nonzero caller seed the result is a
deterministic function of the other inputs: the time source and the
address entropy (`time`, `addr`) do not influence the outcome, because
`fossil_algorithm_shuffle_rand_seed` uses the supplied seed verbatim and
takes the time-based fallback only when the seed is exactly zero.  Two
calls with identical buffers, type, algorithm and the same nonzero seed
therefore return identical status and output. -/
theorem c8_seeded_shuffle_deterministic :
    ∀ (α : Type) (_inst : Inhabited α) (time₁ addr₁ time₂ addr₂ : Nat)
      (rng : Nat → Nat → Nat) (base : Option (List α)) (ty algo : Option String)
      (seed : Nat), seed ≠ 0 →
      fossil_algorithm_shuffle_exec time₁ addr₁ rng base ty algo (some "seeded") seed =
        fossil_algorithm_shuffle_exec time₂ addr₂ rng base ty algo (some "seeded") seed := by
  intro α inst time₁ addr₁ time₂ addr₂ rng base ty algo seed hseed
  have hs : ∀ time addr : Nat, shuffle_rand_seed time addr seed (some "seeded") = seed := by
    intro time addr
    simp [shuffle_rand_seed, hseed]
  cases base with
  | none => rfl
  | some l =>
    cases ty with
    | none => rfl
    | some t =>
      simp only [fossil_algorithm_shuffle_exec, hs]

/-- C8 witness. -/
theorem c8_seeded_shuffle_deterministic_witness :
    (42 : Nat) ≠ 0 ∧
    fossil_algorithm_shuffle_exec 1 2 (fun s t => s * t + s) (some ([5, 6, 7] : List Int))
        (some "u8") (some "auto") (some "seeded") 42 =
      fossil_algorithm_shuffle_exec 900 17 (fun s t => s * t + s) (some ([5, 6, 7] : List Int))
        (some "u8") (some "auto") (some "seeded") 42 :=
  ⟨by decide,
    c8_seeded_shuffle_deterministic Int ⟨0⟩ 1 2 900 17 (fun s t => s * t + s)
      (some [5, 6, 7]) (some "u8") (some "auto") 42 (by decide)⟩

/-! ## Claim C9 -/

/-- C9: in the sort and search entry points every `order_id` other than
the exact string `"desc"` — a null order id, `"asc"`, `"descending"`, any
unrecognized string — is decoded to ascending, and there is no
"unknown order" status: the call's result is identical to the result with
`"asc"`, for every buffer, type and algorithm (shown for the integer-like
model and the `cstr` model of both engines). -/
theorem c9_unrecognized_order_is_ascending :
    ∀ o : Option String, o ≠ some "desc" →
      (∀ (base : Option (List Int)) (ty algo : Option String),
        fossil_algorithm_sort_exec base ty algo o =
          fossil_algorithm_sort_exec base ty algo (some "asc")) ∧
      (∀ (base : Option (List (List Nat))) (algo : Option String),
        cstr_sort_exec base algo o = cstr_sort_exec base algo (some "asc")) ∧
      (∀ (base : Option (List Int)) (key : Option Int) (ty algo : Option String),
        fossil_algorithm_search_exec base key ty algo o =
          fossil_algorithm_search_exec base key ty algo (some "asc")) ∧
      (∀ (addrOf : List Nat → Int) (base : Option (List (List Nat)))
        (key : Option (List Nat)) (algo : Option String),
        cstr_search_exec addrOf base key algo o =
          cstr_search_exec addrOf base key algo (some "asc")) := by
  intro o ho
  have hdesc : descOf o = descOf (some "asc") := by simp [descOf, ho]
  refine ⟨?_, ?_, ?_, ?_⟩
  · intro base ty algo
    unfold fossil_algorithm_sort_exec
    rw [hdesc]
  · intro base algo
    unfold cstr_sort_exec
    rw [hdesc]
  · intro base key ty algo
    unfold fossil_algorithm_search_exec
    rw [hdesc]
  · intro addrOf base key algo
    unfold cstr_search_exec
    rw [hdesc]

/-- C9 witness: a null order id and the unrecognized string
`"descending"` both behave as `"asc"` on a concrete descending-looking
call. -/
theorem c9_unrecognized_order_is_ascending_witness :
    (none : Option String) ≠ some "desc" ∧
    (some "descending" : Option String) ≠ some "desc" ∧
    fossil_algorithm_sort_exec (some [3, 1, 2]) (some "i32") (some "merge") none =
      fossil_algorithm_sort_exec (some [3, 1, 2]) (some "i32") (some "merge") (some "asc") ∧
    fossil_algorithm_search_exec (some [1, 2, 3]) (some 2) (some "i32") (some "binary")
        (some "descending") =
      fossil_algorithm_search_exec (some [1, 2, 3]) (some 2) (some "i32") (some "binary")
        (some "asc") :=
  ⟨by decide, by decide,
    (c9_unrecognized_order_is_ascending none (by decide)).1 (some [3, 1, 2]) (some "i32")
      (some "merge"),
    (c9_unrecognized_order_is_ascending (some "descending") (by decide)).2.2.1
      (some [1, 2, 3]) (some 2) (some "i32") (some "binary")⟩

/-! ## Generic sortedness and permutation results for the stubs (claim C5)

Every comparator the dispatchers hand to a stub is a direction-aware
three-way comparison; the two properties below are all the sorting proofs
need. -/

/-- The two order-theoretic properties of a direction-aware three-way
comparator: antisymmetry of the sign and transitivity of the induced
non-strict order.  Totality and reflexivity follow. -/
structure IsCmp {α : Type} (cmp : α → α → Bool → Int) (desc : Bool) : Prop where
  neg : ∀ a b, cmp a b desc = -(cmp b a desc)
  le_trans : ∀ a b c, cmp a b desc ≤ 0 → cmp b c desc ≤ 0 → cmp a c desc ≤ 0

namespace IsCmp

variable {α : Type} {cmp : α → α → Bool → Int} {desc : Bool}

theorem le_refl (h : IsCmp cmp desc) (a : α) : cmp a a desc ≤ 0 := by
  have := h.neg a a
  omega

theorem total (h : IsCmp cmp desc) (a b : α) :
    cmp a b desc ≤ 0 ∨ cmp b a desc ≤ 0 := by
  have := h.neg a b
  omega

theorem le_of_not_lt (h : IsCmp cmp desc) {a b : α} (hab : ¬ 0 < cmp a b desc) :
    cmp a b desc ≤ 0 := by omega

theorem le_of_lt (h : IsCmp cmp desc) {a b : α} (hab : 0 < cmp a b desc) :
    cmp b a desc ≤ 0 := by
  have := h.neg a b
  omega

end IsCmp

theorem isCmp_compareNum (desc : Bool) : IsCmp compareNum desc := by
  constructor
  · intro a b
    cases desc <;> simp [compareNum] <;> rw [threeWay_neg]
  · intro a b c hab hbc
    cases desc <;>
      simp only [compareNum, Bool.false_eq_true, if_false, if_true,
        threeWay_nonpos_iff] at hab hbc ⊢ <;> omega

theorem isCmp_compareCstr (desc : Bool) : IsCmp compareCstr desc := by
  constructor
  · intro a b
    have h1 := strcmpBytes_neg a b
    cases desc <;> simp [compareCstr] <;> omega
  · intro a b c hab hbc
    cases desc with
    | false =>
      simp only [compareCstr, Bool.false_eq_true, if_false] at hab hbc ⊢
      exact strcmpBytes_trans hab hbc
    | true =>
      simp [compareCstr] at hab hbc ⊢
      have hba : strcmpBytes b a ≤ 0 := by
        have := strcmpBytes_neg a b
        omega
      have hcb : strcmpBytes c b ≤ 0 := by
        have := strcmpBytes_neg b c
        omega
      have hca := strcmpBytes_trans hcb hba
      have := strcmpBytes_neg a c
      omega

/-- The sortedness predicate induced by a comparator with a fixed
direction. -/
def SortedCmp {α : Type} (cmp : α → α → Bool → Int) (desc : Bool) (l : List α) : Prop :=
  List.Pairwise (fun a b => cmp a b desc ≤ 0) l

/-! ### Insertion sort stub -/

section InsertionProof

variable {α : Type} [Inhabited α] {cmp : α → α → Bool → Int} {desc : Bool}

theorem insRev_perm (x : α) (l : List α) :
    List.Perm (insRev cmp desc x l) (x :: l) := by
  induction l with
  | nil => simp [insRev]
  | cons e rest ih =>
    rw [insRev]
    split_ifs
    · exact (ih.cons e).trans (List.Perm.swap x e rest)
    · exact List.Perm.refl _

theorem insRev_sorted (h : IsCmp cmp desc) (x : α) (l : List α)
    (hl : List.Pairwise (fun a b => cmp b a desc ≤ 0) l) :
    List.Pairwise (fun a b => cmp b a desc ≤ 0) (insRev cmp desc x l) := by
  induction l with
  | nil => simp [insRev]
  | cons e rest ih =>
    rw [insRev]
    rw [List.pairwise_cons] at hl
    split_ifs with hgt
    · rw [List.pairwise_cons]
      refine ⟨?_, ih hl.2⟩
      intro y hy
      rcases List.mem_cons.1 ((insRev_perm x rest).mem_iff.1 hy) with rfl | hyr
      · exact h.le_of_lt hgt
      · exact hl.1 y hyr
    · rw [List.pairwise_cons]
      constructor
      · intro y hy
        rcases List.mem_cons.1 hy with rfl | hyr
        · exact h.le_of_not_lt hgt
        · exact h.le_trans _ _ _ (hl.1 y hyr) (h.le_of_not_lt hgt)
      · exact List.pairwise_cons.2 hl

theorem insertStep_perm (x : α) (l : List α) :
    List.Perm (insertStep cmp desc x l) (x :: l) := by
  unfold insertStep
  refine (List.reverse_perm _).trans ?_
  exact (insRev_perm x l.reverse).trans ((List.reverse_perm l).cons x)

theorem insertStep_sorted (h : IsCmp cmp desc) (x : α) (l : List α)
    (hl : SortedCmp cmp desc l) : SortedCmp cmp desc (insertStep cmp desc x l) := by
  unfold insertStep SortedCmp
  rw [List.pairwise_reverse]
  exact insRev_sorted h x l.reverse (List.pairwise_reverse.2 hl)

theorem insertionLoop_sorted_perm (h : IsCmp cmp desc) (l : List α) :
    SortedCmp cmp desc (insertionLoop cmp desc l) ∧
    List.Perm (insertionLoop cmp desc l) l := by
  unfold insertionLoop
  suffices hgen : ∀ (acc : List α), SortedCmp cmp desc acc →
      SortedCmp cmp desc (l.foldl (fun acc x => insertStep cmp desc x acc) acc) ∧
      List.Perm (l.foldl (fun acc x => insertStep cmp desc x acc) acc) (acc ++ l) by
    simpa using hgen [] (by simp [SortedCmp])
  induction l with
  | nil =>
    intro acc hacc
    refine ⟨hacc, ?_⟩
    simp
  | cons x rest ih =>
    intro acc hacc
    simp only [List.foldl_cons]
    obtain ⟨hs, hp⟩ := ih (insertStep cmp desc x acc) (insertStep_sorted h x acc hacc)
    refine ⟨hs, hp.trans ?_⟩
    refine ((insertStep_perm x acc).append_right rest).trans ?_
    exact List.perm_middle.symm

theorem fossil_sort_insertion_stub_spec (h : IsCmp cmp desc) (l : List α)
    (hok : (fossil_sort_insertion_stub cmp desc l).1 = 0) :
    SortedCmp cmp desc (fossil_sort_insertion_stub cmp desc l).2 ∧
    List.Perm (fossil_sort_insertion_stub cmp desc l).2 l := by
  unfold fossil_sort_insertion_stub at hok ⊢
  split_ifs at hok ⊢ with hc
  · exact absurd hok (by norm_num)
  · exact insertionLoop_sorted_perm h l

end InsertionProof

/-! ### Merge sort stub -/

section MergeProof

variable {α : Type} [Inhabited α] {cmp : α → α → Bool → Int} {desc : Bool}

theorem fossilMerge_perm (l r : List α) :
    List.Perm (fossilMerge cmp desc l r) (l ++ r) := by
  induction l generalizing r with
  | nil => cases r <;> simp [fossilMerge]
  | cons a l ih =>
    induction r with
    | nil => simp [fossilMerge]
    | cons b r ihr =>
      rw [fossilMerge]
      split_ifs
      · exact (ih (b :: r)).cons a
      · exact (ihr.cons b).trans List.perm_middle.symm

theorem fossilMerge_sorted (h : IsCmp cmp desc) (l r : List α)
    (hl : SortedCmp cmp desc l) (hr : SortedCmp cmp desc r) :
    SortedCmp cmp desc (fossilMerge cmp desc l r) := by
  induction l generalizing r with
  | nil => cases r <;> simpa [fossilMerge] using hr
  | cons a l ih =>
    induction r with
    | nil => simpa [fossilMerge] using hl
    | cons b r ihr =>
      rw [SortedCmp, List.pairwise_cons] at hl hr
      rw [fossilMerge]
      split_ifs with hab
      · rw [SortedCmp, List.pairwise_cons]
        refine ⟨?_, ih (b :: r) hl.2 (List.pairwise_cons.2 hr)⟩
        intro y hy
        rcases List.mem_append.1 ((fossilMerge_perm l (b :: r)).mem_iff.1 hy) with hyl | hybr
        · exact hl.1 y hyl
        · rcases List.mem_cons.1 hybr with rfl | hyr
          · exact hab
          · exact h.le_trans _ _ _ hab (hr.1 y hyr)
      · rw [SortedCmp, List.pairwise_cons]
        have hba : cmp b a desc ≤ 0 := by
          have := h.neg a b
          omega
        refine ⟨?_, ihr hr.2⟩
        intro y hy
        rcases List.mem_append.1 ((fossilMerge_perm (a :: l) r).mem_iff.1 hy) with hyal | hyr
        · rcases List.mem_cons.1 hyal with rfl | hyl
          · exact hba
          · exact h.le_trans _ _ _ hba (hl.1 y hyl)
        · exact hr.1 y hyr

theorem fossilMergeSortRec_sorted_perm (h : IsCmp cmp desc) (l : List α) :
    SortedCmp cmp desc (fossilMergeSortRec cmp desc l) ∧
    List.Perm (fossilMergeSortRec cmp desc l) l := by
  suffices hgen : ∀ (n : Nat) (l : List α), l.length = n →
      SortedCmp cmp desc (fossilMergeSortRec cmp desc l) ∧
      List.Perm (fossilMergeSortRec cmp desc l) l by
    exact hgen l.length l rfl
  intro n
  induction n using Nat.strong_induction_on with
  | _ n ih =>
    intro l hn
    rw [fossilMergeSortRec]
    split_ifs with hshort
    · constructor
      · cases l with
        | nil => simp [SortedCmp]
        | cons a t =>
          cases t with
          | nil => simp [SortedCmp]
          | cons b t2 => simp at hshort; omega
      · exact List.Perm.refl l
    · have h2 : 2 ≤ l.length := by omega
      have hta : (l.take ((l.length + 1) / 2)).length < n := by
        simp only [List.length_take]; omega
      have hdr : (l.drop ((l.length + 1) / 2)).length < n := by
        simp only [List.length_drop]; omega
      obtain ⟨hs1, hp1⟩ := ih _ hta (l.take ((l.length + 1) / 2)) rfl
      obtain ⟨hs2, hp2⟩ := ih _ hdr (l.drop ((l.length + 1) / 2)) rfl
      constructor
      · exact fossilMerge_sorted h _ _ hs1 hs2
      · refine (fossilMerge_perm _ _).trans ?_
        refine (hp1.append hp2).trans ?_
        rw [List.take_append_drop]

theorem fossil_sort_merge_stub_spec (h : IsCmp cmp desc) (l : List α)
    (hok : (fossil_sort_merge_stub cmp desc l).1 = 0) :
    SortedCmp cmp desc (fossil_sort_merge_stub cmp desc l).2 ∧
    List.Perm (fossil_sort_merge_stub cmp desc l).2 l := by
  unfold fossil_sort_merge_stub at hok ⊢
  split_ifs at hok ⊢ with hc
  · exact absurd hok (by norm_num)
  · exact fossilMergeSortRec_sorted_perm h l

theorem fossil_sort_qsort_stub_spec (h : IsCmp cmp desc) (l : List α)
    (hok : (fossil_sort_qsort_stub cmp desc l).1 = 0) :
    SortedCmp cmp desc (fossil_sort_qsort_stub cmp desc l).2 ∧
    List.Perm (fossil_sort_qsort_stub cmp desc l).2 l := by
  unfold fossil_sort_qsort_stub at hok ⊢
  split_ifs at hok ⊢ with hc
  · exact absurd hok (by norm_num)
  · exact fossilMergeSortRec_sorted_perm h l

end MergeProof

/-! ### Bubble sort stub -/

section BubbleProof

variable {α : Type} [Inhabited α] {cmp : α → α → Bool → Int} {desc : Bool}

theorem pairwise_short {R : α → α → Prop} (l : List α) (h : l.length ≤ 1) :
    List.Pairwise R l := by
  cases l with
  | nil => exact List.Pairwise.nil
  | cons a t =>
    cases t with
    | nil => simp
    | cons b t2 => simp at h

theorem perm_take_of_drop_eq (l₁ l₂ : List α) (k : Nat) (hp : List.Perm l₁ l₂)
    (hd : l₁.drop k = l₂.drop k) : List.Perm (l₁.take k) (l₂.take k) := by
  classical
  rw [List.perm_iff_count]
  intro x
  have c1 : List.count x (l₁.take k) + List.count x (l₁.drop k) = List.count x l₁ := by
    rw [← List.count_append, List.take_append_drop]
  have c2 : List.count x (l₂.take k) + List.count x (l₂.drop k) = List.count x l₂ := by
    rw [← List.count_append, List.take_append_drop]
  have := List.perm_iff_count.1 hp x
  rw [hd] at c1
  omega

theorem mem_take_mono {x : α} {l : List α} {k k' : Nat} (hk : k ≤ k')
    (hx : x ∈ l.take k) : x ∈ l.take k' := by
  rw [List.mem_take_iff_getElem] at hx ⊢
  obtain ⟨i, hi, rfl⟩ := hx
  exact ⟨i, by simp at hi ⊢; omega, rfl⟩

theorem bubblePassN_length (m : Nat) (l : List α) :
    (bubblePassN cmp desc m l).length = l.length := by
  induction m generalizing l with
  | zero => rfl
  | succ m ih =>
    match l with
    | [] => rfl
    | [a] => rfl
    | a :: b :: t =>
      rw [bubblePassN]
      split_ifs <;> simp [ih]

theorem bubblePassN_perm (m : Nat) (l : List α) :
    List.Perm (bubblePassN cmp desc m l) l := by
  induction m generalizing l with
  | zero => exact List.Perm.refl l
  | succ m ih =>
    match l with
    | [] => exact List.Perm.refl []
    | [a] => exact List.Perm.refl [a]
    | a :: b :: t =>
      rw [bubblePassN]
      split_ifs
      · exact ((ih (a :: t)).cons b).trans (List.Perm.swap a b t)
      · exact (ih (b :: t)).cons a

theorem bubblePassN_drop (m : Nat) (l : List α) :
    (bubblePassN cmp desc m l).drop (m + 1) = l.drop (m + 1) := by
  induction m generalizing l with
  | zero => rfl
  | succ m ih =>
    match l with
    | [] => rfl
    | [a] => simp [bubblePassN]
    | a :: b :: t =>
      rw [bubblePassN]
      split_ifs <;> simpa using ih _

theorem bubblePassN_top (h : IsCmp cmp desc) :
    ∀ (m : Nat) (l : List α), m < l.length →
      ∀ x ∈ (bubblePassN cmp desc m l).take (m + 1),
        cmp x ((bubblePassN cmp desc m l).getD m default) desc ≤ 0 := by
  intro m
  induction m with
  | zero =>
    intro l hm x hx
    rw [bubblePassN] at hx ⊢
    rw [List.mem_take_iff_getElem] at hx
    obtain ⟨i, hi, rfl⟩ := hx
    have hi0 : i = 0 := by simp at hi; omega
    subst hi0
    rw [getD_eq_getElem l 0 (by omega)]
    exact h.le_refl _
  | succ m ih =>
    intro l hm x hx
    match l, hm with
    | a :: b :: t, hm =>
      have hm' : m < t.length + 1 := by simp at hm; omega
      rw [bubblePassN] at hx ⊢
      split_ifs at hx ⊢ with hgt
      · have htk : List.Perm ((bubblePassN cmp desc m (a :: t)).take (m + 1))
            ((a :: t).take (m + 1)) :=
          perm_take_of_drop_eq _ _ _ (bubblePassN_perm m (a :: t))
            (bubblePassN_drop m (a :: t))
        have ha : a ∈ (bubblePassN cmp desc m (a :: t)).take (m + 1) := by
          rw [htk.mem_iff]
          rw [List.take_succ_cons]
          exact List.mem_cons_self a _
        simp only [List.getD_cons_succ]
        rcases List.mem_cons.1 (by simpa using hx) with rfl | hxt
        · exact h.le_trans _ _ _ (h.le_of_lt hgt) (ih (a :: t) (by simpa using hm') a ha)
        · exact ih (a :: t) (by simpa using hm') x hxt
      · have htk : List.Perm ((bubblePassN cmp desc m (b :: t)).take (m + 1))
            ((b :: t).take (m + 1)) :=
          perm_take_of_drop_eq _ _ _ (bubblePassN_perm m (b :: t))
            (bubblePassN_drop m (b :: t))
        have hb : b ∈ (bubblePassN cmp desc m (b :: t)).take (m + 1) := by
          rw [htk.mem_iff]
          rw [List.take_succ_cons]
          exact List.mem_cons_self b _
        simp only [List.getD_cons_succ]
        rcases List.mem_cons.1 (by simpa using hx) with rfl | hxt
        · exact h.le_trans _ _ _ (h.le_of_not_lt hgt) (ih (b :: t) (by simpa using hm') b hb)
        · exact ih (b :: t) (by simpa using hm') x hxt

theorem bubbleRuns_spec (h : IsCmp cmp desc) :
    ∀ (m : Nat) (l : List α), m < l.length →
      List.Pairwise (fun a b => cmp a b desc ≤ 0) (l.drop (m + 1)) →
      (∀ x ∈ l.take (m + 1), ∀ y ∈ l.drop (m + 1), cmp x y desc ≤ 0) →
      SortedCmp cmp desc (bubbleRuns cmp desc m l) ∧
      List.Perm (bubbleRuns cmp desc m l) l := by
  intro m
  induction m with
  | zero =>
    intro l hm hsuf hcross
    rw [bubbleRuns]
    refine ⟨?_, List.Perm.refl l⟩
    unfold SortedCmp
    conv_rhs => rw [← List.take_append_drop 1 l]
    rw [List.pairwise_append]
    exact ⟨pairwise_short _ (by simp), hsuf, hcross⟩
  | succ m ih =>
    intro l hm hsuf hcross
    rw [bubbleRuns]
    set p := bubblePassN cmp desc (m + 1) l with hp
    have hplen : p.length = l.length := bubblePassN_length _ _
    have hpperm : List.Perm p l := bubblePassN_perm _ _
    have hpdrop : p.drop (m + 2) = l.drop (m + 2) := bubblePassN_drop _ _
    have hptake : List.Perm (p.take (m + 2)) (l.take (m + 2)) :=
      perm_take_of_drop_eq _ _ _ hpperm hpdrop
    have htop : ∀ x ∈ p.take (m + 2), cmp x (p.getD (m + 1) default) desc ≤ 0 :=
      bubblePassN_top h (m + 1) l hm
    have hm1p : m + 1 < p.length := by omega
    have htopmem : p.getD (m + 1) default ∈ p.take (m + 2) := by
      rw [List.mem_take_iff_getElem]
      exact ⟨m + 1, by simp; omega, (getD_eq_getElem p (m + 1) hm1p).symm⟩
    have htopmem' : p.getD (m + 1) default ∈ l.take (m + 2) := hptake.mem_iff.1 htopmem
    have hdropp : p.drop (m + 1) = p.getD (m + 1) default :: l.drop (m + 2) := by
      rw [List.drop_eq_getElem_cons hm1p, getD_eq_getElem p (m + 1) hm1p, hpdrop]
    have hnewsuf : List.Pairwise (fun a b => cmp a b desc ≤ 0) (p.drop (m + 1)) := by
      rw [hdropp, List.pairwise_cons]
      exact ⟨fun y hy => hcross _ htopmem' y hy, hsuf⟩
    have hnewcross : ∀ x ∈ p.take (m + 1), ∀ y ∈ p.drop (m + 1), cmp x y desc ≤ 0 := by
      intro x hx y hy
      have hx2 : x ∈ p.take (m + 2) := mem_take_mono (by omega) hx
      rw [hdropp] at hy
      rcases List.mem_cons.1 hy with rfl | hyd
      · exact htop x hx2
      · exact hcross x (hptake.mem_iff.1 hx2) y hyd
    obtain ⟨hs, hperm⟩ := ih p (by omega) hnewsuf hnewcross
    exact ⟨hs, hperm.trans hpperm⟩

theorem fossil_sort_bubble_stub_spec (h : IsCmp cmp desc) (l : List α)
    (hok : (fossil_sort_bubble_stub cmp desc l).1 = 0) :
    SortedCmp cmp desc (fossil_sort_bubble_stub cmp desc l).2 ∧
    List.Perm (fossil_sort_bubble_stub cmp desc l).2 l := by
  unfold fossil_sort_bubble_stub at hok ⊢
  split_ifs at hok ⊢ with hc
  · exact absurd hok (by norm_num)
  · have h2 : 2 ≤ l.length := by omega
    have hd : l.drop (l.length - 1 + 1) = [] := by
      apply List.drop_eq_nil_of_le
      omega
    refine bubbleRuns_spec h (l.length - 1) l (by omega) ?_ ?_
    · rw [hd]; exact List.Pairwise.nil
    · intro x _ y hy
      rw [hd] at hy
      simp at hy

end BubbleProof

/-! ### Counting sort stub -/

section CountingProof

theorem foldl_min_le (t : List Nat) : ∀ a : Nat,
    t.foldl Nat.min a ≤ a ∧ ∀ x ∈ t, t.foldl Nat.min a ≤ x := by
  induction t with
  | nil => intro a; simp
  | cons b t ih =>
    intro a
    refine ⟨le_trans (ih (Nat.min a b)).1 (Nat.min_le_left a b), ?_⟩
    intro x hx
    rcases List.mem_cons.1 hx with rfl | hxt
    · exact le_trans (ih (Nat.min a x)).1 (Nat.min_le_right a x)
    · exact (ih (Nat.min a b)).2 x hxt

theorem foldl_max_ge (t : List Nat) : ∀ a : Nat,
    a ≤ t.foldl Nat.max a ∧ ∀ x ∈ t, x ≤ t.foldl Nat.max a := by
  induction t with
  | nil => intro a; simp
  | cons b t ih =>
    intro a
    refine ⟨le_trans (Nat.le_max_left a b) (ih (Nat.max a b)).1, ?_⟩
    intro x hx
    rcases List.mem_cons.1 hx with rfl | hxt
    · exact le_trans (Nat.le_max_right a x) (ih (Nat.max a x)).1
    · exact (ih (Nat.max a b)).2 x hxt

theorem foldMin_le {l : List Nat} {x : Nat} (hx : x ∈ l) : foldMin l ≤ x := by
  cases l with
  | nil => cases hx
  | cons a t =>
    rw [foldMin]
    rcases List.mem_cons.1 hx with rfl | hxt
    · exact (foldl_min_le t x).1
    · exact (foldl_min_le t a).2 x hxt

theorem foldMax_ge {l : List Nat} {x : Nat} (hx : x ∈ l) : x ≤ foldMax l := by
  cases l with
  | nil => cases hx
  | cons a t =>
    rw [foldMax]
    rcases List.mem_cons.1 hx with rfl | hxt
    · exact (foldl_max_ge t x).1
    · exact (foldl_max_ge t a).2 x hxt

theorem buildCounts_ap (minv : Nat) :
    ∀ (l : List Nat) (g : Nat → Nat) (d : Nat),
      (l.foldl (fun f x => fun d' => if d' = x - minv then f d' + 1 else f d') g) d =
        g d + l.countP (fun x => d = x - minv) := by
  intro l
  induction l with
  | nil => intro g d; simp
  | cons x t ih =>
    intro g d
    rw [List.foldl_cons, ih, List.countP_cons]
    by_cases hd : d = x - minv <;> simp [hd] <;> omega

theorem buildCounts_eq (minv : Nat) (l : List Nat) (d : Nat) :
    buildCounts minv l d = l.countP (fun x => d = x - minv) := by
  unfold buildCounts
  rw [buildCounts_ap]
  omega

theorem sum_map_ite_range (g : Nat → Nat) (j : Nat) :
    ∀ r : Nat, ((List.range r).map (fun d => if j = d then g d else 0)).sum =
      if j < r then g j else 0 := by
  intro r
  induction r with
  | zero => simp
  | succ r ih =>
    rw [List.range_succ, List.map_append, List.sum_append, ih]
    simp only [List.map_cons, List.map_nil, List.sum_cons, List.sum_nil]
    by_cases hj : j = r
    · subst hj
      rw [if_neg (Nat.lt_irrefl j), if_pos rfl, if_pos (Nat.lt_succ_self j)]
      omega
    · rw [if_neg hj]
      by_cases hjr : j < r
      · rw [if_pos hjr, if_pos (by omega)]
        omega
      · rw [if_neg hjr, if_neg (by omega)]
        omega

theorem count_fillAsc (minv : Nat) (c : Nat → Nat) (r : Nat) (x : Nat) :
    List.count x (fillAsc minv c r) =
      if minv ≤ x ∧ x - minv < r then c (x - minv) else 0 := by
  unfold fillAsc
  rw [List.count_flatMap]
  by_cases hge : minv ≤ x
  · have hcong : ((List.range r).map (List.count x ∘ fun d => List.replicate (c d) (minv + d))) =
        (List.range r).map (fun d => if x - minv = d then c d else 0) := by
      apply List.map_congr_left
      intro d _
      simp only [Function.comp]
      rw [List.count_replicate]
      by_cases hxd : minv + d = x
      · rw [if_pos (by simpa using hxd), if_pos (by omega)]
      · rw [if_neg (by simpa using hxd), if_neg (by omega)]
    rw [hcong, sum_map_ite_range]
    by_cases hlt : x - minv < r <;> simp [hlt, hge]
  · have hcong : ((List.range r).map (List.count x ∘ fun d => List.replicate (c d) (minv + d))) =
        (List.range r).map (fun _ => 0) := by
      apply List.map_congr_left
      intro d _
      simp only [Function.comp]
      rw [List.count_replicate]
      rw [if_neg (by simpa using (by omega : ¬ minv + d = x))]
    rw [hcong]
    simp [hge]

theorem pairwise_flatMap_helper {β : Type} (R : β → β → Prop) (f : Nat → List β) :
    ∀ ds : List Nat, (∀ d ∈ ds, List.Pairwise R (f d)) →
      List.Pairwise (fun d d' => ∀ a ∈ f d, ∀ b ∈ f d', R a b) ds →
      List.Pairwise R (ds.flatMap f) := by
  intro ds
  induction ds with
  | nil => intro _ _; simp
  | cons d ds ih =>
    intro h1 h2
    rw [List.flatMap_cons, List.pairwise_append]
    rw [List.pairwise_cons] at h2
    refine ⟨h1 d (List.mem_cons_self d ds), ih (fun d' hd' => h1 d' (List.mem_cons_of_mem d hd')) h2.2, ?_⟩
    intro a ha b hb
    obtain ⟨d', hd', hbd'⟩ := List.mem_flatMap.1 hb
    exact h2.1 d' hd' a ha b hbd'

theorem fillAsc_sorted (minv : Nat) (c : Nat → Nat) (r : Nat) :
    List.Pairwise (· ≤ ·) (fillAsc minv c r) := by
  unfold fillAsc
  apply pairwise_flatMap_helper
  · intro d _
    rw [List.pairwise_replicate]
    right; exact le_refl _
  · have hlt : List.Pairwise (· < ·) (List.range r) := List.pairwise_lt_range r
    apply hlt.imp_of_mem
    intro d d' _ _ hdd' a ha b hb
    rw [List.mem_replicate] at ha hb
    omega

theorem fillDesc_eq_reverse (minv : Nat) (c : Nat → Nat) (r : Nat) :
    fillDesc minv c r = (fillAsc minv c r).reverse := by
  unfold fillAsc fillDesc
  rw [List.reverse_flatMap]
  congr 1
  funext d
  simp only [Function.comp]
  rw [List.reverse_replicate]

theorem countP_offset_eq_count (minv x : Nat) (hx : minv ≤ x) :
    ∀ l : List Nat, (∀ y ∈ l, minv ≤ y) →
      l.countP (fun y => x - minv = y - minv) = l.count x := by
  intro l
  induction l with
  | nil => intro _; simp
  | cons y t ih =>
    intro hmin
    rw [List.countP_cons, List.count_cons]
    have hy : minv ≤ y := hmin y (List.mem_cons_self y t)
    have ht := ih (fun z hz => hmin z (List.mem_cons_of_mem y hz))
    by_cases hyx : y = x
    · subst hyx
      rw [if_pos (by simp), if_pos (by simp)]
      omega
    · rw [if_neg (by simp; omega), if_neg (by simp [hyx])]
      omega

theorem fillAsc_perm (l : List Nat) :
    List.Perm (fillAsc (foldMin l) (buildCounts (foldMin l) l) (foldMax l - foldMin l + 1)) l := by
  classical
  rw [List.perm_iff_count]
  intro x
  rw [count_fillAsc]
  set minv := foldMin l
  set maxv := foldMax l
  split_ifs with hin
  · rw [buildCounts_eq]
    exact countP_offset_eq_count minv x hin.1 l (fun y hy => foldMin_le hy)
  · symm
    rw [List.count_eq_zero]
    intro hxl
    have h1 : minv ≤ x := foldMin_le hxl
    have h2 : x ≤ maxv := foldMax_ge hxl
    omega

theorem fossil_sort_counting_stub_spec (ts : Nat) (desc : Bool) (l : List Nat)
    (hok : (fossil_sort_counting_stub ts desc l).1 = 0) :
    List.Perm (fossil_sort_counting_stub ts desc l).2 l ∧
    (desc = false → List.Pairwise (· ≤ ·) (fossil_sort_counting_stub ts desc l).2) ∧
    (desc = true → List.Pairwise (fun a b : Nat => b ≤ a)
      (fossil_sort_counting_stub ts desc l).2) := by
  unfold fossil_sort_counting_stub at hok ⊢
  by_cases hc : l.length < 2 ∨ ts ≠ 1
  · rw [if_pos hc] at hok
    exact absurd hok (by norm_num)
  · rw [if_neg hc] at hok ⊢
    dsimp only at hok ⊢
    cases desc with
    | false =>
      simp only [Bool.false_eq_true, if_false]
      exact ⟨fillAsc_perm l, fun _ => fillAsc_sorted _ _ _, fun h => by simp at h⟩
    | true =>
      simp only [if_true]
      rw [fillDesc_eq_reverse]
      refine ⟨(List.reverse_perm _).trans (fillAsc_perm l), fun h => by simp at h, fun _ => ?_⟩
      rw [List.pairwise_reverse]
      exact fillAsc_sorted _ _ _

end CountingProof

/-! ### Radix sort stub

The decimal LSD pass is verified through an explicit characterization of
the downward fill loop: it writes each digit class into its contiguous
block of output positions, preserving the relative order of equal digits
(stability), so each pass equals the concatenation of the digit-class
filters. -/

section RadixProof

/-- Number of elements of `p` whose decimal digit at weight `exp` is `d`
(proof-layer abbreviation). -/
def digCount (exp : Nat) (p : List Nat) (d : Nat) : Nat :=
  p.countP (fun v => d = radixDigit exp v)

/-- First output position of digit class `d` in a pass over `l` (the sum
of the class sizes of all smaller digits). -/
def digStart (exp : Nat) (l : List Nat) (d : Nat) : Nat :=
  ((List.range d).map (digCount exp l)).sum

theorem foldl_tally (key : Nat → Nat) :
    ∀ (l : List Nat) (g : Nat → Nat) (d : Nat),
      (l.foldl (fun f x => fun d' => if d' = key x then f d' + 1 else f d') g) d =
        g d + l.countP (fun x => d = key x) := by
  intro l
  induction l with
  | nil => intro g d; simp
  | cons x t ih =>
    intro g d
    rw [List.foldl_cons, ih, List.countP_cons]
    by_cases hd : d = key x <;> simp [hd] <;> omega

theorem buildBuckets_eq (exp : Nat) (l : List Nat) (d : Nat) :
    buildBuckets exp l d = digCount exp l d := by
  unfold buildBuckets digCount radixDigit
  rw [foldl_tally (fun x => x / exp % 10)]
  omega

theorem foldl_add_eq (c : Nat → Nat) :
    ∀ (l : List Nat) (a : Nat), l.foldl (fun s k => s + c k) a = a + (l.map c).sum := by
  intro l
  induction l with
  | nil => intro a; simp
  | cons x t ih => intro a; rw [List.foldl_cons, ih]; simp; omega

theorem cumBuckets_buildBuckets (exp : Nat) (l : List Nat) (d : Nat) :
    cumBuckets (buildBuckets exp l) d = digStart exp l d + digCount exp l d := by
  unfold cumBuckets digStart
  rw [foldl_add_eq]
  rw [List.range_succ, List.map_append, List.sum_append]
  have : ((List.range d).map (buildBuckets exp l)).sum =
      ((List.range d).map (digCount exp l)).sum := by
    congr 1
    apply List.map_congr_left
    intro k _
    exact buildBuckets_eq exp l k
  simp [this, buildBuckets_eq]

theorem digStart_succ (exp : Nat) (l : List Nat) (d : Nat) :
    digStart exp l (d + 1) = digStart exp l d + digCount exp l d := by
  unfold digStart
  rw [List.range_succ, List.map_append, List.sum_append]
  simp

theorem digStart_mono (exp : Nat) (l : List Nat) :
    ∀ {d d' : Nat}, d ≤ d' → digStart exp l d ≤ digStart exp l d' := by
  intro d d' h
  induction d' with
  | zero =>
    have hd0 : d = 0 := by omega
    subst hd0
    exact le_refl _
  | succ d' ih =>
    rcases Nat.lt_or_ge d (d' + 1) with hlt | hge
    · have h1 := ih (by omega)
      rw [digStart_succ]
      omega
    · have hde : d = d' + 1 := by omega
      subst hde
      exact le_refl _

theorem digCount_append_one (exp : Nat) (p : List Nat) (v : Nat) (d : Nat) :
    digCount exp (p ++ [v]) d =
      digCount exp p d + (if d = radixDigit exp v then 1 else 0) := by
  unfold digCount
  rw [List.countP_append]
  simp [List.countP_cons]

theorem radixDigit_lt (exp v : Nat) : radixDigit exp v < 10 := by
  unfold radixDigit
  omega

/-- The characterization of the downward fill loop.  `q` is the list the
loop still has to process (the reversal of the already-fixed portion `p =
q.reverse` of the original array); `b` holds, for each digit, the position
one past the end of the unwritten part of that digit's block. -/
theorem radixFillGo_spec (exp : Nat) (l₀ : List Nat) :
    ∀ (q : List Nat) (b out : Nat → Nat),
      (∀ d, digCount exp q.reverse d ≤ digCount exp l₀ d) →
      (∀ d, b d = digStart exp l₀ d + digCount exp q.reverse d) →
      (∀ d, (radixFillGo exp q b out).1 d = digStart exp l₀ d) ∧
      (∀ d k, digStart exp l₀ d ≤ k →
        k < digStart exp l₀ d + digCount exp q.reverse d →
        (radixFillGo exp q b out).2 k =
          (q.reverse.filter (fun v => d = radixDigit exp v)).getD (k - digStart exp l₀ d) 0) ∧
      (∀ k, (∀ d, ¬(digStart exp l₀ d ≤ k ∧
          k < digStart exp l₀ d + digCount exp q.reverse d)) →
        (radixFillGo exp q b out).2 k = out k) := by
  intro q
  induction q with
  | nil =>
    intro b out hsub hb
    refine ⟨?_, ?_, ?_⟩
    · intro d
      show b d = digStart exp l₀ d
      rw [hb d]
      simp [digCount]
    · intro d k hk1 hk2
      simp [digCount] at hk2
      omega
    · intro k _
      rfl
  | cons v q' ih =>
    intro b out hsub hb
    have hrev : (v :: q').reverse = q'.reverse ++ [v] := by simp
    set dv := radixDigit exp v with hdv
    have hcnt : ∀ d, digCount exp (v :: q').reverse d =
        digCount exp q'.reverse d + (if d = dv then 1 else 0) := by
      intro d
      rw [hrev, digCount_append_one]
    have hcntv : digCount exp (v :: q').reverse dv =
        digCount exp q'.reverse dv + 1 := by
      rw [hcnt]; simp
    have hbv1 : 1 ≤ b dv := by
      have h1 := hb dv
      have h2 := hcntv
      omega
    have hstep : radixFillGo exp (v :: q') b out =
        radixFillGo exp q'
          (fun k => if k = dv then b dv - 1 else b k)
          (fun k => if k = b dv - 1 then v else out k) := rfl
    have hsub' : ∀ d, digCount exp q'.reverse d ≤ digCount exp l₀ d := by
      intro d
      have h1 := hsub d
      have h2 := hcnt d
      by_cases hd : d = dv
      · rw [if_pos hd] at h2
        omega
      · rw [if_neg hd] at h2
        omega
    have hb' : ∀ d, (fun k => if k = dv then b dv - 1 else b k) d =
        digStart exp l₀ d + digCount exp q'.reverse d := by
      intro d
      by_cases hd : d = dv
      · subst hd
        show (if dv = dv then b dv - 1 else b dv) = _
        rw [if_pos rfl]
        have h1 := hb dv
        have h2 := hcntv
        omega
      · show (if d = dv then b dv - 1 else b d) = _
        rw [if_neg hd]
        have h1 := hb d
        have h2 := hcnt d
        rw [if_neg hd] at h2
        omega
    obtain ⟨ih1, ih2, ih3⟩ := ih _ _ hsub' hb'
    have hlast : b dv - 1 = digStart exp l₀ dv + digCount exp q'.reverse dv := by
      have h1 := hb dv
      have h2 := hcntv
      omega
    -- the written slot lies inside the dv block of p but outside every p' block
    have hlast_out : ∀ d, ¬(digStart exp l₀ d ≤ b dv - 1 ∧
        b dv - 1 < digStart exp l₀ d + digCount exp q'.reverse d) := by
      intro d
      by_cases hd : d = dv
      · subst hd
        omega
      · rintro ⟨hk1, hk2⟩
        have hdx : digCount exp q'.reverse d ≤ digCount exp l₀ d := hsub' d
        have hdvsub := hsub dv
        rw [hcntv] at hdvsub
        rcases Nat.lt_or_ge d dv with hdlt | hdge
        · have hs1 : digStart exp l₀ (d + 1) ≤ digStart exp l₀ dv :=
            digStart_mono exp l₀ (by omega)
          rw [digStart_succ] at hs1
          omega
        · have hdgt : dv < d := by omega
          have hs1 : digStart exp l₀ (dv + 1) ≤ digStart exp l₀ d :=
            digStart_mono exp l₀ (by omega)
          rw [digStart_succ] at hs1
          omega
    refine ⟨?_, ?_, ?_⟩
    · intro d
      rw [hstep]
      exact ih1 d
    · intro d k hk1 hk2
      rw [hstep]
      by_cases hd : d = dv
      · subst hd
        rw [hcntv] at hk2
        have hfilter : ((v :: q').reverse.filter (fun x => dv = radixDigit exp x)) =
            (q'.reverse.filter (fun x => dv = radixDigit exp x)) ++ [v] := by
          rw [hrev, List.filter_append]
          simp [← hdv]
        have hflen : (q'.reverse.filter (fun x => dv = radixDigit exp x)).length =
            digCount exp q'.reverse dv := by
          rw [digCount, List.countP_eq_length_filter]
        rcases Nat.lt_or_ge k (digStart exp l₀ dv + digCount exp q'.reverse dv) with hk | hk
        · rw [ih2 dv k hk1 hk, hfilter, List.getD_append]
          omega
        · have hkeq : k = digStart exp l₀ dv + digCount exp q'.reverse dv := by omega
          rw [ih3 k]
          · simp only [if_pos (by omega : k = b dv - 1)]
            rw [hfilter, List.getD_append_right _ _ _ _ (by omega)]
            rw [hflen]
            have : k - digStart exp l₀ dv - digCount exp q'.reverse dv = 0 := by omega
            rw [this]
            rfl
          · intro d'
            by_cases hd' : d' = dv
            · subst hd'; omega
            · have := hlast_out d'
              rw [show b dv - 1 = k by omega] at this
              exact this
      · rw [hcnt d, if_neg hd] at hk2
        rw [ih2 d k hk1 (by omega)]
        rw [hrev, List.filter_append]
        have : ([v].filter (fun x => d = radixDigit exp x)) = [] := by
          simp [hd, ← hdv]
        rw [this, List.append_nil]
    · intro k hk
      rw [hstep]
      rw [ih3 k]
      · have hkne : k ≠ b dv - 1 := by
          intro hkeq
          have := hk dv
          rw [hcntv] at this
          omega
        simp [hkne]
      · intro d
        have := hk d
        have h2 := hcnt d
        omega

theorem getD_zero_eq_getElem (l : List Nat) (i : Nat) (h : i < l.length) :
    l.getD i 0 = l[i] := getD_eq_getElem l i h

theorem digCount_cons (exp v : Nat) (p : List Nat) (d : Nat) :
    digCount exp (v :: p) d = digCount exp p d + (if d = radixDigit exp v then 1 else 0) := by
  unfold digCount
  rw [List.countP_cons]
  by_cases h : d = radixDigit exp v <;> simp [h]

theorem digStart_cons (exp v : Nat) (l : List Nat) :
    ∀ r : Nat, digStart exp (v :: l) r =
      digStart exp l r + (if radixDigit exp v < r then 1 else 0) := by
  intro r
  induction r with
  | zero => simp [digStart]
  | succ r ih =>
    rw [digStart_succ, digStart_succ, ih, digCount_cons]
    by_cases h2 : r = radixDigit exp v
    · rw [if_pos h2, if_neg (by omega), if_pos (by omega)]
      omega
    · rw [if_neg h2]
      by_cases h1 : radixDigit exp v < r
      · rw [if_pos h1, if_pos (by omega)]
        omega
      · rw [if_neg h1, if_neg (by omega)]
        omega

theorem digStart_ten (exp : Nat) (l : List Nat) : digStart exp l 10 = l.length := by
  induction l with
  | nil =>
    unfold digStart
    have h : List.map (digCount exp []) (List.range 10) =
        List.map (fun _ => 0) (List.range 10) := by
      apply List.map_congr_left
      intro j _
      simp [digCount]
    rw [h]
    simp
  | cons v l ih =>
    rw [digStart_cons, ih, if_pos (radixDigit_lt exp v)]
    simp

theorem digCount_filter_length (exp : Nat) (l : List Nat) (d : Nat) :
    (l.filter (fun v => d = radixDigit exp v)).length = digCount exp l d := by
  rw [digCount, List.countP_eq_length_filter]

theorem exists_block (g : Nat → Nat) :
    ∀ n k, g 0 ≤ k → k < g n → ∃ d, d < n ∧ g d ≤ k ∧ k < g (d + 1) := by
  intro n
  induction n with
  | zero => intro k h0 hn; omega
  | succ n ih =>
    intro k h0 hn
    by_cases h : k < g n
    · obtain ⟨d, hd, h1, h2⟩ := ih k h0 h
      exact ⟨d, by omega, h1, h2⟩
    · exact ⟨n, by omega, by omega, hn⟩

theorem flatMap_range_getD {β : Type} (f : Nat → List β) (g : Nat → Nat)
    (hg : ∀ j, (f j).length = g j) (x : β) (n d k : Nat)
    (hd : d < n)
    (hk1 : ((List.range d).map g).sum ≤ k)
    (hk2 : k < ((List.range d).map g).sum + g d) :
    ((List.range n).flatMap f).getD k x =
      (f d).getD (k - ((List.range d).map g).sum) x := by
  have hsplit : List.range n = List.range d ++ (d :: List.range' (d + 1) (n - d - 1)) := by
    rw [List.range_eq_range']
    have h1 : List.range' 0 n = List.range' 0 d ++ List.range' d (n - d) := by
      have h0 := List.range'_append 0 d (n - d) 1
      simp only [Nat.one_mul, Nat.zero_add] at h0
      have hnd : n - d + d = n := by omega
      rw [hnd] at h0
      exact h0.symm
    rw [h1, List.range_eq_range']
    congr 1
    obtain ⟨m, hm⟩ : ∃ m, n - d = m + 1 := ⟨n - d - 1, by omega⟩
    rw [hm, List.range'_succ]
    simp
  have hlen : ((List.range d).flatMap f).length = ((List.range d).map g).sum := by
    rw [List.length_flatMap]
    have hc : List.map (List.length ∘ f) (List.range d) = (List.range d).map g := by
      apply List.map_congr_left
      intro j _
      exact hg j
    rw [hc]
  rw [hsplit, List.flatMap_append, List.flatMap_cons]
  rw [List.getD_append_right _ _ _ _ (by rw [hlen]; exact hk1)]
  rw [hlen]
  exact List.getD_append _ _ _ _ (by rw [hg d]; omega)

theorem radixPass_eq (exp : Nat) (l : List Nat) :
    radixPass exp l =
      (List.range 10).flatMap (fun d => l.filter (fun v => d = radixDigit exp v)) := by
  obtain ⟨h1, h2, h3⟩ := radixFillGo_spec exp l l.reverse (cumBuckets (buildBuckets exp l))
    (fun _ => 0)
    (by intro d; rw [List.reverse_reverse])
    (by intro d; rw [List.reverse_reverse]; exact cumBuckets_buildBuckets exp l d)
  have hlenR : ((List.range 10).flatMap
      (fun d => l.filter (fun v => d = radixDigit exp v))).length = l.length := by
    rw [List.length_flatMap]
    have hc : List.map (List.length ∘ fun d => l.filter (fun v => d = radixDigit exp v))
        (List.range 10) = (List.range 10).map (digCount exp l) := by
      apply List.map_congr_left
      intro j _
      exact digCount_filter_length exp l j
    rw [hc]
    exact digStart_ten exp l
  apply List.ext_getElem
  · rw [radixPass, List.length_map, List.length_range, hlenR]
  · intro k hk1' hk2'
    have hkl : k < l.length := by
      rw [radixPass, List.length_map, List.length_range] at hk1'
      exact hk1'
    obtain ⟨d, hd10, hb1, hb2⟩ := exists_block (digStart exp l) 10 k
      (by simp [digStart]) (by rw [digStart_ten]; exact hkl)
    rw [digStart_succ] at hb2
    have hL : (radixPass exp l).getD k 0 = (radixFillGo exp l.reverse
        (cumBuckets (buildBuckets exp l)) (fun _ => 0)).2 k := by
      rw [radixPass, getD_zero_eq_getElem _ k
        (by rw [List.length_map, List.length_range]; exact hkl)]
      rw [List.getElem_map, List.getElem_range]
    have hM : (radixFillGo exp l.reverse (cumBuckets (buildBuckets exp l)) (fun _ => 0)).2 k =
        (l.filter (fun v => d = radixDigit exp v)).getD (k - digStart exp l d) 0 := by
      have hx := h2 d k hb1 (by rw [List.reverse_reverse]; exact hb2)
      rw [List.reverse_reverse] at hx
      exact hx
    have hR : ((List.range 10).flatMap
        (fun d' => l.filter (fun v => d' = radixDigit exp v))).getD k 0 =
        (l.filter (fun v => d = radixDigit exp v)).getD (k - digStart exp l d) 0 :=
      flatMap_range_getD _ (digCount exp l)
        (fun j => digCount_filter_length exp l j) 0 10 d k hd10 hb1 hb2
    exact ((getD_zero_eq_getElem _ k hk1').symm.trans ((hL.trans hM).trans hR.symm)).trans
      (getD_zero_eq_getElem _ k hk2')

theorem radixPass_perm (exp : Nat) (l : List Nat) :
    List.Perm (radixPass exp l) l := by
  rw [radixPass_eq, List.perm_iff_count]
  intro x
  rw [List.count_flatMap]
  have hc : List.map (List.count x ∘ fun d => l.filter (fun v => d = radixDigit exp v))
      (List.range 10) =
      (List.range 10).map (fun d => if radixDigit exp x = d then List.count x l else 0) := by
    apply List.map_congr_left
    intro d _
    show List.count x (l.filter (fun v => d = radixDigit exp v)) = _
    by_cases h : radixDigit exp x = d
    · rw [if_pos h]
      exact List.count_filter (by simp [h])
    · rw [if_neg h, List.count_eq_zero]
      intro hmem
      have hm := (List.mem_filter.1 hmem).2
      simp at hm
      exact h hm.symm
  rw [hc, sum_map_ite_range (fun _ => List.count x l) (radixDigit exp x) 10]
  rw [if_pos (radixDigit_lt exp x)]

theorem mod_mul_ten (exp v : Nat) :
    v % (exp * 10) = v % exp + exp * radixDigit exp v := by
  unfold radixDigit
  rw [Nat.mod_mul]

theorem radixPass_sorted (exp : Nat) (hexp : 0 < exp) (l : List Nat)
    (hl : List.Pairwise (fun a b => a % exp ≤ b % exp) l) :
    List.Pairwise (fun a b => a % (exp * 10) ≤ b % (exp * 10)) (radixPass exp l) := by
  rw [radixPass_eq]
  apply pairwise_flatMap_helper
  · intro d _
    have hpw : List.Pairwise (fun a b => a % exp ≤ b % exp)
        (l.filter (fun v => d = radixDigit exp v)) :=
      List.Pairwise.sublist (List.filter_sublist l) hl
    apply hpw.imp_of_mem
    intro a b ha hb hab
    have hda : d = radixDigit exp a := by
      have hm := (List.mem_filter.1 ha).2
      simpa using hm
    have hdb : d = radixDigit exp b := by
      have hm := (List.mem_filter.1 hb).2
      simpa using hm
    rw [mod_mul_ten, mod_mul_ten, ← hda, ← hdb]
    omega
  · have hlt := List.pairwise_lt_range 10
    apply hlt.imp_of_mem
    intro d d' _ _ hdd' a ha b hb
    have hda : d = radixDigit exp a := by
      have hm := (List.mem_filter.1 ha).2
      simpa using hm
    have hdb : d' = radixDigit exp b := by
      have hm := (List.mem_filter.1 hb).2
      simpa using hm
    rw [mod_mul_ten, mod_mul_ten, ← hda, ← hdb]
    have h1 : a % exp < exp := Nat.mod_lt _ hexp
    have h2 : exp * (d + 1) ≤ exp * d' := Nat.mul_le_mul_left exp (by omega)
    have h3 : exp * (d + 1) = exp * d + exp := by ring
    omega

theorem radixLoopGo_spec (maxv : Nat) (hmax : maxv < 1000000000) :
    ∀ (fuel exp : Nat) (l : List Nat), maxv / exp < fuel →
      (∃ k : Nat, exp = 10 ^ k ∧ exp ≤ 1000000000) →
      (∀ v ∈ l, v ≤ maxv) →
      List.Pairwise (fun a b => a % exp ≤ b % exp) l →
      ∃ out, radixLoopGo maxv fuel l exp = some out ∧
        List.Perm out l ∧ List.Pairwise (· ≤ ·) out := by
  intro fuel
  induction fuel with
  | zero =>
    intro exp l hf
    exact absurd hf (Nat.not_lt_zero _)
  | succ fuel ih =>
    intro exp l hf hke hmem hpw
    obtain ⟨k, rfl, hk9⟩ := hke
    have hexp : 0 < (10 : Nat) ^ k := pow_pos (by norm_num) k
    rw [radixLoopGo, if_neg (by omega)]
    by_cases h : 0 < maxv / 10 ^ k
    · rw [if_pos h]
      have hle : (10 : Nat) ^ k ≤ maxv := by
        by_contra hlt
        rw [(Nat.div_eq_zero_iff hexp).2 (by omega)] at h
        exact Nat.lt_irrefl 0 h
      have hk9' : (10 : Nat) ^ (k + 1) ≤ 1000000000 := by
        have hklt : k < 9 := by
          have h9 : (10 : Nat) ^ k < 10 ^ 9 := by
            have he : (10 : Nat) ^ 9 = 1000000000 := by norm_num
            omega
          exact (Nat.pow_lt_pow_iff_right (by norm_num)).1 h9
        have := Nat.pow_le_pow_right (show 0 < 10 by norm_num)
          (show k + 1 ≤ 9 by omega)
        have he : (10 : Nat) ^ 9 = 1000000000 := by norm_num
        omega
      have hwrap : 10 ^ k * 10 % 4294967296 = (10 : Nat) ^ (k + 1) := by
        rw [← pow_succ]
        exact Nat.mod_eq_of_lt (by omega)
      rw [hwrap]
      have hperm : List.Perm (radixPass (10 ^ k) l) l := radixPass_perm _ l
      have hmem' : ∀ v ∈ radixPass (10 ^ k) l, v ≤ maxv :=
        fun v hv => hmem v (hperm.mem_iff.1 hv)
      have hpw' := radixPass_sorted (10 ^ k) hexp l hpw
      rw [← pow_succ] at hpw'
      have hfm : maxv / 10 ^ (k + 1) < fuel := by
        have h1 : maxv / 10 ^ (k + 1) < maxv / 10 ^ k := by
          rw [pow_succ, ← Nat.div_div_eq_div_mul]
          exact Nat.div_lt_self h (by norm_num)
        exact lt_of_lt_of_le h1 (Nat.lt_succ_iff.1 hf)
      obtain ⟨out, heq, hp1, hp2⟩ := ih (10 ^ (k + 1)) (radixPass (10 ^ k) l) hfm
        ⟨k + 1, rfl, hk9'⟩ hmem' hpw'
      exact ⟨out, heq, hp1.trans hperm, hp2⟩
    · rw [if_neg h]
      refine ⟨l, rfl, List.Perm.refl l, ?_⟩
      have hlt : maxv < 10 ^ k := by
        by_contra hge
        exact h (Nat.div_pos (by omega) hexp)
      apply hpw.imp_of_mem
      intro a b ha hb hab
      have ha' : a ≤ maxv := hmem a ha
      have hb' : b ≤ maxv := hmem b hb
      rwa [Nat.mod_eq_of_lt (by omega), Nat.mod_eq_of_lt (by omega)] at hab

theorem fossil_sort_radix_stub_spec (ts : Nat) (desc : Bool) (l : List Nat)
    (hmax : foldMax l < 1000000000)
    (hc : ¬(l.length < 2 ∨ ts ≠ 4)) :
    ∃ out, fossil_sort_radix_stub ts desc l = some (0, out) ∧
      List.Perm out l ∧
      (desc = false → List.Pairwise (· ≤ ·) out) ∧
      (desc = true → List.Pairwise (fun a b : Nat => b ≤ a) out) := by
  unfold fossil_sort_radix_stub
  rw [if_neg hc]
  have hstart : List.Pairwise (fun a b : Nat => a % 1 ≤ b % 1) l := by
    apply List.pairwise_iff_getElem.2
    intro i j hi hj hij
    simp [Nat.mod_one]
  obtain ⟨sorted, heq, hperm, hsorted⟩ := radixLoopGo_spec (foldMax l) hmax
    (foldMax l + 1) 1 l (by omega) ⟨0, by norm_num, by norm_num⟩
    (fun v hv => foldMax_ge hv) hstart
  rw [heq]
  cases desc with
  | false =>
    exact ⟨sorted, rfl, hperm, fun _ => hsorted, fun h => by simp at h⟩
  | true =>
    refine ⟨sorted.reverse, rfl, (List.reverse_perm _).trans hperm,
      fun h => by simp at h, fun _ => ?_⟩
    rw [List.pairwise_reverse]
    exact hsorted

end RadixProof

/-! ### Shell sort stub -/

section ShellProof

variable {α : Type} [Inhabited α] {cmp : α → α → Bool → Int} {desc : Bool}

theorem set_set_perm (l : List α) (i j : Nat) (tmp : α)
    (hi : i < l.length) (hj : j < l.length) (hij : i ≠ j) :
    List.Perm ((l.set j (l.getD i default)).set i tmp) (l.set j tmp) := by
  classical
  rw [List.perm_iff_count]
  intro x
  rw [getD_eq_getElem l i hi]
  have hi' : i < (l.set j l[i]).length := by simp [hi]
  rw [List.count_set _ _ _ _ hi', List.count_set _ _ _ _ hj, List.count_set _ _ _ _ hj]
  have hme : (l.set j l[i])[i] = l[i] := by
    have hne := List.getElem?_set_ne (l := l) (a := l[i]) (fun he => hij he.symm) (j := i)
    rw [List.getElem?_eq_getElem hi'] at hne
    rw [List.getElem?_eq_getElem hi] at hne
    exact Option.some_injective _ hne
  rw [hme]
  have h1 : (if (l[i] == x) = true then 1 else 0) ≤ List.count x l := by
    split_ifs with hx
    · exact List.one_le_count_iff.2 (by rw [← beq_iff_eq.1 hx]; exact List.getElem_mem hi)
    · omega
  have h2 : (if (l[j] == x) = true then 1 else 0) ≤ List.count x l := by
    split_ifs with hx
    · exact List.one_le_count_iff.2 (by rw [← beq_iff_eq.1 hx]; exact List.getElem_mem hj)
    · omega
  omega

theorem gapInsertLoop_perm (gap : Nat) (tmp : α) :
    ∀ (j : Nat) (l : List α), j < l.length →
      List.Perm (gapInsertLoop cmp desc gap tmp l j) (l.set j tmp) := by
  intro j
  induction j using Nat.strong_induction_on with
  | _ j ih =>
    intro l hj
    rw [gapInsertLoop]
    by_cases hcond : gap ≤ j ∧ 0 < gap ∧ 0 < cmp (l.getD (j - gap) default) tmp desc
    · rw [dif_pos hcond]
      obtain ⟨hg1, hg0, -⟩ := hcond
      have hlen : j - gap < (l.set j (l.getD (j - gap) default)).length := by
        rw [List.length_set]; omega
      refine (ih (j - gap) (by omega) _ hlen).trans ?_
      exact set_set_perm l (j - gap) j tmp (by omega) hj (by omega)
    · rw [dif_neg hcond]

theorem gapPassGo_perm (gap : Nat) :
    ∀ (n : Nat) (l : List α) (i : Nat), l.length - i = n →
      List.Perm (gapPassGo cmp desc gap l i) l := by
  intro n
  induction n using Nat.strong_induction_on with
  | _ n ih =>
    intro l i hn
    rw [gapPassGo]
    by_cases hi : i < l.length
    · rw [dif_pos hi]
      have hlen : (gapInsertLoop cmp desc gap (l.getD i default) l i).length = l.length :=
        gapInsertLoop_length cmp desc gap _ i l
      have hrec := ih (l.length - (i + 1)) (by omega)
        (gapInsertLoop cmp desc gap (l.getD i default) l i) (i + 1) (by rw [hlen])
      refine hrec.trans ?_
      refine (gapInsertLoop_perm gap _ i l hi).trans ?_
      rw [set_getD_self]
    · rw [dif_neg hi]

theorem shellGapsGo_perm :
    ∀ (gap : Nat) (l : List α), List.Perm (shellGapsGo cmp desc l gap) l := by
  intro gap
  induction gap using Nat.strong_induction_on with
  | _ gap ih =>
    intro l
    rw [shellGapsGo]
    by_cases h0 : gap = 0
    · rw [if_pos h0]
    · rw [if_neg h0]
      exact (ih (gap / 2) (by omega) _).trans (gapPassGo_perm gap _ _ gap rfl)

theorem take_succ_getD (l : List α) (j : Nat) (hj : j < l.length) :
    l.take (j + 1) = l.take j ++ [l.getD j default] := by
  rw [List.take_succ, List.getElem?_eq_getElem hj, getD_eq_getElem l j hj]
  rfl

theorem take_reverse_succ (l : List α) (j : Nat) (hj : j < l.length) :
    (l.take (j + 1)).reverse = l.getD j default :: (l.take j).reverse := by
  rw [take_succ_getD l j hj, List.reverse_append]
  rfl

theorem gapInsert_one_eq (tmp : α) :
    ∀ (j : Nat) (l : List α), j < l.length →
      gapInsertLoop cmp desc 1 tmp l j =
        insertStep cmp desc tmp (l.take j) ++ l.drop (j + 1) := by
  intro j
  induction j using Nat.strong_induction_on with
  | _ j ih =>
    intro l hj
    rw [gapInsertLoop]
    by_cases hcond : 1 ≤ j ∧ 0 < 1 ∧ 0 < cmp (l.getD (j - 1) default) tmp desc
    · rw [dif_pos hcond]
      obtain ⟨hj1, -, hgt⟩ := hcond
      obtain ⟨j', rfl⟩ : ∃ j', j = j' + 1 := ⟨j - 1, by omega⟩
      simp only [Nat.add_sub_cancel] at hgt ⊢
      have hlen : j' < (l.set (j' + 1) (l.getD j' default)).length := by
        rw [List.length_set]; omega
      rw [ih j' (by omega) _ hlen]
      have hset : l.set (j' + 1) (l.getD j' default) =
          l.take (j' + 1) ++ l.getD j' default :: l.drop (j' + 1 + 1) := by
        rw [List.set_eq_take_append_cons_drop, if_pos hj]
      have htl : (l.take (j' + 1)).length = j' + 1 := by
        rw [List.length_take]
        exact Nat.min_eq_left (by omega)
      have htake : (l.set (j' + 1) (l.getD j' default)).take j' = l.take j' := by
        rw [hset, List.take_append_of_le_length (by rw [htl]; omega),
          List.take_take, Nat.min_eq_left (by omega)]
      have hdrop : (l.set (j' + 1) (l.getD j' default)).drop (j' + 1) =
          l.getD j' default :: l.drop (j' + 1 + 1) := by
        rw [hset, List.drop_left' htl]
      rw [htake, hdrop]
      unfold insertStep
      rw [take_reverse_succ l j' (by omega), insRev, if_pos hgt]
      rw [List.reverse_cons, List.append_assoc]
      rfl
    · rw [dif_neg hcond]
      by_cases hj0 : j = 0
      · subst hj0
        rw [List.set_eq_take_append_cons_drop, if_pos hj]
        simp [insertStep, insRev]
      · obtain ⟨j', rfl⟩ : ∃ j', j = j' + 1 := ⟨j - 1, by omega⟩
        have hle : ¬ 0 < cmp (l.getD j' default) tmp desc := by
          intro hgt
          exact hcond ⟨by omega, by omega, by simpa using hgt⟩
        rw [List.set_eq_take_append_cons_drop, if_pos hj]
        unfold insertStep
        rw [take_reverse_succ l j' (by omega), insRev, if_neg hle]
        rw [take_succ_getD l j' (by omega)]
        simp

theorem gapPass_one_sorted (h : IsCmp cmp desc) :
    ∀ (n : Nat) (l : List α) (i : Nat), l.length - i = n →
      SortedCmp cmp desc (l.take i) →
      SortedCmp cmp desc (gapPassGo cmp desc 1 l i) := by
  intro n
  induction n using Nat.strong_induction_on with
  | _ n ihn =>
    intro l i hn hsort
    rw [gapPassGo]
    by_cases hi : i < l.length
    · rw [dif_pos hi]
      have hlen : (gapInsertLoop cmp desc 1 (l.getD i default) l i).length = l.length :=
        gapInsertLoop_length cmp desc 1 _ i l
      apply ihn (l.length - (i + 1)) (by omega) _ (i + 1) (by rw [hlen])
      rw [gapInsert_one_eq (l.getD i default) i l hi]
      have hstep : (insertStep cmp desc (l.getD i default) (l.take i)).length = i + 1 := by
        rw [(insertStep_perm (l.getD i default) (l.take i)).length_eq, List.length_cons,
          List.length_take]
        rw [Nat.min_eq_left (by omega)]
      rw [List.take_left' hstep]
      exact insertStep_sorted h _ _ hsort
    · rw [dif_neg hi]
      rw [List.take_of_length_le (by omega)] at hsort
      exact hsort

theorem shellGapsGo_sorted (h : IsCmp cmp desc) :
    ∀ (gap : Nat) (l : List α), 0 < gap →
      SortedCmp cmp desc (shellGapsGo cmp desc l gap) := by
  intro gap
  induction gap using Nat.strong_induction_on with
  | _ gap ih =>
    intro l hgap
    rw [shellGapsGo, if_neg (by omega : ¬ gap = 0)]
    by_cases h1 : gap = 1
    · subst h1
      rw [shellGapsGo, if_pos (by norm_num : 1 / 2 = 0)]
      apply gapPass_one_sorted h (l.length - 1) l 1 rfl
      unfold SortedCmp
      apply List.pairwise_iff_getElem.2
      intro a b ha hb hab
      rw [List.length_take] at hb
      have hmin := Nat.min_le_left 1 l.length
      omega
    · exact ih (gap / 2) (by omega) (gapPassGo cmp desc gap l gap) (by omega)

theorem fossil_sort_shell_stub_spec (h : IsCmp cmp desc) (l : List α)
    (hok : (fossil_sort_shell_stub cmp desc l).1 = 0) :
    SortedCmp cmp desc (fossil_sort_shell_stub cmp desc l).2 ∧
    List.Perm (fossil_sort_shell_stub cmp desc l).2 l := by
  unfold fossil_sort_shell_stub at hok ⊢
  split_ifs at hok ⊢ with hc
  · exact absurd hok (by norm_num)
  · refine ⟨shellGapsGo_sorted h (l.length / 2) l (by omega), shellGapsGo_perm (l.length / 2) l⟩

end ShellProof

/-! ### Heap sort stub -/

section HeapProof

variable {α : Type} [Inhabited α] {cmp : α → α → Bool → Int} {desc : Bool}

/-- Membership in the binary-heap subtree rooted at `r` (indices reachable
from `r` by the `2i+1` / `2i+2` child maps), tested by iterating the
parent map `(j-1)/2`. -/
def inSubtree (r : Nat) (j : Nat) : Bool :=
  if _h : j = r then true
  else if _h2 : j < r then false
  else inSubtree r ((j - 1) / 2)
termination_by j
decreasing_by omega

theorem inSubtree_self (r : Nat) : inSubtree r r = true := by
  rw [inSubtree]
  simp

theorem inSubtree_of_lt {r j : Nat} (h : j < r) : inSubtree r j = false := by
  rw [inSubtree, dif_neg (by omega), dif_pos h]

theorem inSubtree_ge (r : Nat) : ∀ j, inSubtree r j = true → r ≤ j := by
  intro j
  induction j using Nat.strong_induction_on with
  | _ j ih =>
    intro hj
    rw [inSubtree] at hj
    by_cases h1 : j = r
    · omega
    · rw [dif_neg h1] at hj
      by_cases h2 : j < r
      · rw [dif_pos h2] at hj
        exact absurd hj (by simp)
      · omega

theorem inSubtree_child (r j : Nat) (hj : inSubtree r j = true) :
    inSubtree r (2 * j + 1) = true ∧ inSubtree r (2 * j + 2) = true := by
  have hrj : r ≤ j := inSubtree_ge r j hj
  constructor
  · rw [inSubtree, dif_neg (by omega), dif_neg (by omega)]
    have hp : (2 * j + 1 - 1) / 2 = j := by omega
    rw [hp]
    exact hj
  · rw [inSubtree, dif_neg (by omega), dif_neg (by omega)]
    have hp : (2 * j + 2 - 1) / 2 = j := by omega
    rw [hp]
    exact hj

theorem inSubtree_trans (r s : Nat) (hrs : inSubtree r s = true) :
    ∀ j, inSubtree s j = true → inSubtree r j = true := by
  intro j
  induction j using Nat.strong_induction_on with
  | _ j ih =>
    intro hj
    rw [inSubtree] at hj
    by_cases h1 : j = s
    · subst h1; exact hrs
    · rw [dif_neg h1] at hj
      by_cases h2 : j < s
      · rw [dif_pos h2] at hj
        exact absurd hj (by simp)
      · rw [dif_neg h2] at hj
        have hrecur := ih ((j - 1) / 2) (by omega) hj
        have hrs' : r ≤ s := inSubtree_ge r s hrs
        rw [inSubtree, dif_neg (by omega), dif_neg (by omega)]
        exact hrecur

theorem inSubtree_zero : ∀ j, inSubtree 0 j = true := by
  intro j
  induction j using Nat.strong_induction_on with
  | _ j ih =>
    by_cases h1 : j = 0
    · subst h1; exact inSubtree_self 0
    · rw [inSubtree, dif_neg h1, dif_neg (by omega)]
      exact ih ((j - 1) / 2) (by omega)

theorem listSwap_getD_ne (l : List α) (i j k : Nat) (hki : k ≠ i) (hkj : k ≠ j) :
    (listSwap l i j).getD k default = l.getD k default := by
  unfold listSwap
  rw [List.getD_eq_getElem?_getD, List.getElem?_set_ne (Ne.symm hkj),
    List.getElem?_set_ne (Ne.symm hki), ← List.getD_eq_getElem?_getD]

theorem listSwap_getD_fst (l : List α) (i j : Nat) (hi : i < l.length)
    (hj : j < l.length) : (listSwap l i j).getD i default = l.getD j default := by
  unfold listSwap
  by_cases hij : i = j
  · subst hij
    rw [List.getD_eq_getElem?_getD, List.getElem?_set_self (by simp [hi]),
      Option.getD_some]
  · rw [List.getD_eq_getElem?_getD, List.getElem?_set_ne (Ne.symm hij),
      List.getElem?_set_self hi, Option.getD_some]

theorem listSwap_getD_snd (l : List α) (i j : Nat) (hi : i < l.length)
    (hj : j < l.length) : (listSwap l i j).getD j default = l.getD i default := by
  unfold listSwap
  rw [List.getD_eq_getElem?_getD, List.getElem?_set_self (by simp [hj]),
    Option.getD_some]

/-- The max-heap shape maintained by the sift-down stub on positions
`[r, count)` of the array: every child within `count` whose parent index
is at least `r` compares `≤ 0` against its parent. -/
def HeapFrom (cmp : α → α → Bool → Int) (desc : Bool) (l : List α) (count r : Nat) :
    Prop :=
  ∀ j c, r ≤ j → c < count → (c = 2 * j + 1 ∨ c = 2 * j + 2) →
    cmp (l.getD c default) (l.getD j default) desc ≤ 0

theorem heapLargest_le (h : IsCmp cmp desc) (l : List α) (count root : Nat) :
    (∀ c', (c' = 2 * root + 1 ∨ c' = 2 * root + 2) → c' < count →
      c' ≠ heapLargest cmp desc l count root →
      cmp (l.getD c' default) (l.getD (heapLargest cmp desc l count root) default)
        desc ≤ 0) ∧
    (heapLargest cmp desc l count root ≠ root →
      cmp (l.getD root default) (l.getD (heapLargest cmp desc l count root) default)
        desc ≤ 0) := by
  unfold heapLargest
  dsimp only
  split_ifs with h1 h2 h2'
  · constructor
    · rintro c' (rfl | rfl) hlt hne
      · exact h.le_of_lt h2.2
      · exact absurd rfl hne
    · intro _
      exact h.le_trans _ _ _ (h.le_of_lt h1.2) (h.le_of_lt h2.2)
  · constructor
    · rintro c' (rfl | rfl) hlt hne
      · exact absurd rfl hne
      · exact h.le_of_not_lt (fun hpos => h2 ⟨hlt, hpos⟩)
    · intro _
      exact h.le_of_lt h1.2
  · constructor
    · rintro c' (rfl | rfl) hlt hne
      · exact h.le_trans _ _ _ (h.le_of_not_lt (fun hpos => h1 ⟨hlt, hpos⟩))
          (h.le_of_lt h2'.2)
      · exact absurd rfl hne
    · intro _
      exact h.le_of_lt h2'.2
  · constructor
    · rintro c' (rfl | rfl) hlt hne
      · exact h.le_of_not_lt (fun hpos => h1 ⟨hlt, hpos⟩)
      · exact h.le_of_not_lt (fun hpos => h2' ⟨hlt, hpos⟩)
    · intro hne
      exact absurd rfl hne

theorem fossilHeapify_length (count : Nat) :
    ∀ (n root : Nat) (l : List α), count - root = n →
      (fossilHeapify cmp desc l count root).length = l.length := by
  intro n
  induction n using Nat.strong_induction_on with
  | _ n ih =>
    intro root l hn
    rw [fossilHeapify]
    by_cases hL : heapLargest cmp desc l count root = root
    · rw [dif_pos hL]
    · rw [dif_neg hL]
      rcases heapLargest_cases cmp desc l count root with hcase | ⟨hgt, hlt, -⟩
      · exact absurd hcase hL
      · rw [ih (count - heapLargest cmp desc l count root) (by omega) _ _ rfl,
          listSwap_length]

theorem fossilHeapify_perm (count : Nat) :
    ∀ (n root : Nat) (l : List α), count - root = n → count ≤ l.length →
      List.Perm (fossilHeapify cmp desc l count root) l := by
  intro n
  induction n using Nat.strong_induction_on with
  | _ n ih =>
    intro root l hn hcl
    rw [fossilHeapify]
    by_cases hL : heapLargest cmp desc l count root = root
    · rw [dif_pos hL]
    · rw [dif_neg hL]
      rcases heapLargest_cases cmp desc l count root with hcase | ⟨hgt, hlt, -⟩
      · exact absurd hcase hL
      · refine (ih (count - heapLargest cmp desc l count root) (by omega) _ _ rfl
          (by rw [listSwap_length]; exact hcl)).trans ?_
        exact listSwap_perm l root _ (by omega) (by omega)

theorem fossilHeapify_getD_outside (count : Nat) :
    ∀ (n root : Nat) (l : List α) (k : Nat), count - root = n →
      (inSubtree root k = false ∨ count ≤ k) →
      (fossilHeapify cmp desc l count root).getD k default = l.getD k default := by
  intro n
  induction n using Nat.strong_induction_on with
  | _ n ih =>
    intro root l k hn hk
    rw [fossilHeapify]
    by_cases hL : heapLargest cmp desc l count root = root
    · rw [dif_pos hL]
    · rw [dif_neg hL]
      rcases heapLargest_cases cmp desc l count root with hcase | ⟨hgt, hlt, hchild⟩
      · exact absurd hcase hL
      · set c := heapLargest cmp desc l count root with hc
        have hrc : inSubtree root c = true := by
          rcases hchild with h1 | h1 <;> rw [h1]
          · exact (inSubtree_child root root (inSubtree_self root)).1
          · exact (inSubtree_child root root (inSubtree_self root)).2
        have hk' : inSubtree c k = false ∨ count ≤ k := by
          rcases hk with hk | hk
          · left
            by_cases hck : inSubtree c k = true
            · exact absurd (inSubtree_trans root c hrc k hck) (by simp [hk])
            · simpa using hck
          · right; exact hk
        rw [ih (count - c) (by omega) c _ k rfl hk']
        have hkr : k ≠ root := by
          rcases hk with hk | hk
          · intro he
            rw [he, inSubtree_self] at hk
            simp at hk
          · omega
        have hkc : k ≠ c := by
          rcases hk with hk | hk
          · intro he
            rw [he, hrc] at hk
            simp at hk
          · omega
        exact listSwap_getD_ne l root c k hkr hkc

theorem heapFrom_chain (h : IsCmp cmp desc) (l : List α) (count r s : Nat)
    (hh : HeapFrom cmp desc l count r) (hrs : r ≤ s) :
    ∀ k, inSubtree s k = true → k < count →
      cmp (l.getD k default) (l.getD s default) desc ≤ 0 := by
  intro k
  induction k using Nat.strong_induction_on with
  | _ k ihk =>
    intro hk hkc
    by_cases hks : k = s
    · subst hks; exact h.le_refl _
    · rw [inSubtree, dif_neg hks] at hk
      by_cases hlt : k < s
      · rw [dif_pos hlt] at hk
        exact absurd hk (by simp)
      · rw [dif_neg hlt] at hk
        have hpk : (k - 1) / 2 < k := by omega
        have hps : s ≤ (k - 1) / 2 := inSubtree_ge _ _ hk
        have hchild : k = 2 * ((k - 1) / 2) + 1 ∨ k = 2 * ((k - 1) / 2) + 2 := by omega
        have h1 := hh ((k - 1) / 2) k (by omega) hkc hchild
        have h2 := ihk ((k - 1) / 2) hpk hk (by omega)
        exact h.le_trans _ _ _ h1 h2

theorem heapFrom_root_max (h : IsCmp cmp desc) (l : List α) (count : Nat)
    (hh : HeapFrom cmp desc l count 0) :
    ∀ k, k < count → cmp (l.getD k default) (l.getD 0 default) desc ≤ 0 :=
  fun k hk => heapFrom_chain h l count 0 0 hh (le_refl 0) k (inSubtree_zero k) hk

/-- The sift-down correctness: if every strictly lower root already heads a
heap, sifting down from `root` restores the heap from `root` on, and every
position of the subtree of `root` afterwards holds a value read off some
position of that same subtree. -/
theorem fossilHeapify_spec (h : IsCmp cmp desc) (count : Nat) :
    ∀ (n root : Nat) (l : List α), count - root = n → count ≤ l.length →
      HeapFrom cmp desc l count (root + 1) →
      HeapFrom cmp desc (fossilHeapify cmp desc l count root) count root ∧
      (∀ k, k < count → inSubtree root k = true →
        ∃ p, p < count ∧ inSubtree root p = true ∧
          (fossilHeapify cmp desc l count root).getD k default = l.getD p default) := by
  intro n
  induction n using Nat.strong_induction_on with
  | _ n ih =>
    intro root l hn hcl hheap
    rw [fossilHeapify]
    by_cases hL : heapLargest cmp desc l count root = root
    · rw [dif_pos hL]
      refine ⟨?_, fun k hk hin => ⟨k, hk, hin, rfl⟩⟩
      intro j c' hj hc' hcc'
      by_cases hjr : j = root
      · subst hjr
        have hne : c' ≠ heapLargest cmp desc l count j := by
          rw [hL]; omega
        have hc0 := (heapLargest_le h l count j).1 c' hcc' hc' hne
        rwa [hL] at hc0
      · exact hheap j c' (by omega) hc' hcc'
    · rw [dif_neg hL]
      rcases heapLargest_cases cmp desc l count root with hcase | ⟨hgt, hlt, hchild⟩
      · exact absurd hcase hL
      set c := heapLargest cmp desc l count root with hc
      have hle := heapLargest_le h l count root
      rw [← hc] at hle
      have hrc : inSubtree root c = true := by
        rcases hchild with h1 | h1 <;> rw [h1]
        · exact (inSubtree_child root root (inSubtree_self root)).1
        · exact (inSubtree_child root root (inSubtree_self root)).2
      have hswlen : count ≤ (listSwap l root c).length := by
        rw [listSwap_length]; exact hcl
      have hheap' : HeapFrom cmp desc (listSwap l root c) count (c + 1) := by
        intro j c' hj hc' hcc'
        rw [listSwap_getD_ne l root c j (by omega) (by omega),
          listSwap_getD_ne l root c c' (by omega) (by omega)]
        exact hheap j c' (by omega) hc' hcc'
      obtain ⟨ihH, ihV⟩ := ih (count - c) (by omega) c (listSwap l root c) rfl hswlen hheap'
      have hvals : ∀ k, k < count → inSubtree root k = true →
          ∃ p, p < count ∧ inSubtree root p = true ∧
            (fossilHeapify cmp desc (listSwap l root c) count c).getD k default =
              l.getD p default := by
        intro k hk hin
        by_cases hkc : inSubtree c k = true
        · obtain ⟨p, hp, hpin, hpe⟩ := ihV k hk hkc
          by_cases hpc : p = c
          · subst hpc
            refine ⟨root, by omega, inSubtree_self root, ?_⟩
            rw [hpe, listSwap_getD_snd l root c (by omega) (by omega)]
          · have hpge : c ≤ p := inSubtree_ge c p hpin
            refine ⟨p, hp, inSubtree_trans root c hrc p hpin, ?_⟩
            rw [hpe, listSwap_getD_ne l root c p (by omega) hpc]
        · have hout : (fossilHeapify cmp desc (listSwap l root c) count c).getD k default =
              (listSwap l root c).getD k default :=
            fossilHeapify_getD_outside count (count - c) c (listSwap l root c) k
              rfl (Or.inl (by simpa using hkc))
          by_cases hkr : k = root
          · subst hkr
            refine ⟨c, by omega, hrc, ?_⟩
            rw [hout, listSwap_getD_fst l k c (by omega) (by omega)]
          · refine ⟨k, hk, hin, ?_⟩
            rw [hout, listSwap_getD_ne l root c k hkr
              (fun he => hkc (by rw [he]; exact inSubtree_self c))]
      refine ⟨?_, hvals⟩
      have hrootval : (fossilHeapify cmp desc (listSwap l root c) count c).getD root
          default = l.getD c default := by
        rw [fossilHeapify_getD_outside count (count - c) c (listSwap l root c) root rfl
            (Or.inl (inSubtree_of_lt (by omega))),
          listSwap_getD_fst l root c (by omega) (by omega)]
      intro j c' hj hc' hcc'
      by_cases hjc : c ≤ j
      · exact ihH j c' hjc hc' hcc'
      · by_cases hjr : j = root
        · subst hjr
          rw [hrootval]
          by_cases hc'c : c' = c
          · obtain ⟨p, hp, hpin, hpe⟩ := ihV c' hc' (by rw [hc'c]; exact inSubtree_self c)
            rw [hpe]
            by_cases hpc : p = c
            · rw [hpc, listSwap_getD_snd l j c (by omega) (by omega)]
              exact hle.2 (by omega)
            · have hpge : c ≤ p := inSubtree_ge c p hpin
              rw [listSwap_getD_ne l j c p (by omega) hpc]
              exact heapFrom_chain h l count (j + 1) c hheap (by omega) p hpin hp
          · have hsib : inSubtree c c' = false := by
              by_cases hlt' : c' < c
              · exact inSubtree_of_lt hlt'
              · rw [inSubtree, dif_neg hc'c, dif_neg hlt']
                have hpar : (c' - 1) / 2 = j := by omega
                rw [hpar]
                exact inSubtree_of_lt (by omega)
            rw [fossilHeapify_getD_outside count (count - c) c (listSwap l j c) c' rfl
                (Or.inl hsib),
              listSwap_getD_ne l j c c' (by omega) hc'c]
            exact hle.1 c' hcc' hc' hc'c
        · have hjout : inSubtree c j = false := inSubtree_of_lt (by omega)
          have hcout : inSubtree c c' = false := by
            rw [inSubtree, dif_neg (by omega), dif_neg (by omega)]
            have hpar : (c' - 1) / 2 = j := by omega
            rw [hpar]
            exact inSubtree_of_lt (by omega)
          rw [fossilHeapify_getD_outside count (count - c) c (listSwap l root c) j rfl
              (Or.inl hjout),
            fossilHeapify_getD_outside count (count - c) c (listSwap l root c) c' rfl
              (Or.inl hcout),
            listSwap_getD_ne l root c j hjr (by omega),
            listSwap_getD_ne l root c c' (by omega) (by omega)]
          exact hheap j c' (by omega) hc' hcc'

theorem heapBuildGo_length (count : Nat) :
    ∀ (i : Nat) (l : List α), (heapBuildGo cmp desc count i l).length = l.length := by
  intro i
  induction i with
  | zero =>
    intro l
    rw [heapBuildGo]
    exact fossilHeapify_length count (count - 0) 0 l rfl
  | succ i ih =>
    intro l
    rw [heapBuildGo, ih, fossilHeapify_length count (count - (i + 1)) (i + 1) l rfl]

theorem heapBuildGo_perm (count : Nat) :
    ∀ (i : Nat) (l : List α), count ≤ l.length →
      List.Perm (heapBuildGo cmp desc count i l) l := by
  intro i
  induction i with
  | zero =>
    intro l hcl
    rw [heapBuildGo]
    exact fossilHeapify_perm count (count - 0) 0 l rfl hcl
  | succ i ih =>
    intro l hcl
    rw [heapBuildGo]
    refine (ih _ ?_).trans (fossilHeapify_perm count (count - (i + 1)) (i + 1) l rfl hcl)
    rw [fossilHeapify_length count (count - (i + 1)) (i + 1) l rfl]
    exact hcl

theorem heapBuildGo_heap (h : IsCmp cmp desc) (count : Nat) :
    ∀ (i : Nat) (l : List α), count ≤ l.length →
      HeapFrom cmp desc l count (i + 1) →
      HeapFrom cmp desc (heapBuildGo cmp desc count i l) count 0 := by
  intro i
  induction i with
  | zero =>
    intro l hcl hh
    rw [heapBuildGo]
    exact (fossilHeapify_spec h count (count - 0) 0 l rfl hcl hh).1
  | succ i ih =>
    intro l hcl hh
    rw [heapBuildGo]
    apply ih
    · rw [fossilHeapify_length count (count - (i + 1)) (i + 1) l rfl]
      exact hcl
    · exact (fossilHeapify_spec h count (count - (i + 1)) (i + 1) l rfl hcl hh).1

theorem eq_of_getD_eq (l l' : List α) (hlen : l.length = l'.length)
    (hk : ∀ k, k < l.length → l.getD k default = l'.getD k default) : l = l' := by
  apply List.ext_getElem hlen
  intro t ht1 ht2
  rw [← getD_eq_getElem l t ht1, ← getD_eq_getElem l' t ht2]
  exact hk t ht1

theorem getD_drop (l : List α) (m k : Nat) (hk : m + k < l.length) :
    (l.drop m).getD k default = l.getD (m + k) default := by
  rw [getD_eq_getElem _ k (by rw [List.length_drop]; omega), getD_eq_getElem _ _ hk]
  exact List.getElem_drop l

theorem heapExtractGo_spec (h : IsCmp cmp desc) :
    ∀ (i : Nat) (l : List α), i + 1 ≤ l.length →
      HeapFrom cmp desc l (i + 1) 0 →
      SortedCmp cmp desc (l.drop (i + 1)) →
      (∀ a ∈ l.take (i + 1), ∀ b ∈ l.drop (i + 1), cmp a b desc ≤ 0) →
      SortedCmp cmp desc (heapExtractGo cmp desc i l) ∧
      List.Perm (heapExtractGo cmp desc i l) l := by
  intro i
  induction i with
  | zero =>
    intro l hlen hh hs hcross
    rw [heapExtractGo]
    refine ⟨?_, List.Perm.refl l⟩
    unfold SortedCmp at hs ⊢
    rw [← List.take_append_drop 1 l, List.pairwise_append]
    refine ⟨?_, hs, hcross⟩
    apply List.pairwise_iff_getElem.2
    intro a b ha hb hab
    rw [List.length_take] at hb
    have hm := Nat.min_le_left 1 l.length
    omega
  | succ i ih =>
    intro l hlen hh hs hcross
    rw [heapExtractGo]
    set l1 := listSwap l 0 (i + 1) with hl1
    set l2 := fossilHeapify cmp desc l1 (i + 1) 0 with hl2
    have h0len : 0 < l.length := by omega
    have hi1len : i + 1 < l.length := by omega
    have hl1len : l1.length = l.length := by rw [hl1, listSwap_length]
    have hl2len : l2.length = l.length := by
      rw [hl2, fossilHeapify_length (i + 1) (i + 1 - 0) 0 l1 rfl, hl1len]
    have hh1 : HeapFrom cmp desc l1 (i + 1) 1 := by
      intro j c' hj hc' hcc'
      rw [hl1, listSwap_getD_ne l 0 (i + 1) j (by omega) (by omega),
        listSwap_getD_ne l 0 (i + 1) c' (by omega) (by omega)]
      exact hh j c' (by omega) (by omega) hcc'
    have hspec := fossilHeapify_spec h (i + 1) (i + 1 - 0) 0 l1 rfl
      (by rw [hl1len]; omega) hh1
    rw [← hl2] at hspec
    have hh2 : HeapFrom cmp desc l2 (i + 1) 0 := hspec.1
    have hout2 : ∀ k, i + 1 ≤ k → l2.getD k default = l1.getD k default := by
      intro k hk
      rw [hl2]
      exact fossilHeapify_getD_outside (i + 1) (i + 1 - 0) 0 l1 k rfl (Or.inr hk)
    have hdrop2 : l2.drop (i + 1) = l.getD 0 default :: l.drop (i + 1 + 1) := by
      apply eq_of_getD_eq
      · rw [List.length_drop, hl2len, List.length_cons, List.length_drop]
        omega
      · intro k hklen
        rw [List.length_drop, hl2len] at hklen
        rw [getD_drop l2 (i + 1) k (by rw [hl2len]; omega)]
        rw [hout2 (i + 1 + k) (by omega)]
        cases k with
        | zero =>
          rw [List.getD_cons_zero, hl1]
          have hidx : i + 1 + 0 = i + 1 := by omega
          rw [hidx]
          exact listSwap_getD_snd l 0 (i + 1) h0len hi1len
        | succ q =>
          rw [List.getD_cons_succ, hl1,
            listSwap_getD_ne l 0 (i + 1) (i + 1 + (q + 1)) (by omega) (by omega),
            getD_drop l (i + 1 + 1) q (by omega)]
          have hidx : i + 1 + (q + 1) = i + 1 + 1 + q := by omega
          rw [hidx]
    have hs2 : SortedCmp cmp desc (l2.drop (i + 1)) := by
      rw [hdrop2]
      unfold SortedCmp
      rw [List.pairwise_cons]
      constructor
      · intro b hb
        refine hcross (l.getD 0 default) ?_ b hb
        rw [getD_eq_getElem l 0 h0len]
        exact List.mem_take_iff_getElem.2 ⟨0, lt_min (by omega) h0len, rfl⟩
      · exact hs
    have hval2 : ∀ a, a ∈ l2.take (i + 1) → ∃ p, p < i + 2 ∧ a = l.getD p default := by
      intro a ha
      obtain ⟨t, htm, hta⟩ := List.mem_take_iff_getElem.1 ha
      have htlt : t < i + 1 := lt_of_lt_of_le htm (Nat.min_le_left _ _)
      obtain ⟨p, hp, -, hpe⟩ := hspec.2 t (by omega) (inSubtree_zero t)
      have hat : a = l2.getD t default := by
        rw [getD_eq_getElem l2 t (by omega), hta]
      by_cases hp0 : p = 0
      · refine ⟨i + 1, by omega, ?_⟩
        rw [hat, hpe, hp0, hl1, listSwap_getD_fst l 0 (i + 1) h0len hi1len]
      · refine ⟨p, by omega, ?_⟩
        rw [hat, hpe, hl1, listSwap_getD_ne l 0 (i + 1) p hp0 (by omega)]
    have hcross2 : ∀ a ∈ l2.take (i + 1), ∀ b ∈ l2.drop (i + 1),
        cmp a b desc ≤ 0 := by
      intro a ha b hb
      obtain ⟨p, hp, hpa⟩ := hval2 a ha
      rw [hdrop2] at hb
      rcases List.mem_cons.1 hb with rfl | hbtail
      · rw [hpa]
        exact heapFrom_root_max h l (i + 2) hh p hp
      · rw [hpa]
        refine hcross (l.getD p default) ?_ b hbtail
        rw [getD_eq_getElem l p (by omega)]
        exact List.mem_take_iff_getElem.2 ⟨p, lt_min (by omega) (by omega), rfl⟩
    obtain ⟨hsorted, hperm⟩ := ih l2 (by omega) hh2 hs2 hcross2
    refine ⟨hsorted, hperm.trans ?_⟩
    have hp1 : List.Perm l2 l1 := by
      rw [hl2]
      exact fossilHeapify_perm (i + 1) (i + 1 - 0) 0 l1 rfl (by rw [hl1len]; omega)
    refine hp1.trans ?_
    rw [hl1]
    exact listSwap_perm l 0 (i + 1) h0len hi1len

theorem fossil_sort_heap_stub_spec (h : IsCmp cmp desc) (l : List α)
    (hok : (fossil_sort_heap_stub cmp desc l).1 = 0) :
    SortedCmp cmp desc (fossil_sort_heap_stub cmp desc l).2 ∧
    List.Perm (fossil_sort_heap_stub cmp desc l).2 l := by
  unfold fossil_sort_heap_stub at hok ⊢
  split_ifs at hok ⊢ with hc
  · exact absurd hok (by norm_num)
  · dsimp only
    have hlen2 : 2 ≤ l.length := by omega
    set lb := heapBuildGo cmp desc l.length (l.length / 2 - 1) l with hlb
    have hlblen : lb.length = l.length := by
      rw [hlb]
      exact heapBuildGo_length l.length (l.length / 2 - 1) l
    have hinit : HeapFrom cmp desc l l.length (l.length / 2 - 1 + 1) := by
      intro j c' hj hc' hcc'
      exact absurd hc' (by omega)
    have hheap : HeapFrom cmp desc lb l.length 0 := by
      rw [hlb]
      exact heapBuildGo_heap h l.length (l.length / 2 - 1) l (le_refl _) hinit
    have he1 : l.length - 1 + 1 = l.length := by omega
    have hs0 : SortedCmp cmp desc (lb.drop (l.length - 1 + 1)) := by
      rw [he1, List.drop_eq_nil_of_le (by omega)]
      exact List.Pairwise.nil
    have hcross0 : ∀ a ∈ lb.take (l.length - 1 + 1), ∀ b ∈ lb.drop (l.length - 1 + 1),
        cmp a b desc ≤ 0 := by
      intro a ha b hb
      rw [he1, List.drop_eq_nil_of_le (by omega)] at hb
      cases hb
    obtain ⟨hsort, hperm⟩ := heapExtractGo_spec h (l.length - 1) lb
      (by omega) (by rw [he1]; exact hheap) hs0 hcross0
    refine ⟨hsort, hperm.trans ?_⟩
    rw [hlb]
    exact heapBuildGo_perm l.length (l.length / 2 - 1) l (le_refl _)

end HeapProof

/-! ## Claim C5: exec-level sortedness and permutation -/

theorem ofUnsigned_false_eq (w u : Nat) : ofUnsigned w false u = (u : Int) := rfl

theorem toUnsigned_one_cast (v : Int) (h0 : 0 ≤ v) (hlt : v < 256) :
    ((toUnsigned 1 v : Nat) : Int) = v := by
  unfold toUnsigned
  rw [Int.emod_eq_of_lt h0 (by simpa using hlt), Int.toNat_of_nonneg h0]

theorem toUnsigned_four_cast (v : Int) (h0 : 0 ≤ v) (hlt : v < 4294967296) :
    ((toUnsigned 4 v : Nat) : Int) = v := by
  unfold toUnsigned
  rw [Int.emod_eq_of_lt h0 (by simpa using hlt), Int.toNat_of_nonneg h0]

/-- A successful dispatch of any comparator-driven algorithm id sorts the
buffer by `compareNum` in the decoded direction and permutes it. -/
theorem sort_exec_comparator_spec (l : List Int) (ty : String) (algo : Option String)
    (desc : Bool)
    (halgo : algo = none ∨ algo = some "auto" ∨ algo = some "quick" ∨
      algo = some "merge" ∨ algo = some "heap" ∨ algo = some "insertion" ∨
      algo = some "shell" ∨ algo = some "bubble") :
    ∀ p, sort_exec_core (some l) (some ty) algo desc = some p → p.1 = 0 →
      SortedCmp compareNum desc p.2 ∧ List.Perm p.2 l := by
  intro p hp h0
  unfold sort_exec_core at hp
  dsimp only at hp
  by_cases hl0 : l.length = 0
  · rw [if_pos hl0] at hp
    obtain rfl := Option.some_injective _ hp
    exact absurd h0 (by norm_num)
  · rw [if_neg hl0] at hp
    by_cases hts : sort_type_sizeof (some ty) = 0
    · rw [if_pos hts] at hp
      obtain rfl := Option.some_injective _ hp
      exact absurd h0 (by norm_num)
    · rw [if_neg hts] at hp
      by_cases hhc : ¬ sort_has_comparator ty
      · rw [if_pos hhc] at hp
        obtain rfl := Option.some_injective _ hp
        exact absurd h0 (by norm_num)
      · rw [if_neg hhc] at hp
        rcases halgo with rfl | rfl | rfl | rfl | rfl | rfl | rfl | rfl
        · rw [if_pos (Or.inl rfl)] at hp
          obtain rfl := Option.some_injective _ hp
          exact fossil_sort_qsort_stub_spec (isCmp_compareNum desc) l h0
        · rw [if_pos (Or.inr (Or.inl rfl))] at hp
          obtain rfl := Option.some_injective _ hp
          exact fossil_sort_qsort_stub_spec (isCmp_compareNum desc) l h0
        · rw [if_pos (Or.inr (Or.inr rfl))] at hp
          obtain rfl := Option.some_injective _ hp
          exact fossil_sort_qsort_stub_spec (isCmp_compareNum desc) l h0
        · have h1 : ¬((some "merge" : Option String) = none ∨
              (some "merge" : Option String) = some "auto" ∨
              (some "merge" : Option String) = some "quick") := by simp
          rw [if_neg h1, if_pos rfl] at hp
          obtain rfl := Option.some_injective _ hp
          exact fossil_sort_merge_stub_spec (isCmp_compareNum desc) l h0
        · have h1 : ¬((some "heap" : Option String) = none ∨
              (some "heap" : Option String) = some "auto" ∨
              (some "heap" : Option String) = some "quick") := by simp
          have h2 : (some "heap" : Option String) ≠ some "merge" := by simp
          rw [if_neg h1, if_neg h2, if_pos rfl] at hp
          obtain rfl := Option.some_injective _ hp
          exact fossil_sort_heap_stub_spec (isCmp_compareNum desc) l h0
        · have h1 : ¬((some "insertion" : Option String) = none ∨
              (some "insertion" : Option String) = some "auto" ∨
              (some "insertion" : Option String) = some "quick") := by simp
          have h2 : (some "insertion" : Option String) ≠ some "merge" := by simp
          have h3 : (some "insertion" : Option String) ≠ some "heap" := by simp
          rw [if_neg h1, if_neg h2, if_neg h3, if_pos rfl] at hp
          obtain rfl := Option.some_injective _ hp
          exact fossil_sort_insertion_stub_spec (isCmp_compareNum desc) l h0
        · have h1 : ¬((some "shell" : Option String) = none ∨
              (some "shell" : Option String) = some "auto" ∨
              (some "shell" : Option String) = some "quick") := by simp
          have h2 : (some "shell" : Option String) ≠ some "merge" := by simp
          have h3 : (some "shell" : Option String) ≠ some "heap" := by simp
          have h4 : (some "shell" : Option String) ≠ some "insertion" := by simp
          rw [if_neg h1, if_neg h2, if_neg h3, if_neg h4, if_pos rfl] at hp
          obtain rfl := Option.some_injective _ hp
          exact fossil_sort_shell_stub_spec (isCmp_compareNum desc) l h0
        · have h1 : ¬((some "bubble" : Option String) = none ∨
              (some "bubble" : Option String) = some "auto" ∨
              (some "bubble" : Option String) = some "quick") := by simp
          have h2 : (some "bubble" : Option String) ≠ some "merge" := by simp
          have h3 : (some "bubble" : Option String) ≠ some "heap" := by simp
          have h4 : (some "bubble" : Option String) ≠ some "insertion" := by simp
          have h5 : (some "bubble" : Option String) ≠ some "shell" := by simp
          rw [if_neg h1, if_neg h2, if_neg h3, if_neg h4, if_neg h5, if_pos rfl] at hp
          obtain rfl := Option.some_injective _ hp
          exact fossil_sort_bubble_stub_spec (isCmp_compareNum desc) l h0

/-- The `cstr` analogue of `sort_exec_comparator_spec`: `compare_cstr`
order. -/
theorem cstr_sort_exec_comparator_spec (l : List (List Nat)) (algo : Option String)
    (desc : Bool)
    (halgo : algo = none ∨ algo = some "auto" ∨ algo = some "quick" ∨
      algo = some "merge" ∨ algo = some "heap" ∨ algo = some "insertion" ∨
      algo = some "shell" ∨ algo = some "bubble")
    (hok : (cstr_sort_exec_core (some l) algo desc).1 = 0) :
    SortedCmp compareCstr desc (cstr_sort_exec_core (some l) algo desc).2 ∧
    List.Perm (cstr_sort_exec_core (some l) algo desc).2 l := by
  unfold cstr_sort_exec_core at hok ⊢
  dsimp only at hok ⊢
  by_cases hl0 : l.length = 0
  · rw [if_pos hl0] at hok
    exact absurd hok (by norm_num)
  · rw [if_neg hl0] at hok ⊢
    rcases halgo with rfl | rfl | rfl | rfl | rfl | rfl | rfl | rfl
    · rw [if_pos (Or.inl rfl)] at hok ⊢
      exact fossil_sort_qsort_stub_spec (isCmp_compareCstr desc) l hok
    · rw [if_pos (Or.inr (Or.inl rfl))] at hok ⊢
      exact fossil_sort_qsort_stub_spec (isCmp_compareCstr desc) l hok
    · rw [if_pos (Or.inr (Or.inr rfl))] at hok ⊢
      exact fossil_sort_qsort_stub_spec (isCmp_compareCstr desc) l hok
    · have h1 : ¬((some "merge" : Option String) = none ∨
          (some "merge" : Option String) = some "auto" ∨
          (some "merge" : Option String) = some "quick") := by simp
      rw [if_neg h1, if_pos rfl] at hok ⊢
      exact fossil_sort_merge_stub_spec (isCmp_compareCstr desc) l hok
    · have h1 : ¬((some "heap" : Option String) = none ∨
          (some "heap" : Option String) = some "auto" ∨
          (some "heap" : Option String) = some "quick") := by simp
      have h2 : (some "heap" : Option String) ≠ some "merge" := by simp
      rw [if_neg h1, if_neg h2, if_pos rfl] at hok ⊢
      exact fossil_sort_heap_stub_spec (isCmp_compareCstr desc) l hok
    · have h1 : ¬((some "insertion" : Option String) = none ∨
          (some "insertion" : Option String) = some "auto" ∨
          (some "insertion" : Option String) = some "quick") := by simp
      have h2 : (some "insertion" : Option String) ≠ some "merge" := by simp
      have h3 : (some "insertion" : Option String) ≠ some "heap" := by simp
      rw [if_neg h1, if_neg h2, if_neg h3, if_pos rfl] at hok ⊢
      exact fossil_sort_insertion_stub_spec (isCmp_compareCstr desc) l hok
    · have h1 : ¬((some "shell" : Option String) = none ∨
          (some "shell" : Option String) = some "auto" ∨
          (some "shell" : Option String) = some "quick") := by simp
      have h2 : (some "shell" : Option String) ≠ some "merge" := by simp
      have h3 : (some "shell" : Option String) ≠ some "heap" := by simp
      have h4 : (some "shell" : Option String) ≠ some "insertion" := by simp
      rw [if_neg h1, if_neg h2, if_neg h3, if_neg h4, if_pos rfl] at hok ⊢
      exact fossil_sort_shell_stub_spec (isCmp_compareCstr desc) l hok
    · have h1 : ¬((some "bubble" : Option String) = none ∨
          (some "bubble" : Option String) = some "auto" ∨
          (some "bubble" : Option String) = some "quick") := by simp
      have h2 : (some "bubble" : Option String) ≠ some "merge" := by simp
      have h3 : (some "bubble" : Option String) ≠ some "heap" := by simp
      have h4 : (some "bubble" : Option String) ≠ some "insertion" := by simp
      have h5 : (some "bubble" : Option String) ≠ some "shell" := by simp
      rw [if_neg h1, if_neg h2, if_neg h3, if_neg h4, if_neg h5, if_pos rfl] at hok ⊢
      exact fossil_sort_bubble_stub_spec (isCmp_compareCstr desc) l hok


/-- Bytes of a width-1 element always reinterpret below `256`. -/
theorem toUnsigned_one_lt (v : Int) : toUnsigned 1 v < 256 := by
  unfold toUnsigned
  have hN : ((2 ^ (8 * 1) : Nat) : Int) = 256 := by norm_num
  rw [hN]
  have h2 := Int.emod_lt_of_pos v (show (0 : Int) < 256 by norm_num)
  have h3 := Int.emod_nonneg v (show (256 : Int) ≠ 0 by norm_num)
  omega

/-- Writing a byte value back through any width-1 view and re-reading its
bytes is the identity. -/
theorem toUnsigned_ofUnsigned_one (sg : Bool) (u : Nat) (hu : u < 256) :
    toUnsigned 1 (ofUnsigned 1 sg u) = u := by
  unfold toUnsigned ofUnsigned
  have hN : ((2 ^ (8 * 1) : Nat) : Int) = 256 := by norm_num
  have hH : (2 ^ (8 * 1 - 1) : Nat) = 128 := by norm_num
  rw [hH, hN]
  cases sg with
  | false =>
    rw [if_neg (by simp)]
    omega
  | true =>
    by_cases h : 128 ≤ u
    · rw [if_pos ⟨rfl, h⟩]
      omega
    · rw [if_neg (fun hc => h hc.2)]
      omega

theorem foldl_max_le (B : Nat) : ∀ (t : List Nat) (a : Nat), a ≤ B →
    (∀ x ∈ t, x ≤ B) → t.foldl Nat.max a ≤ B := by
  intro t
  induction t with
  | nil =>
    intro a ha _
    simpa using ha
  | cons b t ih =>
    intro a ha hall
    rw [List.foldl_cons]
    exact ih (Nat.max a b) (Nat.max_le.2 ⟨ha, hall b (List.mem_cons_self b t)⟩)
      (fun x hx => hall x (List.mem_cons_of_mem b hx))

theorem foldMax_le {l : List Nat} {B : Nat} (h : ∀ v ∈ l, v ≤ B) : foldMax l ≤ B := by
  cases l with
  | nil => exact Nat.zero_le B
  | cons a t =>
    rw [foldMax]
    exact foldl_max_le B t a (h a (List.mem_cons_self a t))
      (fun x hx => h x (List.mem_cons_of_mem a hx))

/-- A successful `counting` dispatch on a width-1 unsigned type (values
within the byte range) sorts the buffer in the decoded direction and
permutes it. -/
theorem sort_exec_counting_spec (l : List Int) (ty : String) (desc : Bool)
    (hts : sort_type_sizeof (some ty) = 1) (hsg : sort_type_signed ty = false)
    (hhc : sort_has_comparator ty = true)
    (hrange : ∀ v ∈ l, 0 ≤ v ∧ v < 256) :
    ∀ p, sort_exec_core (some l) (some ty) (some "counting") desc = some p → p.1 = 0 →
      List.Perm p.2 l ∧
      (desc = false → List.Pairwise (fun a b : Int => a ≤ b) p.2) ∧
      (desc = true → List.Pairwise (fun a b : Int => b ≤ a) p.2) := by
  intro p hp h0
  unfold sort_exec_core at hp
  dsimp only at hp
  rw [hts, hsg] at hp
  by_cases hl0 : l.length = 0
  · rw [if_pos hl0] at hp
    obtain rfl := Option.some_injective _ hp
    exact absurd h0 (by norm_num)
  · rw [if_neg hl0] at hp
    rw [if_neg (by norm_num : ¬(1 : Nat) = 0)] at hp
    rw [if_neg (by simp [hhc] : ¬¬ sort_has_comparator ty)] at hp
    have h1 : ¬((some "counting" : Option String) = none ∨
        (some "counting" : Option String) = some "auto" ∨
        (some "counting" : Option String) = some "quick") := by simp
    have h2 : (some "counting" : Option String) ≠ some "merge" := by simp
    have h3 : (some "counting" : Option String) ≠ some "heap" := by simp
    have h4 : (some "counting" : Option String) ≠ some "insertion" := by simp
    have h5 : (some "counting" : Option String) ≠ some "shell" := by simp
    have h6 : (some "counting" : Option String) ≠ some "bubble" := by simp
    rw [if_neg h1, if_neg h2, if_neg h3, if_neg h4, if_neg h5, if_neg h6,
      if_pos rfl] at hp
    by_cases hr : (fossil_sort_counting_stub 1 desc (l.map (toUnsigned 1))).1 = 0
    · rw [if_pos hr] at hp
      obtain rfl := Option.some_injective _ hp
      obtain ⟨hperm, hasc, hdsc⟩ := fossil_sort_counting_stub_spec 1 desc
        (l.map (toUnsigned 1)) hr
      have hid : ∀ v ∈ l, (ofUnsigned 1 false ∘ toUnsigned 1) v = id v := by
        intro v hv
        obtain ⟨hv0, hvlt⟩ := hrange v hv
        show ofUnsigned 1 false (toUnsigned 1 v) = v
        rw [ofUnsigned_false_eq]
        exact toUnsigned_one_cast v hv0 hvlt
      refine ⟨?_, ?_, ?_⟩
      · refine (hperm.map (ofUnsigned 1 false)).trans ?_
        rw [List.map_map, List.map_congr_left hid, List.map_id]
      · intro hd
        refine List.Pairwise.map (ofUnsigned 1 false) ?_ (hasc hd)
        intro a b hab
        rw [ofUnsigned_false_eq, ofUnsigned_false_eq]
        exact Int.ofNat_le.2 hab
      · intro hd
        refine List.Pairwise.map (ofUnsigned 1 false) ?_ (hdsc hd)
        intro a b hab
        rw [ofUnsigned_false_eq, ofUnsigned_false_eq]
        exact Int.ofNat_le.2 hab
    · rw [if_neg hr] at hp
      obtain rfl := Option.some_injective _ hp
      exact absurd h0 hr

/-- A successful `counting` dispatch on any width-1 type — signed or not —
permutes the buffer's byte reinterpretations and orders the result by the
unsigned byte reinterpretation in the decoded direction. -/
theorem sort_exec_counting_reinterp_spec (l : List Int) (ty : String) (desc : Bool)
    (hts : sort_type_sizeof (some ty) = 1)
    (hhc : sort_has_comparator ty = true) :
    ∀ p, sort_exec_core (some l) (some ty) (some "counting") desc = some p → p.1 = 0 →
      List.Perm (p.2.map (toUnsigned 1)) (l.map (toUnsigned 1)) ∧
      (desc = false → List.Pairwise (fun a b : Int => toUnsigned 1 a ≤ toUnsigned 1 b) p.2) ∧
      (desc = true → List.Pairwise (fun a b : Int => toUnsigned 1 b ≤ toUnsigned 1 a) p.2) := by
  intro p hp h0
  unfold sort_exec_core at hp
  dsimp only at hp
  rw [hts] at hp
  by_cases hl0 : l.length = 0
  · rw [if_pos hl0] at hp
    obtain rfl := Option.some_injective _ hp
    exact absurd h0 (by norm_num)
  · rw [if_neg hl0] at hp
    rw [if_neg (by norm_num : ¬(1 : Nat) = 0)] at hp
    rw [if_neg (by simp [hhc] : ¬¬ sort_has_comparator ty)] at hp
    have h1 : ¬((some "counting" : Option String) = none ∨
        (some "counting" : Option String) = some "auto" ∨
        (some "counting" : Option String) = some "quick") := by simp
    have h2 : (some "counting" : Option String) ≠ some "merge" := by simp
    have h3 : (some "counting" : Option String) ≠ some "heap" := by simp
    have h4 : (some "counting" : Option String) ≠ some "insertion" := by simp
    have h5 : (some "counting" : Option String) ≠ some "shell" := by simp
    have h6 : (some "counting" : Option String) ≠ some "bubble" := by simp
    rw [if_neg h1, if_neg h2, if_neg h3, if_neg h4, if_neg h5, if_neg h6,
      if_pos rfl] at hp
    by_cases hr : (fossil_sort_counting_stub 1 desc (l.map (toUnsigned 1))).1 = 0
    · rw [if_pos hr] at hp
      obtain rfl := Option.some_injective _ hp
      obtain ⟨hperm, hasc, hdsc⟩ := fossil_sort_counting_stub_spec 1 desc
        (l.map (toUnsigned 1)) hr
      have hmemr : ∀ u ∈ (fossil_sort_counting_stub 1 desc (l.map (toUnsigned 1))).2,
          u < 256 := by
        intro u hu
        obtain ⟨v, -, rfl⟩ := List.mem_map.1 (hperm.mem_iff.1 hu)
        exact toUnsigned_one_lt v
      refine ⟨?_, ?_, ?_⟩
      · show List.Perm (((fossil_sort_counting_stub 1 desc
            (l.map (toUnsigned 1))).2.map (ofUnsigned 1 (sort_type_signed ty))).map
            (toUnsigned 1)) (l.map (toUnsigned 1))
        rw [List.map_map]
        have hco : ∀ u ∈ (fossil_sort_counting_stub 1 desc (l.map (toUnsigned 1))).2,
            (toUnsigned 1 ∘ ofUnsigned 1 (sort_type_signed ty)) u = id u := fun u hu =>
          toUnsigned_ofUnsigned_one (sort_type_signed ty) u (hmemr u hu)
        rw [List.map_congr_left hco, List.map_id]
        exact hperm
      · intro hd
        have hnat : List.Pairwise (fun a b : Nat => a ≤ b ∧ a < 256 ∧ b < 256)
            (fossil_sort_counting_stub 1 desc (l.map (toUnsigned 1))).2 := by
          apply (hasc hd).imp_of_mem
          intro a b ha hb hab
          exact ⟨hab, hmemr a ha, hmemr b hb⟩
        refine List.Pairwise.map (ofUnsigned 1 (sort_type_signed ty)) ?_ hnat
        intro a b hab
        rw [toUnsigned_ofUnsigned_one _ a hab.2.1, toUnsigned_ofUnsigned_one _ b hab.2.2]
        exact hab.1
      · intro hd
        have hnat : List.Pairwise (fun a b : Nat => b ≤ a ∧ a < 256 ∧ b < 256)
            (fossil_sort_counting_stub 1 desc (l.map (toUnsigned 1))).2 := by
          apply (hdsc hd).imp_of_mem
          intro a b ha hb hab
          exact ⟨hab, hmemr a ha, hmemr b hb⟩
        refine List.Pairwise.map (ofUnsigned 1 (sort_type_signed ty)) ?_ hnat
        intro a b hab
        rw [toUnsigned_ofUnsigned_one _ a hab.2.1, toUnsigned_ofUnsigned_one _ b hab.2.2]
        exact hab.1
    · rw [if_neg hr] at hp
      obtain rfl := Option.some_injective _ hp
      exact absurd h0 hr

/-- A successful `radix` dispatch on a width-4 unsigned type, with values
small enough that the 32-bit `exp` counter never wraps (below `10^9`),
sorts the buffer in the decoded direction and permutes it. -/
theorem sort_exec_radix_spec (l : List Int) (ty : String) (desc : Bool)
    (hts : sort_type_sizeof (some ty) = 4) (hsg : sort_type_signed ty = false)
    (hhc : sort_has_comparator ty = true)
    (hrange : ∀ v ∈ l, 0 ≤ v ∧ v < 1000000000) :
    ∀ p, sort_exec_core (some l) (some ty) (some "radix") desc = some p → p.1 = 0 →
      List.Perm p.2 l ∧
      (desc = false → List.Pairwise (fun a b : Int => a ≤ b) p.2) ∧
      (desc = true → List.Pairwise (fun a b : Int => b ≤ a) p.2) := by
  intro p hp h0
  unfold sort_exec_core at hp
  dsimp only at hp
  rw [hts, hsg] at hp
  by_cases hl0 : l.length = 0
  · rw [if_pos hl0] at hp
    obtain rfl := Option.some_injective _ hp
    exact absurd h0 (by norm_num)
  · rw [if_neg hl0] at hp
    rw [if_neg (by norm_num : ¬(4 : Nat) = 0)] at hp
    rw [if_neg (by simp [hhc] : ¬¬ sort_has_comparator ty)] at hp
    have h1 : ¬((some "radix" : Option String) = none ∨
        (some "radix" : Option String) = some "auto" ∨
        (some "radix" : Option String) = some "quick") := by simp
    have h2 : (some "radix" : Option String) ≠ some "merge" := by simp
    have h3 : (some "radix" : Option String) ≠ some "heap" := by simp
    have h4 : (some "radix" : Option String) ≠ some "insertion" := by simp
    have h5 : (some "radix" : Option String) ≠ some "shell" := by simp
    have h6 : (some "radix" : Option String) ≠ some "bubble" := by simp
    have h7 : (some "radix" : Option String) ≠ some "counting" := by simp
    rw [if_neg h1, if_neg h2, if_neg h3, if_neg h4, if_neg h5, if_neg h6, if_neg h7,
      if_pos rfl] at hp
    by_cases hlen2 : (l.map (toUnsigned 4)).length < 2
    · have hstub : fossil_sort_radix_stub 4 desc (l.map (toUnsigned 4)) =
          some (-16, l.map (toUnsigned 4)) := by
        unfold fossil_sort_radix_stub
        rw [if_pos (Or.inl hlen2)]
      rw [hstub] at hp
      dsimp only at hp
      obtain rfl := Option.some_injective _ hp
      rw [if_neg (by norm_num : ¬((-16 : Int) = 0))] at h0
      exact absurd h0 (by norm_num)
    · have hbound : ∀ u ∈ l.map (toUnsigned 4), u ≤ 999999999 := by
        intro u hu
        obtain ⟨v, hv, rfl⟩ := List.mem_map.1 hu
        obtain ⟨hv0, hvlt⟩ := hrange v hv
        unfold toUnsigned
        rw [Int.emod_eq_of_lt hv0 (lt_of_lt_of_le hvlt (by norm_num))]
        omega
      have hmax : foldMax (l.map (toUnsigned 4)) < 1000000000 := by
        have := foldMax_le hbound
        omega
      obtain ⟨out, hstub, hperm, hasc, hdsc⟩ := fossil_sort_radix_stub_spec 4 desc
        (l.map (toUnsigned 4)) hmax (by simpa using hlen2)
      rw [hstub] at hp
      dsimp only at hp
      rw [if_pos rfl] at hp
      obtain rfl := Option.some_injective _ hp
      have hid : ∀ v ∈ l, (ofUnsigned 4 false ∘ toUnsigned 4) v = id v := by
        intro v hv
        obtain ⟨hv0, hvlt⟩ := hrange v hv
        show ofUnsigned 4 false (toUnsigned 4 v) = v
        rw [ofUnsigned_false_eq]
        exact toUnsigned_four_cast v hv0 (by omega)
      refine ⟨?_, ?_, ?_⟩
      · refine ((hperm.map (ofUnsigned 4 false)).trans ?_)
        rw [List.map_map, List.map_congr_left hid, List.map_id]
      · intro hd
        refine List.Pairwise.map (ofUnsigned 4 false) ?_ (hasc hd)
        intro a b hab
        rw [ofUnsigned_false_eq, ofUnsigned_false_eq]
        exact Int.ofNat_le.2 hab
      · intro hd
        refine List.Pairwise.map (ofUnsigned 4 false) ?_ (hdsc hd)
        intro a b hab
        rw [ofUnsigned_false_eq, ofUnsigned_false_eq]
        exact Int.ofNat_le.2 hab

set_option maxRecDepth 8000 in
/-- C5 counterexample: the live code's `counting` branch accepts every
width-1 type and sorts by the unsigned byte reinterpretation, so a
successful ascending sort of the `i8` buffer `[-1, 0]` returns status `0`
with the buffer `[0, -1]`, which is not ascending. -/
theorem c5_counterexample :
    fossil_algorithm_sort_exec (some [-1, 0]) (some "i8") (some "counting")
      (some "asc") = some (0, [0, -1]) ∧
    ¬ List.Pairwise (fun a b : Int => a ≤ b) [0, -1] := by
  constructor
  · decide
  · decide

/-- C5 (amended): whenever `fossil_algorithm_sort_exec` returns (`some`)
a status-0 result, the returned buffer is as follows.  With any
comparator-driven algorithm id (null, `auto`, `quick`, `merge`, `heap`,
`insertion`, `shell`, `bubble`) it is a permutation of the input sorted in
the requested direction, both for the integer-like element types (first
conjunct) and for `cstr` buffers under `strcmp` order (second conjunct).
A successful `counting` call on an unsigned width-1 type with in-range
values does the same (third conjunct); on *any* width-1 type — including
the signed `i8`/`char` — it instead permutes the elements' byte
reinterpretations and orders the buffer by the unsigned reinterpretation
(fourth conjunct), which for signed values disagrees with value order (see
the counterexample).  A successful `radix` call on a width-4 unsigned type
sorts the buffer in the requested direction provided the values stay below
`10^9`, the regime in which the stub's 32-bit `exp` counter never wraps
(fifth conjunct); with larger maxima the wrapped loop runs extra
non-monotone passes or reaches its division by zero (`none`). -/
theorem c5_sort_exec_sorted_permutation_amended :
    (∀ (l : List Int) (ty : String) (algo order : Option String),
      (algo = none ∨ algo = some "auto" ∨ algo = some "quick" ∨
        algo = some "merge" ∨ algo = some "heap" ∨ algo = some "insertion" ∨
        algo = some "shell" ∨ algo = some "bubble") →
      ∀ p, fossil_algorithm_sort_exec (some l) (some ty) algo order = some p →
        p.1 = 0 →
        List.Perm p.2 l ∧
        (descOf order = false → List.Pairwise (fun a b : Int => a ≤ b) p.2) ∧
        (descOf order = true → List.Pairwise (fun a b : Int => b ≤ a) p.2)) ∧
    (∀ (l : List (List Nat)) (algo order : Option String),
      (algo = none ∨ algo = some "auto" ∨ algo = some "quick" ∨
        algo = some "merge" ∨ algo = some "heap" ∨ algo = some "insertion" ∨
        algo = some "shell" ∨ algo = some "bubble") →
      (cstr_sort_exec (some l) algo order).1 = 0 →
      List.Perm (cstr_sort_exec (some l) algo order).2 l ∧
      List.Pairwise (fun a b => compareCstr a b (descOf order) ≤ 0)
        (cstr_sort_exec (some l) algo order).2) ∧
    (∀ (l : List Int) (ty : String) (order : Option String),
      sort_type_sizeof (some ty) = 1 → sort_type_signed ty = false →
      sort_has_comparator ty = true → (∀ v ∈ l, 0 ≤ v ∧ v < 256) →
      ∀ p, fossil_algorithm_sort_exec (some l) (some ty) (some "counting") order =
          some p → p.1 = 0 →
        List.Perm p.2 l ∧
        (descOf order = false → List.Pairwise (fun a b : Int => a ≤ b) p.2) ∧
        (descOf order = true → List.Pairwise (fun a b : Int => b ≤ a) p.2)) ∧
    (∀ (l : List Int) (ty : String) (order : Option String),
      sort_type_sizeof (some ty) = 1 → sort_has_comparator ty = true →
      ∀ p, fossil_algorithm_sort_exec (some l) (some ty) (some "counting") order =
          some p → p.1 = 0 →
        List.Perm (p.2.map (toUnsigned 1)) (l.map (toUnsigned 1)) ∧
        (descOf order = false →
          List.Pairwise (fun a b : Int => toUnsigned 1 a ≤ toUnsigned 1 b) p.2) ∧
        (descOf order = true →
          List.Pairwise (fun a b : Int => toUnsigned 1 b ≤ toUnsigned 1 a) p.2)) ∧
    (∀ (l : List Int) (ty : String) (order : Option String),
      sort_type_sizeof (some ty) = 4 → sort_type_signed ty = false →
      sort_has_comparator ty = true → (∀ v ∈ l, 0 ≤ v ∧ v < 1000000000) →
      ∀ p, fossil_algorithm_sort_exec (some l) (some ty) (some "radix") order =
          some p → p.1 = 0 →
        List.Perm p.2 l ∧
        (descOf order = false → List.Pairwise (fun a b : Int => a ≤ b) p.2) ∧
        (descOf order = true → List.Pairwise (fun a b : Int => b ≤ a) p.2)) := by
  refine ⟨?_, ?_, ?_, ?_, ?_⟩
  · intro l ty algo order halgo p hp h0
    obtain ⟨hsort, hperm⟩ := sort_exec_comparator_spec l ty algo (descOf order)
      halgo p hp h0
    refine ⟨hperm, ?_, ?_⟩
    · intro hd
      refine List.Pairwise.imp ?_ hsort
      intro a b hab
      rw [compareNum_nonpos_iff, hd] at hab
      simpa using hab
    · intro hd
      refine List.Pairwise.imp ?_ hsort
      intro a b hab
      rw [compareNum_nonpos_iff, hd] at hab
      simpa using hab
  · intro l algo order halgo hok
    obtain ⟨hsort, hperm⟩ := cstr_sort_exec_comparator_spec l algo (descOf order)
      halgo hok
    exact ⟨hperm, hsort⟩
  · intro l ty order h1 h2 h3 h4 p hp h0
    exact sort_exec_counting_spec l ty (descOf order) h1 h2 h3 h4 p hp h0
  · intro l ty order h1 h2 p hp h0
    exact sort_exec_counting_reinterp_spec l ty (descOf order) h1 h2 p hp h0
  · intro l ty order h1 h2 h3 h4 p hp h0
    exact sort_exec_radix_spec l ty (descOf order) h1 h2 h3 h4 p hp h0

set_option maxRecDepth 8000 in
/-- C5 witness: concrete successful sorts through each family of branches —
`i32` insertion, `cstr` insertion, `u8` counting (descending), `i8`
counting (byte-reinterpretation order), and `u32` radix — each giving the
stated permutation and ordering. -/
theorem c5_sort_exec_sorted_permutation_amended_witness :
    (List.Perm ([1, 2, 3] : List Int) [3, 1, 2] ∧
      (descOf none = false → List.Pairwise (fun a b : Int => a ≤ b) [1, 2, 3]) ∧
      (descOf none = true → List.Pairwise (fun a b : Int => b ≤ a) [1, 2, 3])) ∧
    (List.Perm (cstr_sort_exec (some [[98], [97]]) (some "insertion") none).2
        [[98], [97]] ∧
      List.Pairwise (fun a b => compareCstr a b (descOf none) ≤ 0)
        (cstr_sort_exec (some [[98], [97]]) (some "insertion") none).2) ∧
    (List.Perm ([250, 7, 3] : List Int) [250, 3, 7] ∧
      (descOf (some "desc") = false →
        List.Pairwise (fun a b : Int => a ≤ b) [250, 7, 3]) ∧
      (descOf (some "desc") = true →
        List.Pairwise (fun a b : Int => b ≤ a) [250, 7, 3])) ∧
    (List.Perm [0, 255] [255, 0] ∧
      (descOf (some "asc") = false →
        List.Pairwise (fun a b : Int => toUnsigned 1 a ≤ toUnsigned 1 b) [0, -1]) ∧
      (descOf (some "asc") = true →
        List.Pairwise (fun a b : Int => toUnsigned 1 b ≤ toUnsigned 1 a) [0, -1])) ∧
    (List.Perm ([2, 5, 9] : List Int) [9, 2, 5] ∧
      (descOf none = false → List.Pairwise (fun a b : Int => a ≤ b) [2, 5, 9]) ∧
      (descOf none = true → List.Pairwise (fun a b : Int => b ≤ a) [2, 5, 9])) :=
  by
  refine ⟨?_, ?_, ?_, ?_, ?_⟩
  · exact c5_sort_exec_sorted_permutation_amended.1 [3, 1, 2] "i32" (some "insertion")
      none (by decide) ((0 : Int), [1, 2, 3]) (by decide) (by decide)
  · exact c5_sort_exec_sorted_permutation_amended.2.1 [[98], [97]] (some "insertion")
      none (by decide) (by decide)
  · exact c5_sort_exec_sorted_permutation_amended.2.2.1 [250, 3, 7] "u8" (some "desc")
      (by decide) (by decide) (by decide) (by decide)
      ((0 : Int), [250, 7, 3]) (by decide) (by decide)
  · exact c5_sort_exec_sorted_permutation_amended.2.2.2.1 [-1, 0] "i8" (some "asc")
      (by decide) (by decide) ((0 : Int), [0, -1]) (by decide) (by decide)
  · exact c5_sort_exec_sorted_permutation_amended.2.2.2.2 [9, 2, 5] "u32" none
      (by decide) (by decide) (by decide) (by decide)
      ((0 : Int), [2, 5, 9]) (by decide) (by decide)

/-! ## Claim C6 -/

theorem interpLoop_isSome {α : Type} [Inhabited α] (cmp : α → α → Bool → Int)
    (view : α → Int) (est : Nat → Nat → Int → Int → Int → Nat)
    (l : List α) (key : α) (kv : Int) (desc : Bool) :
    ∀ (fuel low high : Nat), high + 1 - low < fuel →
      (interpLoop cmp view est l key kv desc low high fuel).isSome := by
  intro fuel
  induction fuel with
  | zero => intro low high h; omega
  | succ fuel ih =>
    intro low high h
    simp only [interpLoop]
    by_cases hcond : low ≤ high ∧
        (if desc then kv ≤ view (l.getD low default) ∧ view (l.getD high default) ≤ kv
         else view (l.getD low default) ≤ kv ∧ kv ≤ view (l.getD high default))
    · rw [if_pos hcond]
      by_cases hflat : view (l.getD high default) = view (l.getD low default)
      · rw [if_pos hflat]
        split_ifs <;> simp
      · rw [if_neg hflat]
        set pos := est low high kv (view (l.getD low default)) (view (l.getD high default))
          with hpos
        by_cases hout : pos < low ∨ high < pos
        · rw [if_pos hout]; simp
        · rw [if_neg hout]
          by_cases hhit : cmp (l.getD pos default) key desc = 0
          · rw [if_pos hhit]; simp
          · rw [if_neg hhit]
            have hlh : low ≤ high := hcond.1
            have hpl : low ≤ pos := by omega
            have hph : pos ≤ high := by omega
            by_cases hdir : (if desc then view (l.getD pos default) < kv
                else kv < view (l.getD pos default))
            · rw [if_pos hdir]
              have hpos1 : 1 ≤ pos := by
                by_contra hp0
                have hp : pos = 0 := by omega
                have hl0 : low = 0 := by omega
                rw [hp] at hdir
                rw [hl0] at hcond
                cases desc with
                | false =>
                  simp at hcond hdir
                  omega
                | true =>
                  simp at hcond hdir
                  omega
              exact ih low (pos - 1) (by omega)
            · rw [if_neg hdir]
              exact ih (pos + 1) high (by omega)
    · rw [if_neg hcond]; simp

/-- C6: the `search_interpolation` loop terminates for every non-empty
buffer, key and direction — including degenerate brackets where
`arr[low] == arr[high]`, whose branch either returns the match at `low` or
leaves the loop — and for **every** position-estimate function (hence in
particular the C code's floating-point estimate): with the `count + 1`
fuel that `search_interpolation` supplies, the loop always reaches a
`return` and never exhausts its fuel.  The `high = pos - 1` update can
never wrap below zero: `pos = 0` in that branch contradicts the loop
condition, as the proof shows. -/
theorem c6_interpolation_search_terminates :
    ∀ (α : Type) (_inst : Inhabited α) (cmp : α → α → Bool → Int) (view : α → Int)
      (est : Nat → Nat → Int → Int → Int → Nat) (l : List α) (key : α) (kv : Int)
      (desc : Bool), l ≠ [] →
      (interpLoop cmp view est l key kv desc 0 (l.length - 1) (l.length + 1)).isSome := by
  intro α inst cmp view est l key kv desc hl
  have hlen : 1 ≤ l.length := by
    cases l with
    | nil => exact absurd rfl hl
    | cons a t => simp
  exact interpLoop_isSome cmp view est l key kv desc (l.length + 1) 0 (l.length - 1)
    (by omega)

/-- C6 witness: a constant-valued (degenerate) bracket with the model's
own estimate function, both for a matching and a non-matching key. -/
theorem c6_interpolation_search_terminates_witness :
    ([5, 5, 5] : List Int) ≠ [] ∧
    (interpLoop compareNum id interpEstC ([5, 5, 5] : List Int) 5 5 false 0 2 4).isSome ∧
    (interpLoop compareNum id interpEstC ([5, 5, 5] : List Int) 7 7 false 0 2 4).isSome :=
  ⟨by decide,
    c6_interpolation_search_terminates Int ⟨0⟩ compareNum id interpEstC [5, 5, 5] 5 5 false
      (by decide),
    c6_interpolation_search_terminates Int ⟨0⟩ compareNum id interpEstC [5, 5, 5] 7 7 false
      (by decide)⟩

/-! ## Claim C10 -/

/-- C10: the three engines disagree on the reserved identifiers `"any"`
and `"null"`: the shuffle registry resolves both to pointer width 8, so
`fossil_algorithm_shuffle_exec` shuffles such buffers successfully (status
`0`, output a permutation), while the sort and search registries resolve
them to width 0, so sort calls fail with `-2` (unknown type) and search
calls with `-3` for every buffer, algorithm and order. -/
theorem c10_reserved_type_ids_disagree :
    shuffle_type_sizeof (some "any") = 8 ∧ shuffle_type_sizeof (some "null") = 8 ∧
    sort_type_sizeof (some "any") = 0 ∧ sort_type_sizeof (some "null") = 0 ∧
    search_type_sizeof (some "any") = 0 ∧ search_type_sizeof (some "null") = 0 ∧
    (∀ (α : Type) (_inst : Inhabited α) (time addr : Nat) (rng : Nat → Nat → Nat)
      (l : List α) (algo mode : Option String) (seed : Nat) (ty : String),
      (ty = "any" ∨ ty = "null") → l ≠ [] →
      (algo = none ∨ algo = some "auto" ∨ algo = some "fisher-yates" ∨
        algo = some "inside-out") →
      (fossil_algorithm_shuffle_exec time addr rng (some l) (some ty) algo mode seed).1 = 0 ∧
      List.Perm
        (fossil_algorithm_shuffle_exec time addr rng (some l) (some ty) algo mode seed).2 l) ∧
    (∀ (l : List Int) (algo order : Option String) (ty : String),
      (ty = "any" ∨ ty = "null") → l ≠ [] →
      fossil_algorithm_sort_exec (some l) (some ty) algo order = some (-2, l)) ∧
    (∀ (l : List Int) (k : Int) (algo order : Option String) (ty : String),
      (ty = "any" ∨ ty = "null") → l ≠ [] →
      fossil_algorithm_search_exec (some l) (some k) (some ty) algo order = -3) := by
  refine ⟨rfl, rfl, rfl, rfl, rfl, rfl, ?_, ?_, ?_⟩
  · intro α inst time addr rng l algo mode seed ty hty hl halgo
    have h8 : shuffle_type_sizeof (some ty) ≠ 0 := by rcases hty with rfl | rfl <;> decide
    exact shuffle_exec_success_perm time addr rng l ty algo mode seed h8 hl halgo
  · intro l algo order ty hty hl
    have h0 : sort_type_sizeof (some ty) = 0 := by rcases hty with rfl | rfl <;> rfl
    exact sort_exec_unknown_type ty h0 l algo order hl
  · intro l k algo order ty hty hl
    have h0 : search_type_sizeof (some ty) = 0 := by rcases hty with rfl | rfl <;> rfl
    exact search_exec_unknown_type ty h0 l k algo order hl

/-- C10 witness. -/
theorem c10_reserved_type_ids_disagree_witness :
    (fossil_algorithm_shuffle_exec 3 4 (fun s t => s + 2 * t) (some ([8, 9] : List Int))
      (some "any") (some "auto") (some "auto") 0).1 = 0 ∧
    fossil_algorithm_sort_exec (some [8, 9]) (some "any") (some "quick") (some "asc") =
      some (-2, [8, 9]) ∧
    fossil_algorithm_search_exec (some [8, 9]) (some 8) (some "null") (some "linear")
      (some "asc") = -3 :=
  ⟨(c10_reserved_type_ids_disagree.2.2.2.2.2.2.1 Int ⟨0⟩ 3 4 (fun s t => s + 2 * t)
      [8, 9] (some "auto") (some "auto") 0 "any" (by simp) (by decide) (by simp)).1,
    c10_reserved_type_ids_disagree.2.2.2.2.2.2.2.1 [8, 9] (some "quick") (some "asc") "any"
      (by simp) (by decide),
    c10_reserved_type_ids_disagree.2.2.2.2.2.2.2.2 [8, 9] 8 (some "linear") (some "asc")
      "null" (by simp) (by decide)⟩

end FossilAlg

